import Mathlib

/-!
# A shallow embedding of `list<T>` (src/list.h)

The container is a circular doubly linked ring of `node` records around a
sentinel (`base`) that lives inside the `list` object.  Nodes are addressed by
natural numbers; a heap maps every address to its `prev`/`next` links, to the
payload stored there, and records which addresses hold a live object.

* pointer reads and writes become reads and point updates of the heap maps,
  executed in the order of the source statements;
* `new value_node(...)` asks an environment for storage and for the outcome of
  `T`'s copy constructor; both may fail, which is how exceptions arise;
* loops whose termination depends on the shape of the heap carry a fuel
  argument and answer `none` when it runs out;
* `delete` ends the life of a node and leaves its bytes alone; nothing in the
  source reads a node after deleting it.

Lists are described by the predicate `WF h b ns`: in the heap `h` the sentinel
at `b` and the value nodes `ns`, in forward order, form a closed ring.
-/

namespace CppList

/-- Point update of a map from addresses. -/
def upd {α : Type} (f : Nat → α) (a : Nat) (v : α) : Nat → α :=
  fun x => if x = a then v else f x

/-- Memory: the two link fields of `struct node`, the `value` field of
`struct value_node`, and the set of addresses that hold a live object. -/
structure Heap (T : Type) where
  prev : Nat → Nat
  next : Nat → Nat
  value : Nat → T
  live : Nat → Bool

/-- The exceptions that can leave a `new value_node(...)` expression. -/
inductive Exn where
  | bad_alloc
  | copy_throw
  deriving DecidableEq, Repr

/-- What the surroundings of the container decide: where `operator new` places
a node (or that it fails) and whether a given run of `T`'s copy constructor
succeeds.  Storage handed out by `operator new` never overlaps a live
object. -/
structure Env (T : Type) where
  alloc : Heap T → Option Nat
  copy_ok : Heap T → T → Bool
  alloc_fresh : ∀ h a, alloc h = some a → h.live a = false

/-- Result of an operation that may throw: the heap after normal completion
together with the returned value, or the exception together with the heap left
behind once it has propagated. -/
inductive Outcome (T α : Type) where
  | ok : Heap T → α → Outcome T α
  | raised : Exn → Heap T → Outcome T α

/-- `list() noexcept = default`: the sentinel `base` at address `self` is
initialised by `prev{this}` and `next{this}`. -/
def list_default {T : Type} (h : Heap T) (self : Nat) : Heap T :=
  { h with prev := upd h.prev self self, next := upd h.next self self,
           live := upd h.live self true }

/-- `empty()`: `base.next == &base`. -/
def empty {T : Type} (h : Heap T) (self : Nat) : Bool :=
  decide (h.next self = self)

/-- `begin()`: `iterator(base.next)`. -/
def begin_ {T : Type} (h : Heap T) (self : Nat) : Nat :=
  h.next self

/-- `end()`: `iterator(&base)`. -/
def end_ {T : Type} (_h : Heap T) (self : Nat) : Nat :=
  self

/-- `front()`: `*(begin())`. -/
def front {T : Type} (h : Heap T) (self : Nat) : T :=
  h.value (begin_ h self)

/-- `back()`: `*(std::prev(end()))`. -/
def back {T : Type} (h : Heap T) (self : Nat) : T :=
  h.value (h.prev (end_ h self))

/-- The loop `for (it = first; it != stop; ++it) yield *it`. -/
def iterate {T : Type} (h : Heap T) (stop : Nat) : Nat → Nat → Option (List T)
  | 0, it => if it = stop then some [] else none
  | fuel + 1, it =>
    if it = stop then some []
    else (iterate h stop fuel (h.next it)).map (fun r => h.value it :: r)

/-- Forward iteration from `begin()` to `end()`. -/
def to_list {T : Type} (fuel : Nat) (h : Heap T) (self : Nat) : Option (List T) :=
  iterate h (end_ h self) fuel (begin_ h self)

/-- The loop `for (r = reverse_iterator(first); r.base() != stop; ++r) yield *r`
of `std::reverse_iterator`: dereferencing reads the node before `r.base()` and
incrementing moves `r.base()` to `prev`. -/
def riterate {T : Type} (h : Heap T) (stop : Nat) : Nat → Nat → Option (List T)
  | 0, it => if it = stop then some [] else none
  | fuel + 1, it =>
    if it = stop then some []
    else (riterate h stop fuel (h.prev it)).map (fun r => h.value (h.prev it) :: r)

/-- Reverse iteration from `rbegin()` (built on `end()`) to `rend()` (built on
`begin()`). -/
def to_list_rev {T : Type} (fuel : Nat) (h : Heap T) (self : Nat) : Option (List T) :=
  riterate h (begin_ h self) fuel (end_ h self)

/-- Storage at `a` holding a `node` after its default member initialisers
`prev{this}` and `next{this}` have run. -/
def raw_node {T : Type} (h : Heap T) (a : Nat) : Heap T :=
  { h with prev := upd h.prev a a, next := upd h.next a a, live := upd h.live a true }

/-- `new value_node(prev_, next_, val)`: obtain storage, run the default member
initialisers of `node`, copy the payload, then run the constructor body.  When
the copy throws the storage is given back. -/
def new_value_node {T : Type} (E : Env T) (h : Heap T) (prev_ next_ : Nat) (val : T) :
    Outcome T Nat :=
  match E.alloc h with
  | none => Outcome.raised Exn.bad_alloc h
  | some a =>
    let h1 : Heap T := raw_node h a
    if E.copy_ok h1 val then
      Outcome.ok
        { h1 with value := upd h1.value a val, prev := upd h1.prev a prev_,
                  next := upd h1.next a next_ } a
    else Outcome.raised Exn.copy_throw { h1 with live := upd h1.live a false }

/-- `insert(pos, val)`. -/
def insert {T : Type} (E : Env T) (h : Heap T) (pos : Nat) (val : T) : Outcome T Nat :=
  match new_value_node E h (h.prev pos) pos val with
  | Outcome.raised e h1 => Outcome.raised e h1
  | Outcome.ok h1 curr =>
    let h2 : Heap T := { h1 with next := upd h1.next (h1.prev pos) curr }
    let h3 : Heap T := { h2 with prev := upd h2.prev pos curr }
    Outcome.ok h3 curr

/-- `push_front(val)`: `insert(begin(), val)`, the iterator is dropped. -/
def push_front {T : Type} (E : Env T) (h : Heap T) (self : Nat) (val : T) : Outcome T Unit :=
  match insert E h (begin_ h self) val with
  | Outcome.raised e h1 => Outcome.raised e h1
  | Outcome.ok h1 _ => Outcome.ok h1 ()

/-- `push_back(val)`: `insert(end(), val)`, the iterator is dropped. -/
def push_back {T : Type} (E : Env T) (h : Heap T) (self : Nat) (val : T) : Outcome T Unit :=
  match insert E h (end_ h self) val with
  | Outcome.raised e h1 => Outcome.raised e h1
  | Outcome.ok h1 _ => Outcome.ok h1 ()

/-- `delete static_cast<value_node*>(p)`: the object at `p` stops being live. -/
def delete_node {T : Type} (h : Heap T) (p : Nat) : Heap T :=
  { h with live := upd h.live p false }

/-- The loop of `erase(first, last)`:
`while (curr1 != last) { tmp = curr1->next; delete curr1; curr1 = tmp; }`. -/
def delete_loop {T : Type} (last : Nat) : Nat → Heap T → Nat → Option (Heap T)
  | 0, h, curr1 => if curr1 = last then some h else none
  | fuel + 1, h, curr1 =>
    if curr1 = last then some h
    else delete_loop last fuel (delete_node h curr1) (h.next curr1)

/-- `erase(first, last)`; the result is the new heap and the returned
iterator. -/
def erase_range {T : Type} (fuel : Nat) (h : Heap T) (first last : Nat) :
    Option (Heap T × Nat) :=
  if first ≠ last then
    let h1 : Heap T := { h with next := upd h.next (h.prev first) last }
    let h2 : Heap T := { h1 with prev := upd h1.prev last (h1.prev first) }
    (delete_loop last fuel h2 first).map (fun h3 => (h3, last))
  else some (h, last)

/-- `erase(pos)`: `erase(pos, std::next(pos))`. -/
def erase {T : Type} (fuel : Nat) (h : Heap T) (pos : Nat) : Option (Heap T × Nat) :=
  erase_range fuel h pos (h.next pos)

/-- `pop_front()`: `erase(begin())`. -/
def pop_front {T : Type} (fuel : Nat) (h : Heap T) (self : Nat) : Option (Heap T) :=
  (erase fuel h (begin_ h self)).map Prod.fst

/-- `pop_back()`: `erase(std::prev(end()))`. -/
def pop_back {T : Type} (fuel : Nat) (h : Heap T) (self : Nat) : Option (Heap T) :=
  (erase fuel h (h.prev (end_ h self))).map Prod.fst

/-- `clear()`: `erase(begin(), end())`. -/
def clear {T : Type} (fuel : Nat) (h : Heap T) (self : Nat) : Option (Heap T) :=
  (erase_range fuel h (begin_ h self) (end_ h self)).map Prod.fst

/-- `~list()`: `erase(begin(), end())`. -/
def list_dtor {T : Type} (fuel : Nat) (h : Heap T) (self : Nat) : Option (Heap T) :=
  (erase_range fuel h (begin_ h self) (end_ h self)).map Prod.fst

/-- `splice(pos, other, first, last)`: six pointer writes, each reading the
heap left by the previous ones. -/
def splice {T : Type} (h : Heap T) (pos : Nat) (_other : Nat) (first last : Nat) : Heap T :=
  if first = last then h
  else
    let tmp_pos := pos
    let tmp_first := first
    let tmp_last := h.prev last
    let h1 : Heap T := { h with prev := upd h.prev (h.next tmp_last) (h.prev tmp_first) }
    let h2 : Heap T := { h1 with next := upd h1.next (h1.prev tmp_first) (h1.next tmp_last) }
    let h3 : Heap T := { h2 with next := upd h2.next tmp_last tmp_pos }
    let h4 : Heap T := { h3 with prev := upd h3.prev tmp_first (h3.prev tmp_pos) }
    let h5 : Heap T := { h4 with next := upd h4.next (h4.prev tmp_pos) tmp_first }
    { h5 with prev := upd h5.prev tmp_pos tmp_last }

/-- `std::swap(base, other.base)` on two `node` records: both link fields are
exchanged. -/
def swap_nodes {T : Type} (h : Heap T) (a b : Nat) : Heap T :=
  { h with prev := upd (upd h.prev a (h.prev b)) b (h.prev a),
           next := upd (upd h.next a (h.next b)) b (h.next a) }

/-- First half of `swap`: redirect the ring around `self` to `other`. -/
def swap_retarget {T : Type} (h : Heap T) (self other : Nat) : Heap T :=
  if empty h self then
    let h1 : Heap T := { h with prev := upd h.prev self other }
    { h1 with next := upd h1.next self other }
  else
    let h1 : Heap T := { h with next := upd h.next (h.prev self) other }
    { h1 with prev := upd h1.prev (h1.next self) other }

/-- `swap(other)`. -/
def swap {T : Type} (h : Heap T) (self other : Nat) : Heap T :=
  let h1 := swap_retarget h self other
  let h2 := swap_retarget h1 other self
  swap_nodes h2 self other

/-- The loop of the copy constructor: `for (auto &i : other) push_back(i);`. -/
def copy_loop {T : Type} (E : Env T) (self stop : Nat) :
    Nat → Heap T → Nat → Option (Outcome T Unit)
  | 0, h, it => if it = stop then some (Outcome.ok h ()) else none
  | fuel + 1, h, it =>
    if it = stop then some (Outcome.ok h ())
    else
      match push_back E h self (h.value it) with
      | Outcome.raised e h1 => some (Outcome.raised e h1)
      | Outcome.ok h1 _ => copy_loop E self stop fuel h1 (h1.next it)

/-- The storage of the object at `p` goes away. -/
def release {T : Type} (h : Heap T) (p : Nat) : Heap T :=
  { h with live := upd h.live p false }

/-- `list(list const& other) : list()`, constructing at address `self`.  The
delegated-to constructor has completed when the body runs, so an exception
leaving the body runs `~list()` on the partly filled list before its storage
is given up. -/
def list_copy {T : Type} (E : Env T) (fuel : Nat) (h : Heap T) (self other : Nat) :
    Option (Outcome T Unit) :=
  let h0 := list_default h self
  match copy_loop E self (end_ h0 other) fuel h0 (begin_ h0 other) with
  | none => none
  | some (Outcome.ok h1 _) => some (Outcome.ok h1 ())
  | some (Outcome.raised e h1) =>
    match list_dtor fuel h1 self with
    | none => none
    | some h2 => some (Outcome.raised e (release h2 self))

/-- `operator=(list const& other)`; `tmp` is the address at which the temporary
`list(other)` is built.  The temporary is destroyed at the end of the full
expression. -/
def assign {T : Type} (E : Env T) (fuel : Nat) (h : Heap T) (self other tmp : Nat) :
    Option (Outcome T Unit) :=
  if self ≠ other then
    match list_copy E fuel h tmp other with
    | none => none
    | some (Outcome.raised e h1) => some (Outcome.raised e h1)
    | some (Outcome.ok h1 _) =>
      let h2 := swap h1 tmp self
      match list_dtor fuel h2 tmp with
      | none => none
      | some h3 => some (Outcome.ok (release h3 tmp) ())
  else some (Outcome.ok h ())

/-! ## Specification vocabulary -/

/-- The heap left behind by an operation, on either exit. -/
def Outcome.heap {T α : Type} : Outcome T α → Heap T
  | Outcome.ok h _ => h
  | Outcome.raised _ h => h

/-- Whether the operation returned normally. -/
def Outcome.succeeded {T α : Type} : Outcome T α → Bool
  | Outcome.ok _ _ => true
  | Outcome.raised _ _ => false

/-- `Seg h x l y`: following `next` from `x` visits exactly the nodes `l` and
then reaches `y`, and every `prev` link along the way points back. -/
def Seg {T : Type} (h : Heap T) : Nat → List Nat → Nat → Prop
  | x, [], y => h.next x = y ∧ h.prev y = x
  | x, n :: l, y => h.next x = n ∧ h.prev n = x ∧ Seg h n l y

instance Seg.decide {T : Type} (h : Heap T) :
    (x : Nat) → (l : List Nat) → (y : Nat) → Decidable (Seg h x l y)
  | x, [], y => inferInstanceAs (Decidable (h.next x = y ∧ h.prev y = x))
  | x, n :: l, y =>
    have := Seg.decide h n l y
    inferInstanceAs (Decidable (h.next x = n ∧ h.prev n = x ∧ Seg h n l y))

/-- A well-formed list: the sentinel `b` and the value nodes `ns`, in forward
order, form a closed ring of pairwise distinct live nodes. -/
def WF {T : Type} (h : Heap T) (b : Nat) (ns : List Nat) : Prop :=
  Seg h b ns b ∧ (b :: ns).Nodup ∧ ∀ a ∈ b :: ns, h.live a = true

instance WF.decide {T : Type} (h : Heap T) (b : Nat) (ns : List Nat) : Decidable (WF h b ns) :=
  inferInstanceAs (Decidable (Seg h b ns b ∧ (b :: ns).Nodup ∧ ∀ a ∈ b :: ns, h.live a = true))

/-- The position denoting the start of the suffix `s` of a list with sentinel
`b`: its first node, or `end()` when `s` is empty. -/
def pos_of (b : Nat) (s : List Nat) : Nat :=
  s.headD b

/-- Ring closure at every node of `ns`. -/
def RingClosed {T : Type} (h : Heap T) (ns : List Nat) : Prop :=
  ∀ n ∈ ns, h.prev (h.next n) = n ∧ h.next (h.prev n) = n

instance RingClosed.decide {T : Type} (h : Heap T) (ns : List Nat) : Decidable (RingClosed h ns) :=
  inferInstanceAs (Decidable (∀ n ∈ ns, h.prev (h.next n) = n ∧ h.next (h.prev n) = n))

/-- The two heaps have the same live objects, with the same contents. -/
def SameLive {T : Type} (h h1 : Heap T) : Prop :=
  h1.live = h.live ∧
    ∀ a, h.live a = true → h1.prev a = h.prev a ∧ h1.next a = h.next a ∧ h1.value a = h.value a

/-- The heap after `insert(pos, val)` has placed its new node at `c`. -/
def insert_heap {T : Type} (h : Heap T) (pos c : Nat) (val : T) : Heap T where
  prev := upd (upd h.prev c (h.prev pos)) pos c
  next := upd (upd h.next c pos) (h.prev pos) c
  value := upd h.value c val
  live := upd h.live c true

/-- `NextSeg h x l y`: following `next` from `x` visits exactly the nodes `l` and
then reaches `y`. -/
def NextSeg {T : Type} (h : Heap T) : Nat → List Nat → Nat → Prop
  | x, [], y => h.next x = y
  | x, n :: l, y => h.next x = n ∧ NextSeg h n l y

instance NextSeg.decide {T : Type} (h : Heap T) :
    (x : Nat) → (l : List Nat) → (y : Nat) → Decidable (NextSeg h x l y)
  | x, [], y => inferInstanceAs (Decidable (h.next x = y))
  | x, n :: l, y =>
    have := NextSeg.decide h n l y
    inferInstanceAs (Decidable (h.next x = n ∧ NextSeg h n l y))

/-- The nodes of the container with sentinel `b`: following `next` from `b`
visits the pairwise distinct live nodes `ns` and comes back to `b`. -/
def Container {T : Type} (h : Heap T) (b : Nat) (ns : List Nat) : Prop :=
  NextSeg h b ns b ∧ (b :: ns).Nodup ∧ ∀ a ∈ b :: ns, h.live a = true

instance Container.decide {T : Type} (h : Heap T) (b : Nat) (ns : List Nat) :
    Decidable (Container h b ns) :=
  inferInstanceAs
    (Decidable (NextSeg h b ns b ∧ (b :: ns).Nodup ∧ ∀ a ∈ b :: ns, h.live a = true))

/-- The container with sentinel `b` consists of the nodes `ns`, and ring closure
holds at the sentinel and at every one of them. -/
def ClosedRing {T : Type} (h : Heap T) (b : Nat) (ns : List Nat) : Prop :=
  Container h b ns ∧ RingClosed h (b :: ns)

instance ClosedRing.decide {T : Type} (h : Heap T) (b : Nat) (ns : List Nat) :
    Decidable (ClosedRing h b ns) :=
  inferInstanceAs (Decidable (Container h b ns ∧ RingClosed h (b :: ns)))

/-- Creating a value node for `val` on the heap `h` fails: either there is no
storage or the copy of the payload throws. -/
def creation_fails {T : Type} (E : Env T) (h : Heap T) (val : T) : Prop :=
  E.alloc h = none ∨ ∃ c, E.alloc h = some c ∧ E.copy_ok (raw_node h c) val = false

/-- `Grown h h1 t acc new`: from `h` to `h1` the list with sentinel `t` and nodes
`acc` has gained the freshly allocated nodes `new` at its end, and nothing else
that was live in `h` has changed. -/
def Grown {T : Type} (h h1 : Heap T) (t : Nat) (acc new : List Nat) : Prop :=
  WF h1 t (acc ++ new) ∧ (∀ x ∈ new, h.live x = false) ∧
    (∀ x, h1.live x = (h.live x || decide (x ∈ new))) ∧
    (∀ x, h.live x = true → h1.value x = h.value x) ∧
    (∀ x, h.live x = true → x ∉ t :: acc → h1.prev x = h.prev x ∧ h1.next x = h.next x)

/-- From `h` to `h1` the list with sentinel `b` has kept its nodes `lb` and their
payloads, so its forward sequence and its length are what they were. -/
def Keeps {T : Type} (h h1 : Heap T) (b : Nat) (lb : List Nat) : Prop :=
  WF h1 b lb ∧ lb.map h1.value = lb.map h.value

/-- Every `insert`, `push_front`, `push_back`, `erase`, `pop_front` and `pop_back`
applied to the list with sentinel `a` and nodes `la`, on normal and on
exceptional exit, terminates and leaves the list with sentinel `b` and nodes
`lb` as it was. -/
def MutationsKeep {T : Type} (E : Env T) (h : Heap T) (a : Nat) (la : List Nat) (b : Nat)
    (lb : List Nat) : Prop :=
  (∀ p s v, la = p ++ s → Keeps h (insert E h (pos_of a s) v).heap b lb) ∧
  (∀ v, Keeps h (push_front E h a v).heap b lb) ∧
  (∀ v, Keeps h (push_back E h a v).heap b lb) ∧
  (∀ p x s fuel, la = p ++ x :: s → 1 ≤ fuel →
    ∃ h1 r, erase fuel h x = some (h1, r) ∧ Keeps h h1 b lb) ∧
  (∀ p m s fuel, la = p ++ m ++ s → m.length ≤ fuel →
    ∃ h1 r, erase_range fuel h (pos_of a (m ++ s)) (pos_of a s) = some (h1, r) ∧
      Keeps h h1 b lb) ∧
  (∀ fuel, la ≠ [] → 1 ≤ fuel → ∃ h1, pop_front fuel h a = some h1 ∧ Keeps h h1 b lb) ∧
  (∀ fuel, la ≠ [] → 1 ≤ fuel → ∃ h1, pop_back fuel h a = some h1 ∧ Keeps h h1 b lb)

/-- The states a list can get into.  `Reachable E h b ns` holds when the list
with sentinel `b` has been default-constructed (or copy-constructed from a
reachable list) and has then gone through public operations called within their
preconditions, ending in the heap `h` with the value nodes `ns` in forward
order.  Operations on two lists take two reachable lists without common nodes;
`other` covers steps of the program that do not write to the nodes of this
list. -/
inductive Reachable {T : Type} (E : Env T) : Heap T → Nat → List Nat → Prop where
  | init (h : Heap T) (b : Nat) : Reachable E (list_default h b) b []
  | insert_ok (h h1 : Heap T) (b : Nat) (p s : List Nat) (v : T) (c : Nat) :
      Reachable E h b (p ++ s) → insert E h (pos_of b s) v = Outcome.ok h1 c →
      Reachable E h1 b (p ++ c :: s)
  | insert_raised (h h1 : Heap T) (b : Nat) (p s : List Nat) (v : T) (e : Exn) :
      Reachable E h b (p ++ s) → insert E h (pos_of b s) v = Outcome.raised e h1 →
      Reachable E h1 b (p ++ s)
  | push_front_ok (h h1 : Heap T) (b : Nat) (ns : List Nat) (v : T) (u : Unit) :
      Reachable E h b ns → push_front E h b v = Outcome.ok h1 u →
      Reachable E h1 b (begin_ h1 b :: ns)
  | push_front_raised (h h1 : Heap T) (b : Nat) (ns : List Nat) (v : T) (e : Exn) :
      Reachable E h b ns → push_front E h b v = Outcome.raised e h1 → Reachable E h1 b ns
  | push_back_ok (h h1 : Heap T) (b : Nat) (ns : List Nat) (v : T) (u : Unit) :
      Reachable E h b ns → push_back E h b v = Outcome.ok h1 u →
      Reachable E h1 b (ns ++ [h1.prev (end_ h1 b)])
  | push_back_raised (h h1 : Heap T) (b : Nat) (ns : List Nat) (v : T) (e : Exn) :
      Reachable E h b ns → push_back E h b v = Outcome.raised e h1 → Reachable E h1 b ns
  | erase_pos (h h1 : Heap T) (b : Nat) (p : List Nat) (x : Nat) (s : List Nat)
      (fuel r : Nat) :
      Reachable E h b (p ++ x :: s) → erase fuel h x = some (h1, r) → Reachable E h1 b (p ++ s)
  | erase_run (h h1 : Heap T) (b : Nat) (p m s : List Nat) (fuel r : Nat) :
      Reachable E h b (p ++ m ++ s) →
      erase_range fuel h (pos_of b (m ++ s)) (pos_of b s) = some (h1, r) →
      Reachable E h1 b (p ++ s)
  | pop_front_ok (h h1 : Heap T) (b x : Nat) (s : List Nat) (fuel : Nat) :
      Reachable E h b (x :: s) → pop_front fuel h b = some h1 → Reachable E h1 b s
  | pop_back_ok (h h1 : Heap T) (b y : Nat) (s : List Nat) (fuel : Nat) :
      Reachable E h b (s ++ [y]) → pop_back fuel h b = some h1 → Reachable E h1 b s
  | clear_ok (h h1 : Heap T) (b : Nat) (ns : List Nat) (fuel : Nat) :
      Reachable E h b ns → clear fuel h b = some h1 → Reachable E h1 b []
  | splice_same (h : Heap T) (b : Nat) (p m s u w : List Nat) :
      Reachable E h b (p ++ m ++ s) → p ++ s = u ++ w →
      Reachable E (splice h (pos_of b w) b (pos_of b (m ++ s)) (pos_of b s)) b (u ++ m ++ w)
  | splice_into (h : Heap T) (b1 b2 : Nat) (a bs p m s : List Nat) :
      Reachable E h b1 (a ++ bs) → Reachable E h b2 (p ++ m ++ s) →
      (∀ x ∈ b1 :: (a ++ bs), x ∉ b2 :: (p ++ m ++ s)) →
      Reachable E (splice h (pos_of b1 bs) b2 (pos_of b2 (m ++ s)) (pos_of b2 s)) b1
        (a ++ m ++ bs)
  | splice_out_of (h : Heap T) (b1 b2 : Nat) (a bs p m s : List Nat) :
      Reachable E h b1 (a ++ bs) → Reachable E h b2 (p ++ m ++ s) →
      (∀ x ∈ b1 :: (a ++ bs), x ∉ b2 :: (p ++ m ++ s)) →
      Reachable E (splice h (pos_of b1 bs) b2 (pos_of b2 (m ++ s)) (pos_of b2 s)) b2 (p ++ s)
  | swap_self (h : Heap T) (a b : Nat) (la lb : List Nat) :
      Reachable E h a la → Reachable E h b lb → (∀ x ∈ a :: la, x ∉ b :: lb) →
      Reachable E (swap h a b) a lb
  | swap_other (h : Heap T) (a b : Nat) (la lb : List Nat) :
      Reachable E h a la → Reachable E h b lb → (∀ x ∈ a :: la, x ∉ b :: lb) →
      Reachable E (swap h a b) b la
  | copy_new (h h1 : Heap T) (t o : Nat) (ls new : List Nat) (fuel : Nat) (u : Unit) :
      Reachable E h o ls → h.live t = false →
      list_copy E fuel h t o = some (Outcome.ok h1 u) → Container h1 t new →
      Reachable E h1 t new
  | copy_source (h : Heap T) (t o : Nat) (ls : List Nat) (fuel : Nat) (out : Outcome T Unit) :
      Reachable E h o ls → h.live t = false → list_copy E fuel h t o = some out →
      Reachable E out.heap o ls
  | assign_ok (h h1 : Heap T) (d o t : Nat) (ld ls new : List Nat) (fuel : Nat) (u : Unit) :
      Reachable E h d ld → Reachable E h o ls → (∀ x ∈ d :: ld, x ∉ o :: ls) →
      h.live t = false → assign E fuel h d o t = some (Outcome.ok h1 u) → Container h1 d new →
      Reachable E h1 d new
  | assign_raised (h h1 : Heap T) (d o t : Nat) (ld ls : List Nat) (fuel : Nat) (e : Exn) :
      Reachable E h d ld → Reachable E h o ls → (∀ x ∈ d :: ld, x ∉ o :: ls) →
      h.live t = false → assign E fuel h d o t = some (Outcome.raised e h1) →
      Reachable E h1 d ld
  | assign_source (h : Heap T) (d o t : Nat) (ld ls : List Nat) (fuel : Nat)
      (out : Outcome T Unit) :
      Reachable E h d ld → Reachable E h o ls → (∀ x ∈ d :: ld, x ∉ o :: ls) →
      h.live t = false → assign E fuel h d o t = some out → Reachable E out.heap o ls
  | other (h h1 : Heap T) (b : Nat) (ns : List Nat) :
      Reachable E h b ns →
      (∀ x ∈ b :: ns, h1.next x = h.next x ∧ h1.prev x = h.prev x ∧ h1.live x = h.live x) →
      Reachable E h1 b ns

/-- Storage for `n` more nodes: `operator new` succeeds on every heap whose live
objects are those of `h`, the object at `t`, and fewer than `n` further ones. -/
def Roomy {T : Type} (E : Env T) (h : Heap T) (t n : Nat) : Prop :=
  ∀ (h1 : Heap T) (extra : List Nat), extra.length < n →
    (∀ x, h1.live x = (h.live x || decide (x = t) || decide (x ∈ extra))) →
    (E.alloc h1).isSome = true

/-- The live map after the objects at the addresses `m` have been deleted. -/
def kill (live : Nat → Bool) (m : List Nat) : Nat → Bool :=
  m.foldl (fun f a => upd f a false) live

/-- The heap after `erase(first, last)` has unlinked and deleted the nodes
`m`. -/
def erase_heap {T : Type} (h : Heap T) (first last : Nat) (m : List Nat) : Heap T where
  prev := upd h.prev last (h.prev first)
  next := upd h.next (h.prev first) last
  value := h.value
  live := kill h.live m

/-- The heap after the first two writes of `splice`: the run starting at
`first` and ending just before `last` is bypassed. -/
def unlink_heap {T : Type} (h : Heap T) (first last : Nat) : Heap T :=
  { h with next := upd h.next (h.prev first) last, prev := upd h.prev last (h.prev first) }

/-- The heap after the last four writes of `splice`: the run from `first` to
`tl` is hooked in before `pos`. -/
def link_heap {T : Type} (h : Heap T) (pos first tl : Nat) : Heap T :=
  { h with next := upd (upd h.next tl pos) (h.prev pos) first,
           prev := upd (upd h.prev first (h.prev pos)) pos tl }

/-- Run `push_back` for each value in turn, stopping at the first exception. -/
def push_back_all {T : Type} (E : Env T) (self : Nat) : Heap T → List T → Outcome T Unit
  | h, [] => Outcome.ok h ()
  | h, v :: vs =>
    match push_back E h self v with
    | Outcome.raised e h1 => Outcome.raised e h1
    | Outcome.ok h1 _ => push_back_all E self h1 vs

/-! ## Concrete environments and heaps -/

/-- First-fit search for a free address below `n`. -/
def first_fit {T : Type} (n : Nat) (h : Heap T) : Option Nat :=
  (List.range n).find? (fun a => !h.live a)

/-- An environment with `n` cells of storage in which only copying the value
`bad` throws. -/
def env_fit (n bad : Nat) : Env Nat where
  alloc := first_fit n
  copy_ok := fun _ v => decide (v ≠ bad)
  alloc_fresh := by
    intro h a ha
    have := List.find?_some ha
    simpa using this

/-- A heap without live objects. -/
def heap0 : Heap Nat where
  prev := fun a => a
  next := fun a => a
  value := fun _ => 0
  live := fun _ => false

/-- Two lists in one heap: sentinel `0` with value nodes `1, 2, 3` and sentinel
`4` with value nodes `5, 6`; the node at address `a` holds `10 * a`. -/
def heap_two : Heap Nat where
  next := fun a => ([(0, 1), (1, 2), (2, 3), (3, 0), (4, 5), (5, 6), (6, 4)].lookup a).getD a
  prev := fun a => ([(0, 3), (1, 0), (2, 1), (3, 2), (4, 6), (5, 4), (6, 5)].lookup a).getD a
  value := fun a => 10 * a
  live := fun a => decide (a ≤ 6)

/-- The heap after default-constructing a list at address `0` in `heap0` and
pushing the value `5` onto it. -/
def heap_one : Heap Nat :=
  (push_back (env_fit 16 99) (list_default heap0 0) 0 5).heap

/-! ## Point updates -/

@[simp] theorem upd_same {α : Type} (f : Nat → α) (a : Nat) (v : α) : upd f a v a = v := by
  simp [upd]

@[simp] theorem upd_ne {α : Type} (f : Nat → α) (a x : Nat) (v : α) (hx : x ≠ a) :
    upd f a v x = f x := by
  simp [upd, hx]

theorem upd_ne_symm {α : Type} (f : Nat → α) (a x : Nat) (v : α) (hx : a ≠ x) :
    upd f a v x = f x := by
  simp [upd, Ne.symm hx]

theorem upd_upd_same {α : Type} (f : Nat → α) (a : Nat) (u v : α) :
    upd (upd f a u) a v = upd f a v := by
  funext x; by_cases hx : x = a <;> simp [upd, hx]

/-! ## Segments -/

theorem seg_append {T : Type} (h : Heap T) (l1 : List Nat) (m : Nat) (l2 : List Nat) :
    ∀ x y, Seg h x (l1 ++ m :: l2) y ↔ Seg h x l1 m ∧ Seg h m l2 y := by
  induction l1 with
  | nil => intro x y; simp [Seg, and_assoc]
  | cons n l1 ih => intro x y; simp [Seg, ih, and_assoc]

theorem seg_snoc {T : Type} (h : Heap T) (l : List Nat) (m x y : Nat) :
    Seg h x (l ++ [m]) y ↔ Seg h x l m ∧ h.next m = y ∧ h.prev y = m := by
  rw [seg_append]; simp [Seg]

/-- The node before the end of a segment is its last node. -/
theorem seg_prev_mem {T : Type} (h : Heap T) (l : List Nat) :
    ∀ x y, Seg h x l y → h.prev y ∈ x :: l := by
  induction l with
  | nil => intro x y hs; simp [Seg] at hs; simp [hs.2]
  | cons n l ih =>
    intro x y hs
    have := ih n y hs.2.2
    exact List.mem_cons_of_mem _ this

theorem seg_next_mem {T : Type} (h : Heap T) (l : List Nat) (x y : Nat) (hs : Seg h x l y) :
    h.next x ∈ l ++ [y] := by
  cases l with
  | nil => simp [Seg] at hs; simp [hs.1]
  | cons n l => simp [hs.1]

/-- A segment only depends on the links of its own nodes. -/
theorem seg_frame {T : Type} (h h1 : Heap T) (l : List Nat) :
    ∀ x y, Seg h x l y → (∀ a ∈ x :: l, h1.next a = h.next a) →
      (∀ a ∈ l ++ [y], h1.prev a = h.prev a) → Seg h1 x l y := by
  induction l with
  | nil =>
    intro x y hs hn hp
    simp only [Seg] at hs ⊢
    rw [hn x (by simp), hp y (by simp)]; exact hs
  | cons n l ih =>
    intro x y hs hn hp
    refine ⟨?_, ?_, ih n y hs.2.2 ?_ ?_⟩
    · rw [hn x (by simp)]; exact hs.1
    · rw [hp n (by simp)]; exact hs.2.1
    · intro a ha; exact hn a (List.mem_cons_of_mem _ ha)
    · intro a ha; exact hp a (by simpa using Or.inr (by simpa using ha))

/-- Redirect the far end of a segment: only the `next` link of its last node
and the `prev` link of the new end need to change. -/
theorem seg_retarget_end {T : Type} (h h1 : Heap T) (l : List Nat) (y1 : Nat) :
    ∀ x y, Seg h x l y → (x :: l).Nodup →
      (∀ a ∈ x :: l, a ≠ h.prev y → h1.next a = h.next a) →
      (∀ a ∈ l, h1.prev a = h.prev a) →
      h1.next (h.prev y) = y1 → h1.prev y1 = h.prev y → Seg h1 x l y1 := by
  induction l with
  | nil =>
    intro x y hs _ _ _ h1n h1p
    simp only [Seg] at hs ⊢
    rw [hs.2] at h1n h1p
    exact ⟨h1n, h1p⟩
  | cons n l ih =>
    intro x y hs hnd hn hp h1n h1p
    have hmem := seg_prev_mem h l n y hs.2.2
    have hx : x ≠ h.prev y := by
      intro hxe
      rw [← hxe] at hmem
      exact (List.nodup_cons.mp hnd).1 hmem
    refine ⟨?_, ?_, ih n y hs.2.2 (List.nodup_cons.mp hnd).2 ?_ ?_ h1n h1p⟩
    · rw [hn x (by simp) hx]; exact hs.1
    · rw [hp n (by simp)]; exact hs.2.1
    · intro a ha hne; exact hn a (List.mem_cons_of_mem _ ha) hne
    · intro a ha; exact hp a (List.mem_cons_of_mem _ ha)

theorem seg_rotate {T : Type} (h : Heap T) (l1 l2 : List Nat) (x m : Nat) :
    Seg h x (l1 ++ m :: l2) x ↔ Seg h m (l2 ++ x :: l1) m := by
  rw [seg_append, seg_append]; exact and_comm

/-! ## Traversal of a well-formed list -/

theorem iterate_seg {T : Type} (h : Heap T) (b : Nat) (l : List Nat) :
    ∀ fuel x, Seg h x l b → b ∉ l → l.length ≤ fuel →
      iterate h b fuel (h.next x) = some (l.map h.value) := by
  induction l with
  | nil =>
    intro fuel x hs _ _
    simp only [Seg] at hs
    rw [hs.1]
    cases fuel <;> simp [iterate]
  | cons n l ih =>
    intro fuel x hs hb hf
    obtain ⟨hn, _, hrest⟩ := hs
    have hnb : n ≠ b := fun e => hb (by simp [e])
    have hbl : b ∉ l := fun e => hb (List.mem_cons_of_mem _ e)
    cases fuel with
    | zero => simp at hf
    | succ f =>
      have hf1 : l.length ≤ f := by simpa using hf
      rw [hn]
      simp [iterate, hnb, ih f n hrest hbl hf1]

theorem riterate_seg {T : Type} (h : Heap T) (stop : Nat) (l : List Nat) :
    ∀ fuel y, Seg h stop l y → stop ∉ l ++ [y] → l.length + 1 ≤ fuel →
      riterate h stop fuel y = some ((stop :: l).reverse.map h.value) := by
  induction l using List.reverseRecOn with
  | nil =>
    intro fuel y hs hb hf
    simp only [Seg] at hs
    have hy : y ≠ stop := fun e => hb (by simp [e])
    cases fuel with
    | zero => simp at hf
    | succ f =>
      cases f <;> simp [riterate, hy, hs.2]
  | append_singleton l m ih =>
    intro fuel y hs hb hf
    rw [seg_snoc] at hs
    obtain ⟨hseg, _, hp⟩ := hs
    have hy : y ≠ stop := fun e => hb (by simp [e])
    have hb1 : stop ∉ l ++ [m] := fun e => hb (by simp at e ⊢; tauto)
    cases fuel with
    | zero => simp at hf
    | succ f =>
      have hf1 : l.length + 1 ≤ f := by simpa using hf
      simp [riterate, hy, hp, ih f m hseg hb1 hf1]

theorem wf_to_list {T : Type} (h : Heap T) (b : Nat) (ns : List Nat) (fuel : Nat)
    (hwf : WF h b ns) (hf : ns.length ≤ fuel) :
    to_list fuel h b = some (ns.map h.value) := by
  obtain ⟨hseg, hnd, _⟩ := hwf
  exact iterate_seg h b ns fuel b hseg (List.nodup_cons.mp hnd).1 hf

theorem wf_to_list_rev {T : Type} (h : Heap T) (b : Nat) (ns : List Nat) (fuel : Nat)
    (hwf : WF h b ns) (hf : ns.length ≤ fuel) :
    to_list_rev fuel h b = some (ns.reverse.map h.value) := by
  obtain ⟨hseg, hnd, _⟩ := hwf
  cases ns with
  | nil =>
    simp only [Seg] at hseg
    simp only [to_list_rev, begin_, end_, hseg.1]
    cases fuel <;> simp [riterate]
  | cons f ns =>
    obtain ⟨hn, _, hrest⟩ := hseg
    simp only [to_list_rev, begin_, end_, hn]
    have hnd2 := (List.nodup_cons.mp hnd)
    have hstop : f ∉ ns ++ [b] := by
      intro e
      simp at e
      rcases e with e | e
      · exact (List.nodup_cons.mp hnd2.2).1 e
      · exact hnd2.1 (by simp [e])
    exact riterate_seg h f ns fuel b hrest hstop (by simpa using hf)

theorem wf_frame {T : Type} (h h1 : Heap T) (b : Nat) (ns : List Nat) (hwf : WF h b ns)
    (hn : ∀ a ∈ b :: ns, h1.next a = h.next a) (hp : ∀ a ∈ b :: ns, h1.prev a = h.prev a)
    (hl : ∀ a ∈ b :: ns, h1.live a = h.live a) : WF h1 b ns := by
  obtain ⟨hseg, hnd, hlive⟩ := hwf
  refine ⟨seg_frame h h1 ns b b hseg hn ?_, hnd, ?_⟩
  · intro a ha
    apply hp
    simp at ha ⊢
    tauto
  · intro a ha
    rw [hl a ha]; exact hlive a ha

theorem wf_ne_of_not_live {T : Type} (h : Heap T) (b : Nat) (ns : List Nat) (c : Nat)
    (hwf : WF h b ns) (hc : h.live c = false) : c ∉ b :: ns := by
  intro hmem
  have := hwf.2.2 c hmem
  rw [hc] at this
  exact Bool.false_ne_true this

theorem pos_of_mem (b : Nat) (s : List Nat) : pos_of b s ∈ s ++ [b] := by
  cases s <;> simp [pos_of]

/-- The position before `pos_of b s` is the last node of `b :: p`. -/
theorem wf_prev_pos_mem {T : Type} (h : Heap T) (b : Nat) (p s : List Nat)
    (hwf : WF h b (p ++ s)) : h.prev (pos_of b s) ∈ b :: p := by
  cases s with
  | nil =>
    have := hwf.1
    simp only [List.append_nil] at this
    exact seg_prev_mem h p b b this
  | cons n s =>
    have := ((seg_append h p n s b b).mp hwf.1).1
    exact seg_prev_mem h p b n this

/-! ## insert -/

theorem insert_eq {T : Type} (E : Env T) (h : Heap T) (pos c : Nat) (val : T)
    (ha : E.alloc h = some c) (hc : E.copy_ok (raw_node h c) val = true) (hpos : pos ≠ c) :
    insert E h pos val = Outcome.ok (insert_heap h pos c val) c := by
  simp only [insert, new_value_node, ha, hc, if_true]
  simp [raw_node, insert_heap, upd_upd_same, hpos]

theorem insert_heap_wf {T : Type} (h : Heap T) (b : Nat) (p s : List Nat) (c : Nat) (val : T)
    (hwf : WF h b (p ++ s)) (hc : h.live c = false) :
    WF (insert_heap h (pos_of b s) c val) b (p ++ c :: s) := by
  have hcn := wf_ne_of_not_live h b (p ++ s) c hwf hc
  have hq := wf_prev_pos_mem h b p s hwf
  obtain ⟨hseg, hnd, hlive⟩ := hwf
  have hcb : c ≠ b := fun e => hcn (by simp [e])
  have hcp : c ∉ p := fun e => hcn (by simp [e])
  have hcs : c ∉ s := fun e => hcn (by simp [e])
  have hndp : (b :: p).Nodup := by
    have := hnd
    rw [← List.cons_append, List.nodup_append] at this
    exact this.1
  have hdisj : ∀ a ∈ b :: p, a ∉ s := by
    intro a ha has
    have := hnd
    rw [← List.cons_append, List.nodup_append] at this
    exact this.2.2 ha has
  refine ⟨?_, ?_, ?_⟩
  · cases s with
    | nil =>
      simp only [pos_of, List.headD_nil, List.append_nil] at hseg hq ⊢
      rw [seg_snoc]
      have hcq : c ≠ h.prev b := fun e => hcn (by rw [e]; simpa using hq)
      refine ⟨seg_retarget_end h _ p c b b hseg hndp ?_ ?_ ?_ ?_, ?_, ?_⟩
      · intro a ha hne
        have hac : a ≠ c := fun e => hcn (by rw [← e]; simpa using ha)
        simp [insert_heap, hne, hac]
      · intro a ha
        have hac : a ≠ c := fun e => hcp (e ▸ ha)
        have hab : a ≠ b := fun e => (List.nodup_cons.mp hndp).1 (e ▸ ha)
        simp [insert_heap, hac, hab]
      · simp [insert_heap]
      · simp [insert_heap, hcb]
      · simp [insert_heap, hcq]
      · simp [insert_heap]
    | cons n s =>
      simp only [pos_of, List.headD_cons] at hq ⊢
      rw [seg_append] at hseg ⊢
      obtain ⟨hs1, hs2⟩ := hseg
      have hcq : c ≠ h.prev n := fun e => hcn (by rw [e]; simp; simp at hq; tauto)
      have hcn1 : c ≠ n := fun e => hcs (by simp [e])
      have hnp : n ∉ b :: p := fun e => hdisj n e (by simp)
      have hnds : (n :: s).Nodup := by
        have := hnd
        rw [← List.cons_append, List.nodup_append] at this
        exact this.2.1
      refine ⟨seg_retarget_end h _ p c b n hs1 hndp ?_ ?_ ?_ ?_, ?_, ?_, ?_⟩
      · intro a ha hne
        have hac : a ≠ c := fun e => hcn (by rw [← e]; simp; simp at ha; tauto)
        simp [insert_heap, hne, hac]
      · intro a ha
        have hac : a ≠ c := fun e => hcp (e ▸ ha)
        have han : a ≠ n := fun e => hnp (by rw [← e]; exact List.mem_cons_of_mem _ ha)
        simp [insert_heap, hac, han]
      · simp [insert_heap]
      · simp [insert_heap, hcn1]
      · simp [insert_heap, hcq]
      · simp [insert_heap]
      · apply seg_frame h _ s n b hs2
        · intro a ha
          have hac : a ≠ c := fun e => hcs (e ▸ ha)
          have haq : a ≠ h.prev n := fun e => hdisj _ hq (e ▸ ha)
          simp [insert_heap, hac, haq]
        · intro a ha
          have hac : a ≠ c := by
            intro e; subst e; simp at ha
            rcases ha with ha | ha
            · exact hcs (List.mem_cons_of_mem _ ha)
            · exact hcb ha
          have han : a ≠ n := by
            intro e; subst e; simp at ha
            rcases ha with ha | ha
            · exact (List.nodup_cons.mp hnds).1 ha
            · exact hnp (by simp [ha])
          simp [insert_heap, hac, han]
  · have : (b :: (p ++ c :: s)).Perm (c :: b :: (p ++ s)) := by
      rw [← List.cons_append, ← List.cons_append]
      exact List.perm_middle
    rw [this.nodup_iff]
    exact List.nodup_cons.mpr ⟨hcn, hnd⟩
  · intro a ha
    by_cases hac : a = c
    · simp [insert_heap, hac]
    · have : a ∈ b :: (p ++ s) := by simp at ha ⊢; tauto
      simp [insert_heap, hac, hlive a this]

theorem insert_heap_values {T : Type} (h : Heap T) (pos c : Nat) (val : T) (l : List Nat)
    (hc : c ∉ l) : l.map (insert_heap h pos c val).value = l.map h.value := by
  apply List.map_congr_left
  intro a ha
  have : a ≠ c := fun e => hc (e ▸ ha)
  simp [insert_heap, this]

/-- A successful `insert` got its node from the allocator and copied the
payload without an exception. -/
theorem insert_ok_inv {T : Type} (E : Env T) (h h1 : Heap T) (pos r : Nat) (val : T)
    (hi : insert E h pos val = Outcome.ok h1 r) :
    E.alloc h = some r ∧ E.copy_ok (raw_node h r) val = true := by
  unfold insert new_value_node at hi
  cases ha : E.alloc h with
  | none => simp [ha] at hi
  | some a =>
    simp only [ha] at hi
    by_cases hc : E.copy_ok (raw_node h a) val = true
    · simp only [hc, if_true] at hi
      injection hi with _ hr
      subst hr
      exact ⟨rfl, hc⟩
    · simp [hc] at hi

/-- Inserting before the position that starts `s`, given storage at `c`. -/
theorem insert_at {T : Type} (E : Env T) (h : Heap T) (b : Nat) (p s : List Nat) (val : T)
    (c : Nat) (hwf : WF h b (p ++ s)) (ha : E.alloc h = some c)
    (hc : E.copy_ok (raw_node h c) val = true) :
    insert E h (pos_of b s) val = Outcome.ok (insert_heap h (pos_of b s) c val) c ∧
      WF (insert_heap h (pos_of b s) c val) b (p ++ c :: s) ∧
      (p ++ c :: s).map (insert_heap h (pos_of b s) c val).value
        = p.map h.value ++ val :: s.map h.value := by
  have hfresh := E.alloc_fresh h c ha
  have hcn := wf_ne_of_not_live h b (p ++ s) c hwf hfresh
  have hpos : pos_of b s ≠ c := by
    intro e
    have := pos_of_mem b s
    rw [e] at this
    apply hcn
    simp at this ⊢
    tauto
  refine ⟨insert_eq E h _ c val ha hc hpos, insert_heap_wf h b p s c val hwf hfresh, ?_⟩
  have hcp : c ∉ p := fun e => hcn (by simp [e])
  have hcs : c ∉ s := fun e => hcn (by simp [e])
  rw [List.map_append, List.map_cons, insert_heap_values h _ c val p hcp,
    insert_heap_values h _ c val s hcs]
  simp [insert_heap]

theorem push_back_ok {T : Type} (E : Env T) (h h1 : Heap T) (b : Nat) (ns : List Nat) (val : T)
    (u : Unit) (hwf : WF h b ns) (hp : push_back E h b val = Outcome.ok h1 u) :
    ∃ c, h.live c = false ∧ h1 = insert_heap h b c val ∧ WF h1 b (ns ++ [c]) ∧
      (ns ++ [c]).map h1.value = ns.map h.value ++ [val] := by
  unfold push_back at hp
  cases hi : insert E h (end_ h b) val with
  | raised e h2 => simp [hi] at hp
  | ok h2 c =>
    simp only [hi] at hp
    injection hp with hh _
    subst hh
    obtain ⟨ha, hc⟩ := insert_ok_inv E h h2 _ c val hi
    have hwf0 : WF h b (ns ++ []) := by simpa using hwf
    obtain ⟨heq, hwf1, hvals⟩ := insert_at E h b ns [] val c hwf0 ha hc
    simp only [pos_of, List.headD_nil] at heq hwf1 hvals
    simp only [end_] at hi
    rw [heq] at hi
    injection hi with hh _
    subst hh
    exact ⟨c, E.alloc_fresh h c ha, rfl, hwf1, by simpa using hvals⟩

theorem push_back_all_ok {T : Type} (E : Env T) (b : Nat) (vs : List T) :
    ∀ (h h1 : Heap T) (ns : List Nat) (u : Unit), WF h b ns →
      push_back_all E b h vs = Outcome.ok h1 u →
      ∃ ns1, WF h1 b ns1 ∧ ns1.map h1.value = ns.map h.value ++ vs := by
  induction vs with
  | nil =>
    intro h h1 ns u hwf hrun
    simp only [push_back_all] at hrun
    injection hrun with hh _
    subst hh
    exact ⟨ns, hwf, by simp⟩
  | cons v vs ih =>
    intro h h1 ns u hwf hrun
    simp only [push_back_all] at hrun
    cases hp : push_back E h b v with
    | raised e h2 => simp [hp] at hrun
    | ok h2 u2 =>
      simp only [hp] at hrun
      obtain ⟨c, _, _, hwf2, hvals2⟩ := push_back_ok E h h2 b ns v u2 hwf hp
      obtain ⟨ns1, hwf1, hvals1⟩ := ih h2 h1 (ns ++ [c]) u hwf2 hrun
      exact ⟨ns1, hwf1, by rw [hvals1, hvals2]; simp⟩

theorem list_default_wf {T : Type} (h : Heap T) (b : Nat) : WF (list_default h b) b [] := by
  refine ⟨?_, by simp, ?_⟩
  · simp [Seg, list_default]
  · intro a ha
    simp at ha
    simp [list_default, ha]

/-! ## erase -/

theorem kill_apply (m : List Nat) : ∀ (live : Nat → Bool) (a : Nat),
    kill live m a = if a ∈ m then false else live a := by
  induction m with
  | nil => intro live a; simp [kill]
  | cons n m ih =>
    intro live a
    have := ih (upd live n false) a
    simp only [kill, List.foldl_cons] at this ⊢
    rw [this]
    by_cases h1 : a ∈ m
    · simp [h1]
    · by_cases h2 : a = n
      · simp [h2]
      · simp [h1, h2]

theorem delete_loop_seg {T : Type} (h0 : Heap T) (last : Nat) (l : List Nat) :
    ∀ (fuel : Nat) (h : Heap T) (x : Nat), Seg h0 x l last →
      (∀ a ∈ x :: l, h.next a = h0.next a) → last ∉ x :: l → l.length + 1 ≤ fuel →
      delete_loop last fuel h x = some { h with live := kill h.live (x :: l) } := by
  induction l with
  | nil =>
    intro fuel h x hs hn hl hf
    simp only [Seg] at hs
    have hx : x ≠ last := fun e => hl (by simp [e])
    cases fuel with
    | zero => simp at hf
    | succ f =>
      have hnx : h.next x = last := by rw [hn x (by simp)]; exact hs.1
      cases f <;> simp [delete_loop, hx, hnx, delete_node, kill]
  | cons n l ih =>
    intro fuel h x hs hn hl hf
    obtain ⟨hxn, _, hrest⟩ := hs
    have hx : x ≠ last := fun e => hl (by simp [e])
    cases fuel with
    | zero => simp at hf
    | succ f =>
      have hnx : h.next x = n := by rw [hn x (by simp)]; exact hxn
      have hf1 : l.length + 1 ≤ f := by simpa using hf
      have hl1 : last ∉ n :: l := fun e => hl (List.mem_cons_of_mem _ e)
      have := ih f (delete_node h x) n hrest
        (fun a ha => hn a (List.mem_cons_of_mem _ ha)) hl1 hf1
      simp only [delete_loop, hx, if_false, hnx, this]
      simp [delete_node, kill]

/-- Facts about a list split as `p ++ m ++ s` with a non-empty run `m`. -/
theorem wf_split {T : Type} (h : Heap T) (b f : Nat) (p m s : List Nat)
    (hwf : WF h b (p ++ (f :: m) ++ s)) :
    Seg h b p f ∧ Seg h f m (pos_of b s) ∧ h.prev f ∈ b :: p ∧
      (b :: p).Nodup ∧ (f :: m).Nodup ∧ (s ++ [b]).Nodup ∧
      (∀ a ∈ b :: p, a ∉ f :: m) ∧ (∀ a ∈ f :: m, a ∉ s ++ [b]) ∧
      (∀ a ∈ p, a ∉ s) := by
  obtain ⟨hseg, hnd, _⟩ := hwf
  have hseg1 : Seg h b p f ∧ Seg h f (m ++ s) b := by
    have := hseg
    rw [List.append_assoc, List.cons_append, seg_append] at this
    exact this
  have hnd1 : (b :: p).Nodup ∧ ((f :: m).Nodup ∧ s.Nodup ∧ ∀ a ∈ f :: m, a ∉ s) ∧
      ∀ a ∈ b :: p, a ∉ (f :: m) ++ s := by
    have := hnd
    rw [List.append_assoc, ← List.cons_append, List.nodup_append, List.nodup_append] at this
    exact ⟨this.1, ⟨this.2.1.1, this.2.1.2.1, fun a ha has => this.2.1.2.2 ha has⟩,
      fun a ha has => this.2.2 ha has⟩
  obtain ⟨hndp, ⟨hndm, hnds, hms⟩, hpm⟩ := hnd1
  have hbs : b ∉ s := fun e => hpm b (by simp) (by simp [e])
  have hbm : b ∉ f :: m := fun e => hpm b (by simp) (List.mem_append_left _ e)
  refine ⟨hseg1.1, ?_, seg_prev_mem h p b f hseg1.1, hndp, hndm, ?_, ?_, ?_, ?_⟩
  · cases s with
    | nil => simpa [pos_of] using hseg1.2
    | cons n s =>
      have := hseg1.2
      rw [seg_append] at this
      simpa [pos_of] using this.1
  · rw [List.nodup_append]
    refine ⟨hnds, by simp, ?_⟩
    intro a ha hab
    simp at hab
    exact hbs (hab ▸ ha)
  · intro a ha ham
    exact hpm a ha (List.mem_append_left _ ham)
  · intro a ha has
    simp at has
    rcases has with has | has
    · exact hms a ha has
    · exact hbm (has ▸ ha)
  · intro a ha has
    exact hpm a (List.mem_cons_of_mem _ ha) (List.mem_append_right _ has)

/-- Taking the run `f :: m` out of a ring: it is enough that the node before
the run now points to `last`, that `last` points back to it, that the other
links of the remaining nodes are kept, and that the remaining nodes stay
live. -/
theorem unlink_wf {T : Type} (h h1 : Heap T) (b f : Nat) (p m s : List Nat)
    (hwf : WF h b (p ++ (f :: m) ++ s))
    (hn : ∀ a ∈ b :: (p ++ s), a ≠ h.prev f → h1.next a = h.next a)
    (hnq : h1.next (h.prev f) = pos_of b s)
    (hp : ∀ a ∈ p ++ s ++ [b], a ≠ pos_of b s → h1.prev a = h.prev a)
    (hpl : h1.prev (pos_of b s) = h.prev f)
    (hl : ∀ a ∈ b :: (p ++ s), h1.live a = h.live a) :
    WF h1 b (p ++ s) := by
  obtain ⟨hs1, _, hq, hndp, _, hnds, hpm, hms, hps⟩ := wf_split h b f p m s hwf
  obtain ⟨hseg, hnd, hlive⟩ := hwf
  refine ⟨?_, ?_, ?_⟩
  · cases s with
    | nil =>
      simp only [pos_of, List.headD_nil, List.append_nil] at hn hnq hp hpl ⊢
      refine seg_retarget_end h _ p b b f hs1 hndp ?_ ?_ hnq hpl
      · intro a ha hne; exact hn a ha hne
      · intro a ha
        have hab : a ≠ b := fun e => (List.nodup_cons.mp hndp).1 (e ▸ ha)
        exact hp a (by simp [ha]) hab
    | cons n s =>
      simp only [pos_of, List.headD_cons] at hn hnq hp hpl ⊢
      have hs3 : Seg h n s b := by
        have := hseg
        rw [seg_append] at this
        exact this.2
      have hnp : n ∉ b :: p := by
        intro e
        rcases List.mem_cons.mp e with e | e
        · have := hnds
          rw [List.nodup_append] at this
          exact this.2.2 (List.mem_cons_self n s) (by simp [e])
        · exact hps n e (by simp)
      rw [seg_append]
      refine ⟨seg_retarget_end h _ p n b f hs1 hndp ?_ ?_ hnq hpl, ?_⟩
      · intro a ha hne
        refine hn a ?_ hne
        simp at ha ⊢
        tauto
      · intro a ha
        have han : a ≠ n := fun e => hnp (by rw [← e]; exact List.mem_cons_of_mem _ ha)
        exact hp a (by simp [ha]) han
      · apply seg_frame h _ s n b hs3
        · intro a ha
          have haq : a ≠ h.prev f := by
            intro e
            rw [← e] at hq
            rcases List.mem_cons.mp hq with e1 | e1
            · have := hnds
              rw [List.nodup_append] at this
              exact this.2.2 ha (by simp [e1])
            · exact hps a e1 ha
          refine hn a ?_ haq
          simp at ha ⊢
          tauto
        · intro a ha
          have han : a ≠ n := by
            intro e
            subst e
            have := hnds
            rw [List.cons_append, List.nodup_cons] at this
            exact this.1 ha
          refine hp a ?_ han
          simp at ha ⊢
          tauto
  · have := hnd
    rw [List.append_assoc, ← List.cons_append, List.nodup_append] at this
    obtain ⟨h1, h2, h3⟩ := this
    rw [List.nodup_append] at h2
    rw [← List.cons_append, List.nodup_append]
    exact ⟨h1, h2.2.1, fun a ha has => h3 ha (List.mem_append_right _ has)⟩
  · intro a ha
    have hmem : a ∈ b :: (p ++ (f :: m) ++ s) := by
      simp at ha ⊢
      tauto
    rw [hl a ha]
    exact hlive a hmem

/-- The nodes of the run are none of the remaining nodes. -/
theorem wf_run_not_mem {T : Type} (h : Heap T) (b f : Nat) (p m s : List Nat)
    (hwf : WF h b (p ++ (f :: m) ++ s)) : ∀ a ∈ b :: (p ++ s), a ∉ f :: m := by
  obtain ⟨_, _, _, _, _, _, hpm, hms, _⟩ := wf_split h b f p m s hwf
  intro a ha e
  rcases List.mem_cons.mp ha with e1 | e1
  · exact hpm b (by simp) (e1 ▸ e)
  · rcases List.mem_append.mp e1 with e2 | e2
    · exact hpm a (List.mem_cons_of_mem _ e2) e
    · exact hms a e (List.mem_append_left _ e2)

theorem erase_heap_wf {T : Type} (h : Heap T) (b f : Nat) (p m s : List Nat)
    (hwf : WF h b (p ++ (f :: m) ++ s)) :
    WF (erase_heap h f (pos_of b s) (f :: m)) b (p ++ s) := by
  refine unlink_wf h _ b f p m s hwf ?_ ?_ ?_ ?_ ?_
  · intro a _ hne; simp [erase_heap, hne]
  · simp [erase_heap]
  · intro a _ hne; simp [erase_heap, hne]
  · simp [erase_heap]
  · intro a ha
    have := wf_run_not_mem h b f p m s hwf a ha
    simp only [erase_heap, kill_apply, this, if_false]

/-- Inside its precondition `erase(first, last)` terminates and produces
`erase_heap`. -/
theorem erase_range_eq {T : Type} (h : Heap T) (b f : Nat) (p m s : List Nat) (fuel : Nat)
    (hwf : WF h b (p ++ (f :: m) ++ s)) (hf : m.length + 1 ≤ fuel) :
    erase_range fuel h f (pos_of b s)
      = some (erase_heap h f (pos_of b s) (f :: m), pos_of b s) := by
  obtain ⟨_, hs2, hq, _, _, _, hpm, hms, _⟩ := wf_split h b f p m s hwf
  have hlast : pos_of b s ∉ f :: m := by
    intro e
    exact hms _ e (pos_of_mem b s)
  have hfl : f ≠ pos_of b s := fun e => hlast (by simp [← e])
  have hloop := delete_loop_seg h (pos_of b s) m fuel
    { h with next := upd h.next (h.prev f) (pos_of b s),
             prev := upd h.prev (pos_of b s) (h.prev f) } f hs2
    (by
      intro a ha
      have : a ≠ h.prev f := fun e => hpm _ hq (e ▸ ha)
      simp [this]) hlast hf
  simp only [erase_range, ne_eq, hfl, not_false_eq_true, if_true]
  rw [hloop]
  simp [erase_heap]

/-! ## splice -/

/-- Hooking a detached run `f :: m` (described by its old segment in `h0`) into
the ring of `b` before the position that starts `w`. -/
theorem link_wf {T : Type} (h0 h h1 : Heap T) (b f last : Nat) (u w m : List Nat)
    (hwf : WF h b (u ++ w)) (hrun : Seg h0 f m last) (hndm : (f :: m).Nodup)
    (hdisj : ∀ a ∈ b :: (u ++ w), a ∉ f :: m)
    (hn : ∀ a ∈ b :: (u ++ w), a ≠ h.prev (pos_of b w) → h1.next a = h.next a)
    (hnq : h1.next (h.prev (pos_of b w)) = f)
    (hnm : ∀ a ∈ f :: m, a ≠ h0.prev last → h1.next a = h0.next a)
    (hnl : h1.next (h0.prev last) = pos_of b w)
    (hp : ∀ a ∈ u ++ w ++ [b], a ≠ pos_of b w → h1.prev a = h.prev a)
    (hpp : h1.prev (pos_of b w) = h0.prev last)
    (hpf : h1.prev f = h.prev (pos_of b w))
    (hpm : ∀ a ∈ m, h1.prev a = h0.prev a)
    (hl : ∀ a ∈ b :: (u ++ f :: m ++ w), h1.live a = true) :
    WF h1 b (u ++ f :: m ++ w) := by
  have hq := wf_prev_pos_mem h b u w hwf
  obtain ⟨hseg, hnd, _⟩ := hwf
  have hndu : (b :: u).Nodup := by
    have := hnd
    rw [← List.cons_append, List.nodup_append] at this
    exact this.1
  have huw : ∀ a ∈ b :: u, a ∉ w := by
    intro a ha haw
    have := hnd
    rw [← List.cons_append, List.nodup_append] at this
    exact this.2.2 ha haw
  refine ⟨?_, ?_, hl⟩
  · cases w with
    | nil =>
      simp only [pos_of, List.headD_nil, List.append_nil] at hseg hq hn hnq hnl hp hpp hpf ⊢
      rw [seg_append]
      refine ⟨seg_retarget_end h h1 u f b b hseg hndu hn ?_ hnq hpf,
        seg_retarget_end h0 h1 m b f last hrun hndm hnm hpm hnl hpp⟩
      intro a ha
      have hab : a ≠ b := fun e => (List.nodup_cons.mp hndu).1 (e ▸ ha)
      exact hp a (by simp [ha]) hab
    | cons n w =>
      simp only [pos_of, List.headD_cons] at hq hn hnq hnl hp hpp hpf ⊢
      rw [seg_append] at hseg
      obtain ⟨hs1, hs2⟩ := hseg
      have hnu : n ∉ b :: u := fun e => huw n e (by simp)
      have hndw : (n :: w).Nodup := by
        have := hnd
        rw [← List.cons_append, List.nodup_append] at this
        exact this.2.1
      rw [List.append_assoc, List.cons_append, seg_append, seg_append]
      refine ⟨seg_retarget_end h h1 u f b n hs1 hndu ?_ ?_ hnq hpf,
        seg_retarget_end h0 h1 m n f last hrun hndm hnm hpm hnl hpp, ?_⟩
      · intro a ha hne
        refine hn a ?_ hne
        simp at ha ⊢
        tauto
      · intro a ha
        have han : a ≠ n := fun e => hnu (by rw [← e]; exact List.mem_cons_of_mem _ ha)
        exact hp a (by simp [ha]) han
      · apply seg_frame h h1 w n b hs2
        · intro a ha
          have haq : a ≠ h.prev n := fun e => huw _ hq (e ▸ ha)
          refine hn a ?_ haq
          simp at ha ⊢
          tauto
        · intro a ha
          have han : a ≠ n := by
            intro e
            subst e
            simp at ha
            rcases ha with ha | ha
            · exact (List.nodup_cons.mp hndw).1 ha
            · exact hnu (by simp [ha])
          refine hp a ?_ han
          simp at ha ⊢
          tauto
  · have hperm : (b :: (u ++ f :: m ++ w)).Perm ((f :: m) ++ (b :: (u ++ w))) := by
      have h1 : (u ++ f :: m ++ w).Perm ((f :: m) ++ (u ++ w)) := by
        rw [List.append_assoc]
        exact (List.perm_append_comm_assoc u (f :: m) w)
      exact (List.Perm.cons b h1).trans (List.perm_middle).symm
    rw [hperm.nodup_iff, List.nodup_append]
    exact ⟨hndm, hnd, fun a ha hb => hdisj a hb ha⟩

theorem splice_eq {T : Type} (h : Heap T) (pos other f last : Nat) (hfl : f ≠ last)
    (hnl : h.next (h.prev last) = last) (hpf : pos ≠ f) :
    splice h pos other f last = link_heap (unlink_heap h f last) pos f (h.prev last) := by
  simp [splice, hfl, hnl, link_heap, unlink_heap, hpf]

theorem splice_value {T : Type} (h : Heap T) (pos other f last : Nat) :
    (splice h pos other f last).value = h.value := by
  unfold splice
  split <;> rfl

theorem splice_live {T : Type} (h : Heap T) (pos other f last : Nat) :
    (splice h pos other f last).live = h.live := by
  unfold splice
  split <;> rfl

theorem unlink_heap_wf {T : Type} (h : Heap T) (b f : Nat) (p m s : List Nat)
    (hwf : WF h b (p ++ (f :: m) ++ s)) :
    WF (unlink_heap h f (pos_of b s)) b (p ++ s) := by
  refine unlink_wf h _ b f p m s hwf ?_ ?_ ?_ ?_ ?_
  · intro a _ hne; simp [unlink_heap, hne]
  · simp [unlink_heap]
  · intro a _ hne; simp [unlink_heap, hne]
  · simp [unlink_heap]
  · intro a _; rfl

theorem link_heap_wf {T : Type} (h : Heap T) (b f last : Nat) (u w m : List Nat)
    (hwf : WF (unlink_heap h f last) b (u ++ w)) (hrun : Seg h f m last)
    (hndm : (f :: m).Nodup) (hdisj : ∀ a ∈ b :: (u ++ w), a ∉ f :: m)
    (hqf : h.prev f ∉ f :: m) (hlast : last ∉ f :: m)
    (hlive : ∀ a ∈ f :: m, h.live a = true) :
    WF (link_heap (unlink_heap h f last) (pos_of b w) f (h.prev last)) b (u ++ f :: m ++ w) := by
  have hml : h.prev last ∈ f :: m := seg_prev_mem h m f last hrun
  have hqp := wf_prev_pos_mem _ b u w hwf
  have hqp1 : (unlink_heap h f last).prev (pos_of b w) ∈ b :: (u ++ w) := by
    simp at hqp ⊢
    tauto
  have hpos : pos_of b w ∈ b :: (u ++ w) := by
    have := pos_of_mem b w
    simp at this ⊢
    tauto
  have hposm : pos_of b w ∉ f :: m := hdisj _ hpos
  have hqpm : (unlink_heap h f last).prev (pos_of b w) ∉ f :: m := hdisj _ hqp1
  have hfm : f ∈ f :: m := List.mem_cons_self f m
  refine link_wf h _ _ b f last u w m hwf hrun hndm hdisj ?_ ?_ ?_ ?_ ?_ ?_ ?_ ?_ ?_
  · intro a ha hne
    have : a ≠ h.prev last := fun e => hdisj a ha (e ▸ hml)
    simp [link_heap, hne, this]
  · simp [link_heap]
  · intro a ha hne
    have h1 : a ≠ (unlink_heap h f last).prev (pos_of b w) := fun e => hqpm (e ▸ ha)
    have h2 : a ≠ h.prev f := fun e => hqf (e ▸ ha)
    simp only [link_heap, upd_ne _ _ _ _ h1, upd_ne _ _ _ _ hne]
    simp [unlink_heap, h2]
  · have : h.prev last ≠ (unlink_heap h f last).prev (pos_of b w) := fun e => hqpm (e ▸ hml)
    simp only [link_heap, upd_ne _ _ _ _ this, upd_same]
  · intro a _ hne
    have : a ≠ f := by
      intro e
      subst e
      have : a ∈ b :: (u ++ w) := by
        rename_i ha
        simp at ha ⊢
        tauto
      exact hdisj a this hfm
    simp [link_heap, hne, this]
  · simp [link_heap]
  · have : f ≠ pos_of b w := fun e => hposm (e ▸ hfm)
    simp [link_heap, this]
  · intro a ha
    have h1 : a ≠ pos_of b w := fun e => hposm (e ▸ List.mem_cons_of_mem _ ha)
    have h2 : a ≠ f := fun e => (List.nodup_cons.mp hndm).1 (e ▸ ha)
    have h3 : a ≠ last := fun e => hlast (e ▸ List.mem_cons_of_mem _ ha)
    simp [link_heap, unlink_heap, h1, h2, h3]
  · intro a ha
    have : a ∈ b :: (u ++ w) ∨ a ∈ f :: m := by
      simp at ha ⊢
      tauto
    rcases this with h1 | h1
    · exact hwf.2.2 a h1
    · exact hlive a h1

theorem seg_next_prev {T : Type} (h : Heap T) (l : List Nat) :
    ∀ x y, Seg h x l y → h.next (h.prev y) = y := by
  induction l with
  | nil => intro x y hs; simp only [Seg] at hs; rw [hs.2]; exact hs.1
  | cons n l ih => intro x y hs; exact ih n y hs.2.2

/-- Same-container `splice`: the run `f :: m` of the ring `p ++ f :: m ++ s`
moves before the position that starts `w`, where `u ++ w` is any split of the
remaining nodes. -/
theorem splice_same_wf {T : Type} (h : Heap T) (b other f : Nat) (p m s u w : List Nat)
    (hwf : WF h b (p ++ (f :: m) ++ s)) (hsplit : p ++ s = u ++ w) :
    WF (splice h (pos_of b w) other f (pos_of b s)) b (u ++ f :: m ++ w) := by
  obtain ⟨_, hs2, hq, _, hndm, _, hpm, hms, _⟩ := wf_split h b f p m s hwf
  have hnot := wf_run_not_mem h b f p m s hwf
  have hlast : pos_of b s ∉ f :: m := fun e => hms _ e (pos_of_mem b s)
  have hfl : f ≠ pos_of b s := fun e => hlast (by simp [← e])
  have hpos : pos_of b w ∈ b :: (p ++ s) := by
    have := pos_of_mem b w
    rw [hsplit]
    simp at this ⊢
    tauto
  have hpf : pos_of b w ≠ f := fun e => hnot _ hpos (by simp [e])
  rw [splice_eq h _ other f _ hfl (seg_next_prev h m f _ hs2) hpf]
  have hwfA := unlink_heap_wf h b f p m s hwf
  rw [hsplit] at hwfA hnot
  exact link_heap_wf h b f _ u w m hwfA hs2 hndm hnot (fun e => hpm _ hq e) hlast
    (fun a ha => hwf.2.2 a (by simp at ha ⊢; tauto))

/-- `splice` between two different lists. -/
theorem splice_two_wf {T : Type} (h : Heap T) (b1 b2 f : Nat) (a bs p m s : List Nat)
    (hdst : WF h b1 (a ++ bs)) (hsrc : WF h b2 (p ++ (f :: m) ++ s))
    (hdisj : ∀ x ∈ b1 :: (a ++ bs), x ∉ b2 :: (p ++ (f :: m) ++ s)) :
    WF (splice h (pos_of b1 bs) b2 f (pos_of b2 s)) b1 (a ++ f :: m ++ bs) ∧
      WF (splice h (pos_of b1 bs) b2 f (pos_of b2 s)) b2 (p ++ s) := by
  obtain ⟨_, hs2, hq, _, hndm, _, hpm, hms, _⟩ := wf_split h b2 f p m s hsrc
  have hnot := wf_run_not_mem h b2 f p m s hsrc
  have hlast : pos_of b2 s ∉ f :: m := fun e => hms _ e (pos_of_mem b2 s)
  have hfl : f ≠ pos_of b2 s := fun e => hlast (by simp [← e])
  have hpos : pos_of b1 bs ∈ b1 :: (a ++ bs) := by
    have := pos_of_mem b1 bs
    simp at this ⊢
    tauto
  have hpf : pos_of b1 bs ≠ f := fun e => hdisj _ hpos (by simp [e])
  have hqsrc : h.prev f ∈ b2 :: (p ++ (f :: m) ++ s) := by
    simp at hq ⊢
    tauto
  have hlsrc : pos_of b2 s ∈ b2 :: (p ++ (f :: m) ++ s) := by
    have := pos_of_mem b2 s
    simp at this ⊢
    tauto
  have hlsrc2 : pos_of b2 s ∈ b2 :: (p ++ s) := by
    have := pos_of_mem b2 s
    simp at this ⊢
    tauto
  have hml : h.prev (pos_of b2 s) ∈ f :: m := seg_prev_mem h m f _ hs2
  rw [splice_eq h _ b2 f _ hfl (seg_next_prev h m f _ hs2) hpf]
  have hwfA1 : WF (unlink_heap h f (pos_of b2 s)) b1 (a ++ bs) := by
    refine wf_frame h _ b1 (a ++ bs) hdst ?_ ?_ ?_
    · intro x hx
      have : x ≠ h.prev f := fun e => hdisj x hx (e ▸ hqsrc)
      simp [unlink_heap, this]
    · intro x hx
      have : x ≠ pos_of b2 s := fun e => hdisj x hx (e ▸ hlsrc)
      simp [unlink_heap, this]
    · intro x _; rfl
  have hwfA2 := unlink_heap_wf h b2 f p m s hsrc
  have hdm : ∀ x ∈ b1 :: (a ++ bs), x ∉ f :: m := by
    intro x hx e
    exact hdisj x hx (by simp at e ⊢; tauto)
  have hqp := wf_prev_pos_mem _ b1 a bs hwfA1
  have hqp1 : (unlink_heap h f (pos_of b2 s)).prev (pos_of b1 bs) ∈ b1 :: (a ++ bs) := by
    simp at hqp ⊢
    tauto
  have hsub : ∀ x ∈ b2 :: (p ++ s), x ∈ b2 :: (p ++ (f :: m) ++ s) := by
    intro x hx
    simp at hx ⊢
    tauto
  refine ⟨link_heap_wf h b1 f _ a bs m hwfA1 hs2 hndm hdm (fun e => hpm _ hq e) hlast
    (fun x hx => hsrc.2.2 x (by simp at hx ⊢; tauto)), ?_⟩
  refine wf_frame _ _ b2 (p ++ s) hwfA2 ?_ ?_ ?_
  · intro x hx
    have h1 : x ≠ (unlink_heap h f (pos_of b2 s)).prev (pos_of b1 bs) :=
      fun e => hdisj _ hqp1 (e ▸ hsub x hx)
    have h2 : x ≠ h.prev (pos_of b2 s) := fun e => hnot x hx (e ▸ hml)
    simp only [link_heap, upd_ne _ _ _ _ h1, upd_ne _ _ _ _ h2]
  · intro x hx
    have h1 : x ≠ pos_of b1 bs := fun e => hdisj _ hpos (e ▸ hsub x hx)
    have h2 : x ≠ f := fun e => hnot x hx (by simp [e])
    simp only [link_heap, upd_ne _ _ _ _ h1, upd_ne _ _ _ _ h2]
  · intro x _; rfl

/-! ## swap -/

theorem swap_fields {T : Type} (h : Heap T) (a b : Nat) (hab : a ≠ b)
    (hta : h.prev a ≠ b) (hfa : h.next a ≠ b) (htb : h.prev b ≠ a) (hfb : h.next b ≠ a)
    (hA : h.next a = a ↔ h.prev a = a) (hB : h.next b = b ↔ h.prev b = b)
    (hpp : h.prev a ≠ h.prev b) (hnn : h.next a ≠ h.next b) :
    (swap h a b).next a = (if h.next b = b then a else h.next b) ∧
    (swap h a b).prev a = (if h.next b = b then a else h.prev b) ∧
    (swap h a b).next b = (if h.next a = a then b else h.next a) ∧
    (swap h a b).prev b = (if h.next a = a then b else h.prev a) ∧
    (h.next a ≠ a → (swap h a b).next (h.prev a) = b ∧ (swap h a b).prev (h.next a) = b) ∧
    (h.next b ≠ b → (swap h a b).next (h.prev b) = a ∧ (swap h a b).prev (h.next b) = a) ∧
    (∀ x, x ≠ a → x ≠ b → x ≠ h.prev a → x ≠ h.prev b → (swap h a b).next x = h.next x) ∧
    (∀ x, x ≠ a → x ≠ b → x ≠ h.next a → x ≠ h.next b → (swap h a b).prev x = h.prev x) ∧
    (swap h a b).value = h.value ∧ (swap h a b).live = h.live := by
  have hba : b ≠ a := Ne.symm hab
  have hta1 := Ne.symm hta
  have hfa1 := Ne.symm hfa
  have htb1 := Ne.symm htb
  have hfb1 := Ne.symm hfb
  have hpp1 := Ne.symm hpp
  have hnn1 := Ne.symm hnn
  by_cases eA : h.next a = a <;> by_cases eB : h.next b = b
  · have pA := hA.mp eA
    have pB := hB.mp eB
    simp [swap, swap_retarget, swap_nodes, empty, eA, eB, pA, pB, hab, hba]
    constructor <;> intro x h1 h2 <;> simp [h1, h2]
  · have pA := hA.mp eA
    have pB : h.prev b ≠ b := fun e => eB (hB.mpr e)
    have pB1 := Ne.symm pB
    have eB1 : b ≠ h.next b := Ne.symm eB
    simp [swap, swap_retarget, swap_nodes, empty, eA, eB, pA, pB, hab, hba, htb, hfb,
      htb1, hfb1, pB1, eB1]
    constructor <;> intro x h1 h2 h3 h4 <;> simp [h1, h2, h3, h4]
  · have pB := hB.mp eB
    have pA : h.prev a ≠ a := fun e => eA (hA.mpr e)
    have pA1 := Ne.symm pA
    have eA1 : a ≠ h.next a := Ne.symm eA
    simp [swap, swap_retarget, swap_nodes, empty, eA, eB, pA, pB, hab, hba, hta, hfa,
      hta1, hfa1, pA1, eA1]
    constructor <;> intro x h1 h2 h3 h4 <;> simp [h1, h2, h3, h4]
  · have pB : h.prev b ≠ b := fun e => eB (hB.mpr e)
    have pB1 := Ne.symm pB
    have eB1 : b ≠ h.next b := Ne.symm eB
    have pA : h.prev a ≠ a := fun e => eA (hA.mpr e)
    have pA1 := Ne.symm pA
    have eA1 : a ≠ h.next a := Ne.symm eA
    simp [swap, swap_retarget, swap_nodes, empty, eA, eB, pA, pB, hab, hba, hta, hfa,
      hta1, hfa1, pA1, eA1, htb, hfb, htb1, hfb1, pB1, eB1, hpp, hnn, hpp1, hnn1]
    constructor <;> intro x h1 h2 h3 h4 <;> simp [h1, h2, h3, h4]

theorem seg_prev_next {T : Type} (h : Heap T) (l : List Nat) (x y : Nat) (hs : Seg h x l y) :
    h.prev (h.next x) = x := by
  cases l with
  | nil => simp only [Seg] at hs; rw [hs.1]; exact hs.2
  | cons n l => rw [hs.1]; exact hs.2.1

theorem wf_empty_iff {T : Type} (h : Heap T) (b : Nat) (ns : List Nat) (hwf : WF h b ns) :
    h.next b = b ↔ ns = [] := by
  cases ns with
  | nil => simpa using hwf.1.1
  | cons n ns =>
    have hn : h.next b = n := hwf.1.1
    have : b ≠ n := fun e => (List.nodup_cons.mp hwf.2.1).1 (by simp [e])
    simp [hn, Ne.symm this]

theorem wf_next_eq_iff_prev_eq {T : Type} (h : Heap T) (b : Nat) (ns : List Nat)
    (hwf : WF h b ns) : h.next b = b ↔ h.prev b = b := by
  constructor
  · intro e
    have := seg_prev_next h ns b b hwf.1
    rw [e] at this
    exact this
  · intro e
    have := seg_next_prev h ns b b hwf.1
    rw [e] at this
    exact this

/-- Moving a ring from the sentinel `a` to the sentinel `b`. -/
theorem rebase_wf {T : Type} (h h1 : Heap T) (a b : Nat) (la : List Nat) (hwf : WF h a la)
    (hb : b ∉ la)
    (hn : ∀ x ∈ la, x ≠ h.prev a → h1.next x = h.next x)
    (hp : ∀ x ∈ la, x ≠ h.next a → h1.prev x = h.prev x)
    (hne : h.next a ≠ a → h1.next (h.prev a) = b ∧ h1.prev (h.next a) = b ∧
      h1.next b = h.next a ∧ h1.prev b = h.prev a)
    (he : h.next a = a → h1.next b = b ∧ h1.prev b = b)
    (hl : ∀ x ∈ b :: la, h1.live x = true) : WF h1 b la := by
  have hemp := wf_empty_iff h a la hwf
  obtain ⟨hseg, hnd, _⟩ := hwf
  refine ⟨?_, List.nodup_cons.mpr ⟨hb, (List.nodup_cons.mp hnd).2⟩, hl⟩
  cases la with
  | nil => exact he (hemp.mpr rfl)
  | cons fa l =>
    obtain ⟨hna, _, hrest⟩ := hseg
    have hnea : h.next a ≠ a := fun e => by simpa using hemp.mp e
    obtain ⟨e1, e2, e3, e4⟩ := hne hnea
    have hndl := (List.nodup_cons.mp hnd).2
    refine ⟨by rw [e3, hna], by rw [← hna, e2], ?_⟩
    refine seg_retarget_end h h1 l b fa a hrest hndl hn ?_ e1 e4
    intro x hx
    have : x ≠ h.next a := by
      rw [hna]
      intro e
      exact (List.nodup_cons.mp hndl).1 (e ▸ hx)
    exact hp x (List.mem_cons_of_mem _ hx) this

theorem swap_wf {T : Type} (h : Heap T) (a b : Nat) (la lb : List Nat) (hA : WF h a la)
    (hB : WF h b lb) (hdisj : ∀ x ∈ a :: la, x ∉ b :: lb) :
    WF (swap h a b) b la ∧ WF (swap h a b) a lb := by
  have hab : a ≠ b := fun e => hdisj a (by simp) (by simp [e])
  have hpa := seg_prev_mem h la a a hA.1
  have hpb := seg_prev_mem h lb b b hB.1
  have hna : h.next a ∈ a :: la := by
    have := seg_next_mem h la a a hA.1
    simp at this ⊢
    tauto
  have hnb : h.next b ∈ b :: lb := by
    have := seg_next_mem h lb b b hB.1
    simp at this ⊢
    tauto
  have hbA : ∀ x ∈ a :: la, x ≠ b := fun x hx e => hdisj x hx (by simp [e])
  have haB : ∀ x ∈ b :: lb, x ≠ a := fun x hx e => hdisj a (by simp) (e ▸ hx)
  obtain ⟨f1, f2, f3, f4, f5, f6, f7, f8, _, f10⟩ := swap_fields h a b hab (hbA _ hpa) (hbA _ hna)
    (haB _ hpb) (haB _ hnb) (wf_next_eq_iff_prev_eq h a la hA) (wf_next_eq_iff_prev_eq h b lb hB)
    (fun e => hdisj _ hpa (e ▸ hpb)) (fun e => hdisj _ hna (e ▸ hnb))
  constructor
  · refine rebase_wf h _ a b la hA (fun e => hdisj b (List.mem_cons_of_mem _ e) (by simp))
      ?_ ?_ ?_ ?_ ?_
    · intro x hx hne
      have hx1 : x ∈ a :: la := List.mem_cons_of_mem _ hx
      exact f7 x (fun e => (List.nodup_cons.mp hA.2.1).1 (e ▸ hx)) (hbA x hx1) hne
        (fun e => hdisj x hx1 (e ▸ hpb))
    · intro x hx hne
      have hx1 : x ∈ a :: la := List.mem_cons_of_mem _ hx
      exact f8 x (fun e => (List.nodup_cons.mp hA.2.1).1 (e ▸ hx)) (hbA x hx1) hne
        (fun e => hdisj x hx1 (e ▸ hnb))
    · intro hne
      refine ⟨(f5 hne).1, (f5 hne).2, ?_, ?_⟩
      · rw [f3, if_neg hne]
      · rw [f4, if_neg hne]
    · intro he
      exact ⟨by rw [f3, if_pos he], by rw [f4, if_pos he]⟩
    · intro x hx
      rw [f10]
      rcases List.mem_cons.mp hx with e | e
      · rw [e]; exact hB.2.2 b (by simp)
      · exact hA.2.2 x (List.mem_cons_of_mem _ e)
  · refine rebase_wf h _ b a lb hB (fun e => hdisj a (by simp) (List.mem_cons_of_mem _ e))
      ?_ ?_ ?_ ?_ ?_
    · intro x hx hne
      have hx1 : x ∈ b :: lb := List.mem_cons_of_mem _ hx
      exact f7 x (haB x hx1) (fun e => (List.nodup_cons.mp hB.2.1).1 (e ▸ hx))
        (fun e => hdisj _ hpa (e ▸ hx1)) hne
    · intro x hx hne
      have hx1 : x ∈ b :: lb := List.mem_cons_of_mem _ hx
      exact f8 x (haB x hx1) (fun e => (List.nodup_cons.mp hB.2.1).1 (e ▸ hx))
        (fun e => hdisj _ hna (e ▸ hx1)) hne
    · intro hne
      refine ⟨(f6 hne).1, (f6 hne).2, ?_, ?_⟩
      · rw [f1, if_neg hne]
      · rw [f2, if_neg hne]
    · intro he
      exact ⟨by rw [f1, if_pos he], by rw [f2, if_pos he]⟩
    · intro x hx
      rw [f10]
      rcases List.mem_cons.mp hx with e | e
      · rw [e]; exact hA.2.2 a (by simp)
      · exact hB.2.2 x (List.mem_cons_of_mem _ e)

/-! ## Failure of node creation -/

theorem same_live_refl {T : Type} (h : Heap T) : SameLive h h :=
  ⟨rfl, fun _ _ => ⟨rfl, rfl, rfl⟩⟩

theorem same_live_wf {T : Type} (h h1 : Heap T) (b : Nat) (ns : List Nat) (hs : SameLive h h1)
    (hwf : WF h b ns) : WF h1 b ns := by
  refine wf_frame h h1 b ns hwf ?_ ?_ ?_
  · intro a ha; exact (hs.2 a (hwf.2.2 a ha)).2.1
  · intro a ha; exact (hs.2 a (hwf.2.2 a ha)).1
  · intro a _; rw [hs.1]

theorem same_live_values {T : Type} (h h1 : Heap T) (b : Nat) (ns : List Nat)
    (hs : SameLive h h1) (hwf : WF h b ns) : ns.map h1.value = ns.map h.value := by
  apply List.map_congr_left
  intro a ha
  exact (hs.2 a (hwf.2.2 a (List.mem_cons_of_mem _ ha))).2.2

theorem new_value_node_fails {T : Type} (E : Env T) (h : Heap T) (p n : Nat) (val : T)
    (hfail : creation_fails E h val) :
    ∃ e h1, new_value_node E h p n val = Outcome.raised e h1 ∧ SameLive h h1 := by
  rcases hfail with ha | ⟨c, ha, hc⟩
  · exact ⟨Exn.bad_alloc, h, by simp [new_value_node, ha], same_live_refl h⟩
  · have hfresh := E.alloc_fresh h c ha
    refine ⟨Exn.copy_throw, _, by simp only [new_value_node, ha, hc]; rfl, ?_, ?_⟩
    · funext x
      by_cases hx : x = c
      · simp [raw_node, hx, hfresh]
      · simp [raw_node, hx]
    · intro a hlive
      have hac : a ≠ c := by
        intro e
        rw [e, hfresh] at hlive
        exact Bool.false_ne_true hlive
      simp [raw_node, hac]

/-- An exception leaving `new value_node(...)` means node creation failed, and
the heap it leaves has the same live objects as before. -/
theorem new_value_node_raised {T : Type} (E : Env T) (h h1 : Heap T) (p n : Nat) (val : T)
    (e : Exn) (hr : new_value_node E h p n val = Outcome.raised e h1) :
    creation_fails E h val ∧ SameLive h h1 := by
  have hcf : creation_fails E h val := by
    unfold new_value_node at hr
    cases ha : E.alloc h with
    | none => exact Or.inl ha
    | some c =>
      right
      refine ⟨c, ha, ?_⟩
      simp only [ha] at hr
      by_cases hc : E.copy_ok (raw_node h c) val = true
      · simp [hc] at hr
      · simpa using hc
  obtain ⟨e2, h2, heq, hs⟩ := new_value_node_fails E h p n val hcf
  rw [heq] at hr
  injection hr with _ hh
  subst hh
  exact ⟨hcf, hs⟩

theorem insert_fails {T : Type} (E : Env T) (h : Heap T) (pos : Nat) (val : T)
    (hfail : creation_fails E h val) :
    ∃ e h1, insert E h pos val = Outcome.raised e h1 ∧ SameLive h h1 := by
  obtain ⟨e, h1, heq, hs⟩ := new_value_node_fails E h (h.prev pos) pos val hfail
  exact ⟨e, h1, by simp [insert, heq], hs⟩

theorem insert_raised {T : Type} (E : Env T) (h h1 : Heap T) (pos : Nat) (val : T) (e : Exn)
    (hr : insert E h pos val = Outcome.raised e h1) :
    creation_fails E h val ∧ SameLive h h1 := by
  unfold insert at hr
  cases hn : new_value_node E h (h.prev pos) pos val with
  | ok h2 c => simp [hn] at hr
  | raised e2 h2 =>
    simp only [hn] at hr
    injection hr with _ hh
    subst hh
    exact new_value_node_raised E h h2 _ _ val e2 hn

theorem push_back_raised {T : Type} (E : Env T) (h h1 : Heap T) (b : Nat) (val : T) (e : Exn)
    (hr : push_back E h b val = Outcome.raised e h1) :
    creation_fails E h val ∧ SameLive h h1 := by
  unfold push_back at hr
  cases hn : insert E h (end_ h b) val with
  | ok h2 c => simp [hn] at hr
  | raised e2 h2 =>
    simp only [hn] at hr
    injection hr with _ hh
    subst hh
    exact insert_raised E h h2 _ val e2 hn

/-! ## Growing a list by fresh nodes -/

theorem grown_of_same_live {T : Type} (h h1 : Heap T) (t : Nat) (acc : List Nat)
    (hs : SameLive h h1) (hwf : WF h t acc) : Grown h h1 t acc [] := by
  refine ⟨by simpa using same_live_wf h h1 t acc hs hwf, by simp, ?_, ?_, ?_⟩
  · intro x; simp [hs.1]
  · intro x hx; exact (hs.2 x hx).2.2
  · intro x hx _; exact ⟨(hs.2 x hx).1, (hs.2 x hx).2.1⟩

theorem grown_trans {T : Type} (h h1 h2 : Heap T) (t : Nat) (acc n1 n2 : List Nat)
    (g1 : Grown h h1 t acc n1) (g2 : Grown h1 h2 t (acc ++ n1) n2) :
    Grown h h2 t acc (n1 ++ n2) := by
  obtain ⟨_, f1, l1, v1, p1⟩ := g1
  obtain ⟨w2, f2, l2, v2, p2⟩ := g2
  have hlive1 : ∀ x, h.live x = true → h1.live x = true := by
    intro x hx; rw [l1, hx]; rfl
  have hn1 : ∀ x, h.live x = true → x ∉ n1 := by
    intro x hx e
    rw [f1 x e] at hx
    exact Bool.false_ne_true hx
  refine ⟨by simpa using w2, ?_, ?_, ?_, ?_⟩
  · intro x hx
    rcases List.mem_append.mp hx with e | e
    · exact f1 x e
    · have := f2 x e
      rw [l1] at this
      simp at this
      exact this.1
  · intro x
    rw [l2, l1]
    simp [Bool.or_assoc]
  · intro x hx
    rw [v2 x (hlive1 x hx), v1 x hx]
  · intro x hx hxn
    have hx2 : x ∉ t :: (acc ++ n1) := by
      intro e
      rcases List.mem_cons.mp e with e | e
      · exact hxn (by simp [e])
      · rcases List.mem_append.mp e with e | e
        · exact hxn (List.mem_cons_of_mem _ e)
        · exact hn1 x hx e
    obtain ⟨a1, a2⟩ := p2 x (hlive1 x hx) hx2
    obtain ⟨b1, b2⟩ := p1 x hx hxn
    exact ⟨by rw [a1, b1], by rw [a2, b2]⟩

/-- A list that shares no node with the growing one is not disturbed. -/
theorem grown_other {T : Type} (h h1 : Heap T) (t o : Nat) (acc new ls : List Nat)
    (g : Grown h h1 t acc new) (hwf : WF h o ls) (hdisj : ∀ x ∈ o :: ls, x ∉ t :: acc) :
    WF h1 o ls ∧ ls.map h1.value = ls.map h.value ∧
      (∀ x ∈ o :: ls, h1.next x = h.next x) ∧ (∀ x ∈ o :: ls, x ∉ new) := by
  obtain ⟨_, f1, l1, v1, p1⟩ := g
  refine ⟨wf_frame h h1 o ls hwf ?_ ?_ ?_, ?_, ?_, ?_⟩
  · intro x hx; exact (p1 x (hwf.2.2 x hx) (hdisj x hx)).2
  · intro x hx; exact (p1 x (hwf.2.2 x hx) (hdisj x hx)).1
  · intro x hx; rw [l1, hwf.2.2 x hx]; rfl
  · apply List.map_congr_left
    intro x hx
    exact v1 x (hwf.2.2 x (List.mem_cons_of_mem _ hx))
  · intro x hx; exact (p1 x (hwf.2.2 x hx) (hdisj x hx)).2
  · intro x hx e
    have := f1 x e
    rw [hwf.2.2 x hx] at this
    exact Bool.false_ne_true this.symm

theorem push_back_grown {T : Type} (E : Env T) (h h1 : Heap T) (t : Nat) (acc : List Nat)
    (val : T) (u : Unit) (hwf : WF h t acc) (hp : push_back E h t val = Outcome.ok h1 u) :
    ∃ c, Grown h h1 t acc [c] ∧ h1.value c = val := by
  obtain ⟨c, hfresh, heq, hwf1, _⟩ := push_back_ok E h h1 t acc val u hwf hp
  have hq := seg_prev_mem h acc t t hwf.1
  have hne : ∀ x, h.live x = true → x ≠ c := by
    intro x hx e
    rw [e, hfresh] at hx
    exact Bool.false_ne_true hx
  refine ⟨c, ⟨hwf1, by simpa using hfresh, ?_, ?_, ?_⟩, by simp [heq, insert_heap]⟩
  · intro x
    by_cases hx : x = c
    · simp [heq, insert_heap, hx]
    · simp [heq, insert_heap, hx]
  · intro x hx
    simp [heq, insert_heap, hne x hx]
  · intro x hx hxn
    have h1 : x ≠ t := fun e => hxn (by simp [e])
    have h2 : x ≠ h.prev t := fun e => hxn (e ▸ hq)
    simp [heq, insert_heap, hne x hx, h1, h2]

/-! ## The copy constructor -/

theorem push_back_copied {T : Type} (E : Env T) (h h1 : Heap T) (b : Nat) (val : T) (u : Unit)
    (hp : push_back E h b val = Outcome.ok h1 u) : ∃ h2, E.copy_ok h2 val = true := by
  unfold push_back at hp
  cases hi : insert E h (end_ h b) val with
  | raised e h2 => simp [hi] at hp
  | ok h2 c => exact ⟨_, (insert_ok_inv E h h2 _ c val hi).2⟩

theorem wf_begin {T : Type} (h : Heap T) (b : Nat) (ns : List Nat) (hwf : WF h b ns) :
    h.next b = pos_of b ns := by
  cases ns with
  | nil => exact hwf.1.1
  | cons n ns => exact hwf.1.1

theorem dtor_spec {T : Type} (h : Heap T) (t : Nat) (ns : List Nat) (fuel : Nat)
    (hwf : WF h t ns) (hf : ns.length ≤ fuel) :
    ∃ h1, list_dtor fuel h t = some h1 ∧ WF h1 t [] ∧ h1.value = h.value ∧
      (∀ a, h1.live a = if a ∈ ns then false else h.live a) ∧
      (∀ a, a ≠ t → h1.prev a = h.prev a ∧ h1.next a = h.next a) := by
  cases ns with
  | nil =>
    have hn : h.next t = t := hwf.1.1
    refine ⟨h, by simp [list_dtor, erase_range, begin_, end_, hn], hwf, rfl, by simp,
      fun _ _ => ⟨rfl, rfl⟩⟩
  | cons f m =>
    have hwf0 : WF h t ([] ++ (f :: m) ++ []) := by simpa using hwf
    have heq := erase_range_eq h t f [] m [] fuel hwf0 (by simpa using hf)
    have hwf1 := erase_heap_wf h t f [] m [] hwf0
    have hn : h.next t = f := hwf.1.1
    have hp : h.prev f = t := hwf.1.2.1
    simp only [pos_of, List.headD_nil] at heq hwf1
    refine ⟨erase_heap h f t (f :: m), by simp [list_dtor, begin_, end_, hn, heq],
      by simpa using hwf1, rfl, ?_, ?_⟩
    · intro a; simp only [erase_heap, kill_apply]
    · intro a ha
      simp [erase_heap, hp, ha]


theorem copy_loop_spec {T : Type} (E : Env T) (t o : Nat) (rest : List Nat) :
    ∀ (pre acc : List Nat) (h : Heap T) (fuel : Nat), WF h o (pre ++ rest) → WF h t acc →
      (∀ x ∈ o :: (pre ++ rest), x ∉ t :: acc) → rest.length ≤ fuel →
      ∃ out new, copy_loop E t o fuel h (pos_of o rest) = some out ∧
        Grown h out.heap t acc new ∧ new.length ≤ rest.length ∧
        (out.succeeded = true → new.map out.heap.value = rest.map h.value ∧
          ∀ x ∈ rest, ∃ h1, E.copy_ok h1 (h.value x) = true) := by
  induction rest with
  | nil =>
    intro pre acc h fuel _ hwt _ _
    refine ⟨Outcome.ok h (), [], ?_, grown_of_same_live h h t acc (same_live_refl h) hwt,
      by simp, by simp⟩
    cases fuel <;> simp [copy_loop, pos_of]
  | cons n rest ih =>
    intro pre acc h fuel hwo hwt hd hf
    have hwo0 : WF h o (pre ++ (n :: []) ++ rest) := by simpa using hwo
    obtain ⟨_, hs2, _, _, _, _, hpm, _, _⟩ := wf_split h o n pre [] rest hwo0
    have hnext : h.next n = pos_of o rest := hs2.1
    have hno : n ≠ o := fun e => hpm o (by simp) (by simp [e])
    have hnmem : n ∈ o :: (pre ++ n :: rest) := by simp
    cases fuel with
    | zero => simp at hf
    | succ f =>
      simp only [pos_of, List.headD_cons, copy_loop, hno, if_false]
      cases hp : push_back E h t (h.value n) with
      | raised e h1 =>
        exact ⟨Outcome.raised e h1, [], rfl,
          grown_of_same_live h h1 t acc (push_back_raised E h h1 t _ e hp).2 hwt,
          by simp, by simp [Outcome.succeeded]⟩
      | ok h1 u =>
        obtain ⟨c, g, hv⟩ := push_back_grown E h h1 t acc (h.value n) u hwt hp
        obtain ⟨hwo1, _, hnx1, hnew1⟩ := grown_other h h1 t o acc [c] (pre ++ n :: rest) g hwo hd
        have hit : h1.next n = pos_of o rest := by rw [hnx1 n hnmem, hnext]
        have hwo2 : WF h1 o ((pre ++ [n]) ++ rest) := by simpa using hwo1
        have hd2 : ∀ x ∈ o :: ((pre ++ [n]) ++ rest), x ∉ t :: (acc ++ [c]) := by
          intro x hx e
          have hx1 : x ∈ o :: (pre ++ n :: rest) := by simpa using hx
          have : x ∈ t :: acc ∨ x ∈ [c] := by
            simp at e ⊢
            tauto
          rcases this with e1 | e1
          · exact hd x hx1 e1
          · exact hnew1 x hx1 e1
        obtain ⟨out, new, heq, g2, hlen, hvals⟩ :=
          ih (pre ++ [n]) (acc ++ [c]) h1 f hwo2 g.1 hd2 (by simpa using hf)
        refine ⟨out, c :: new, ?_, grown_trans h h1 out.heap t acc [c] new g g2,
          by simp; omega, ?_⟩
        · simp only [hit]; exact heq
        · intro hs
          have hc1 : h1.live c = true := by rw [g.2.2.1]; simp
          have hrest1 : ∀ x ∈ rest, h1.value x = h.value x := by
            intro x hx
            exact g.2.2.2.1 x (hwo.2.2 x (by simp [hx]))
          have hrest : rest.map h1.value = rest.map h.value := List.map_congr_left hrest1
          refine ⟨by rw [List.map_cons, List.map_cons, (hvals hs).1, hrest, g2.2.2.2.1 c hc1, hv],
            ?_⟩
          intro x hx
          rcases List.mem_cons.mp hx with e | e
          · rw [e]; exact push_back_copied E h h1 t (h.value n) u hp
          · obtain ⟨h2, hc2⟩ := (hvals hs).2 x e
            exact ⟨h2, by rw [← hrest1 x e]; exact hc2⟩

theorem list_copy_spec {T : Type} (E : Env T) (h : Heap T) (t o : Nat) (ls : List Nat)
    (fuel : Nat) (ht : h.live t = false) (hwo : WF h o ls) (hf : ls.length ≤ fuel) :
    ∃ out, list_copy E fuel h t o = some out ∧
      (out.succeeded = true → ∃ new, WF out.heap t new ∧
        new.map out.heap.value = ls.map h.value ∧
        (∀ x ∈ ls, ∃ h1, E.copy_ok h1 (h.value x) = true) ∧
        (∀ x ∈ new, h.live x = false) ∧
        (∀ x, out.heap.live x = (h.live x || decide (x = t) || decide (x ∈ new))) ∧
        (∀ x, h.live x = true → out.heap.prev x = h.prev x ∧ out.heap.next x = h.next x ∧
          out.heap.value x = h.value x)) ∧
      (out.succeeded = false → SameLive h out.heap) := by
  have hne : ∀ x, h.live x = true → x ≠ t := by
    intro x hx e
    rw [e, ht] at hx
    exact Bool.false_ne_true hx
  have hot : ∀ x ∈ o :: ls, x ≠ t := fun x hx => hne x (hwo.2.2 x hx)
  have hwo0 : WF (list_default h t) o ls := by
    refine wf_frame h _ o ls hwo ?_ ?_ ?_
    · intro a ha; simp [list_default, hot a ha]
    · intro a ha; simp [list_default, hot a ha]
    · intro a ha; simp [list_default, hot a ha]
  have hwt0 := list_default_wf h t
  have hd : ∀ x ∈ o :: ([] ++ ls), x ∉ t :: ([] : List Nat) := by
    intro x hx e
    simp only [List.nil_append] at hx
    simp at e
    exact hot x hx e
  obtain ⟨out1, new, heq, g, hlen, hvals⟩ :=
    copy_loop_spec E t o ls [] [] (list_default h t) fuel (by simpa using hwo0) hwt0 hd hf
  have hbegin : begin_ (list_default h t) o = pos_of o ls := by
    simp only [begin_]
    exact wf_begin _ o ls hwo0
  obtain ⟨hwf1, hfresh, hlive, hval, hlinks⟩ := g
  simp only [List.nil_append] at hwf1
  have hfresh1 : ∀ x ∈ new, h.live x = false ∧ x ≠ t := by
    intro x hx
    have := hfresh x hx
    by_cases e : x = t
    · simp [list_default, e] at this
    · simp [list_default, e] at this
      exact ⟨this, e⟩
  have hframe : ∀ x, h.live x = true → out1.heap.prev x = h.prev x ∧
      out1.heap.next x = h.next x ∧ out1.heap.value x = h.value x := by
    intro x hx
    have hxt := hne x hx
    have hx0 : (list_default h t).live x = true := by simp [list_default, hxt, hx]
    obtain ⟨a1, a2⟩ := hlinks x hx0 (by simpa using hxt)
    have a3 := hval x hx0
    simp [list_default, hxt] at a1 a2 a3
    exact ⟨a1, a2, a3⟩
  cases out1 with
  | ok h1 u =>
    refine ⟨Outcome.ok h1 (), ?_, ?_, by simp [Outcome.succeeded]⟩
    · simp only [list_copy, hbegin, end_, heq]
    · intro _
      obtain ⟨hv1, hv2⟩ := hvals rfl
      refine ⟨new, hwf1, hv1, hv2, fun x hx => (hfresh1 x hx).1, ?_, hframe⟩
      intro x
      have := hlive x
      simp only [Outcome.heap] at this ⊢
      rw [this]
      by_cases e : x = t
      · simp [list_default, e]
      · simp [list_default, e]
  | raised e h1 =>
    simp only [Outcome.heap] at hwf1 hlive hframe
    obtain ⟨h2, hd2, _, hv2, hl2, hp2⟩ := dtor_spec h1 t new fuel hwf1 (by omega)
    refine ⟨Outcome.raised e (release h2 t), ?_, by simp [Outcome.succeeded], ?_⟩
    · simp only [list_copy, hbegin, end_, heq, hd2]
    · intro _
      simp only [Outcome.heap]
      refine ⟨?_, ?_⟩
      · funext x
        by_cases e1 : x = t
        · simp [release, e1, ht]
        · by_cases e2 : x ∈ new
          · simp [release, e1, hl2, e2, (hfresh1 x e2).1]
          · simp [release, e1, hl2, e2, hlive x, list_default]
      · intro x hx
        have hxt := hne x hx
        obtain ⟨a1, a2, a3⟩ := hframe x hx
        obtain ⟨b1, b2⟩ := hp2 x hxt
        exact ⟨by simp [release, b1, a1], by simp [release, b2, a2], by simp [release, hv2, a3]⟩

/-! ## Copy assignment -/

theorem swap_value {T : Type} (h : Heap T) (a b : Nat) : (swap h a b).value = h.value := by
  simp only [swap, swap_nodes, swap_retarget]
  split <;> split <;> rfl

theorem swap_live {T : Type} (h : Heap T) (a b : Nat) : (swap h a b).live = h.live := by
  simp only [swap, swap_nodes, swap_retarget]
  split <;> split <;> rfl

/-- `swap` writes only to nodes of the two rings. -/
theorem swap_frame {T : Type} (h : Heap T) (a b : Nat) (la lb : List Nat) (hA : WF h a la)
    (hB : WF h b lb) (hdisj : ∀ x ∈ a :: la, x ∉ b :: lb) (x : Nat) (hxa : x ∉ a :: la)
    (hxb : x ∉ b :: lb) :
    (swap h a b).next x = h.next x ∧ (swap h a b).prev x = h.prev x := by
  have hab : a ≠ b := fun e => hdisj a (by simp) (by simp [e])
  have hpa := seg_prev_mem h la a a hA.1
  have hpb := seg_prev_mem h lb b b hB.1
  have hna : h.next a ∈ a :: la := by
    have := seg_next_mem h la a a hA.1
    simp at this ⊢
    tauto
  have hnb : h.next b ∈ b :: lb := by
    have := seg_next_mem h lb b b hB.1
    simp at this ⊢
    tauto
  have hbA : ∀ x ∈ a :: la, x ≠ b := fun x hx e => hdisj x hx (by simp [e])
  have haB : ∀ x ∈ b :: lb, x ≠ a := fun x hx e => hdisj a (by simp) (e ▸ hx)
  obtain ⟨_, _, _, _, _, _, f7, f8, _, _⟩ := swap_fields h a b hab (hbA _ hpa) (hbA _ hna)
    (haB _ hpb) (haB _ hnb) (wf_next_eq_iff_prev_eq h a la hA) (wf_next_eq_iff_prev_eq h b lb hB)
    (fun e => hdisj _ hpa (e ▸ hpb)) (fun e => hdisj _ hna (e ▸ hnb))
  have h1 : x ≠ a := fun e => hxa (by simp [e])
  have h2 : x ≠ b := fun e => hxb (by simp [e])
  exact ⟨f7 x h1 h2 (fun e => hxa (e ▸ hpa)) (fun e => hxb (e ▸ hpb)),
    f8 x h1 h2 (fun e => hxa (e ▸ hna)) (fun e => hxb (e ▸ hnb))⟩

theorem assign_spec {T : Type} (E : Env T) (h : Heap T) (d o t : Nat) (ld ls : List Nat)
    (fuel : Nat) (hwd : WF h d ld) (hwo : WF h o ls) (hdisj : ∀ x ∈ d :: ld, x ∉ o :: ls)
    (ht : h.live t = false) (hf1 : ls.length ≤ fuel) (hf2 : ld.length ≤ fuel) :
    ∃ out, assign E fuel h d o t = some out ∧
      (out.succeeded = true → ∃ new, WF out.heap d new ∧
        new.map out.heap.value = ls.map h.value ∧ WF out.heap o ls ∧
        ls.map out.heap.value = ls.map h.value ∧
        (∀ x ∈ ls, ∃ h1, E.copy_ok h1 (h.value x) = true) ∧
        (∀ x ∈ t :: ld, out.heap.live x = false)) ∧
      (out.succeeded = false → SameLive h out.heap) := by
  have hdo : d ≠ o := fun e => hdisj d (by simp) (by simp [e])
  obtain ⟨out1, heq, hok, hfail⟩ := list_copy_spec E h t o ls fuel ht hwo hf1
  cases out1 with
  | raised e h1 =>
    refine ⟨Outcome.raised e h1, by simp [assign, hdo, heq], by simp [Outcome.succeeded], ?_⟩
    intro _
    exact hfail rfl
  | ok h1 u =>
    obtain ⟨new, hwt1, hvals, hcopied, hfresh, hlive, hframe⟩ := hok rfl
    simp only [Outcome.heap] at hwt1 hvals hfresh hlive hframe
    have hne : ∀ x, h.live x = true → x ≠ t ∧ x ∉ new := by
      intro x hx
      refine ⟨?_, ?_⟩
      · intro e
        rw [e, ht] at hx
        exact Bool.false_ne_true hx
      · intro e
        rw [hfresh x e] at hx
        exact Bool.false_ne_true hx
    have hkeep : ∀ (b : Nat) (l : List Nat), WF h b l → WF h1 b l := by
      intro b l hw
      refine wf_frame h h1 b l hw ?_ ?_ ?_
      · intro a ha; exact (hframe a (hw.2.2 a ha)).2.1
      · intro a ha; exact (hframe a (hw.2.2 a ha)).1
      · intro a ha
        rw [hlive a, hw.2.2 a ha]
        rfl
    have hwd1 := hkeep d ld hwd
    have hwo1 := hkeep o ls hwo
    have htd : ∀ x ∈ t :: new, x ∉ d :: ld := by
      intro x hx e
      have := hne x (hwd.2.2 x e)
      rcases List.mem_cons.mp hx with e1 | e1
      · exact this.1 e1
      · exact this.2 e1
    have hto : ∀ x ∈ o :: ls, x ∉ t :: new := by
      intro x hx e
      have := hne x (hwo.2.2 x hx)
      rcases List.mem_cons.mp e with e1 | e1
      · exact this.1 e1
      · exact this.2 e1
    obtain ⟨hwd2, hwt2⟩ := swap_wf h1 t d new ld hwt1 hwd1 htd
    have hwo2 : WF (swap h1 t d) o ls := by
      refine wf_frame h1 _ o ls hwo1 ?_ ?_ ?_
      · intro a ha
        exact (swap_frame h1 t d new ld hwt1 hwd1 htd a (hto a ha)
          (fun e => hdisj a e ha)).1
      · intro a ha
        exact (swap_frame h1 t d new ld hwt1 hwd1 htd a (hto a ha)
          (fun e => hdisj a e ha)).2
      · intro a _; rw [swap_live]
    obtain ⟨h3, hd3, _, hv3, hl3, hp3⟩ := dtor_spec (swap h1 t d) t ld fuel hwt2 hf2
    have hfin : ∀ (b : Nat) (l : List Nat), WF (swap h1 t d) b l → (∀ x ∈ b :: l, x ∉ t :: ld) →
        WF (release h3 t) b l := by
      intro b l hw hx
      refine wf_frame _ _ b l hw ?_ ?_ ?_
      · intro a ha
        have : a ≠ t := fun e => hx a ha (by simp [e])
        simp [release, (hp3 a this).2]
      · intro a ha
        have : a ≠ t := fun e => hx a ha (by simp [e])
        simp [release, (hp3 a this).1]
      · intro a ha
        have h1 : a ≠ t := fun e => hx a ha (by simp [e])
        have h2 : a ∉ ld := fun e => hx a ha (List.mem_cons_of_mem _ e)
        simp [release, h1, hl3, h2]
    have hval : (release h3 t).value = h1.value := by
      simp [release, hv3, swap_value]
    refine ⟨Outcome.ok (release h3 t) (), by simp [assign, hdo, heq, hd3],
      ?_, by simp [Outcome.succeeded]⟩
    intro _
    simp only [Outcome.heap]
    refine ⟨new, hfin d new hwd2 ?_, by rw [hval]; exact hvals, hfin o ls hwo2 ?_, ?_,
      hcopied, ?_⟩
    · intro x hx e
      rcases List.mem_cons.mp e with e1 | e1
      · rcases List.mem_cons.mp hx with e2 | e2
        · exact htd t (by simp) (by rw [← e1, e2]; simp)
        · have := (List.nodup_cons.mp hwt1.2.1).1
          exact this (e1 ▸ e2)
      · have hnd := (List.nodup_cons.mp hwt2.2.1).1
        rcases List.mem_cons.mp hx with e2 | e2
        · exact (List.nodup_cons.mp hwd1.2.1).1 (e2 ▸ e1)
        · exact htd x (List.mem_cons_of_mem _ e2) (List.mem_cons_of_mem _ e1)
    · intro x hx e
      rcases List.mem_cons.mp e with e1 | e1
      · exact hto x hx (by simp [e1])
      · exact hdisj x (List.mem_cons_of_mem _ e1) hx
    · rw [hval]
      apply List.map_congr_left
      intro x hx
      exact (hframe x (hwo.2.2 x (List.mem_cons_of_mem _ hx))).2.2
    · intro x hx
      rcases List.mem_cons.mp hx with e1 | e1
      · simp [release, e1]
      · by_cases e2 : x = t
        · simp [release, e2]
        · simp [release, e2, hl3, e1]

/-! ## Worked examples -/

theorem assign_example_ok :
    (assign (env_fit 16 99) 3 heap_two 4 0 7).map
        (fun out => (out.succeeded, to_list 3 out.heap 4, to_list 3 out.heap 0, out.heap.live 5))
      = some (true, some [10, 20, 30], some [10, 20, 30], false) := by
  decide

theorem assign_example_throw :
    (assign (env_fit 16 20) 3 heap_two 4 0 7).map
        (fun out => (out.succeeded, to_list 3 out.heap 4, to_list 3 out.heap 0,
          decide ((List.range 16).map out.heap.live = (List.range 16).map heap_two.live)))
      = some (false, some [50, 60], some [10, 20, 30], true) := by
  decide

theorem assign_example_no_storage :
    (assign (env_fit 9 99) 3 heap_two 4 0 7).map
        (fun out => (out.succeeded, to_list 3 out.heap 4, to_list 3 out.heap 0))
      = some (false, some [50, 60], some [10, 20, 30]) := by
  decide

/-! ## Ring closure -/

theorem seg_next_seg {T : Type} (h : Heap T) (l : List Nat) :
    ∀ x y, Seg h x l y → NextSeg h x l y := by
  induction l with
  | nil => intro x y hs; exact hs.1
  | cons n l ih => intro x y hs; exact ⟨hs.1, ih n y hs.2.2⟩

theorem next_seg_seg {T : Type} (h : Heap T) (l : List Nat) :
    ∀ x y, NextSeg h x l y → (∀ n ∈ x :: l, h.prev (h.next n) = n) → Seg h x l y := by
  induction l with
  | nil =>
    intro x y hs hc
    have hx := hc x (by simp)
    simp only [NextSeg] at hs
    rw [hs] at hx
    exact ⟨hs, hx⟩
  | cons n l ih =>
    intro x y hs hc
    have hx := hc x (by simp)
    rw [hs.1] at hx
    exact ⟨hs.1, hx, ih n y hs.2 (fun a ha => hc a (List.mem_cons_of_mem _ ha))⟩

/-- Ring closure at every node of a well-formed list. -/
theorem wf_closed {T : Type} (h : Heap T) (b : Nat) (ns : List Nat) (hwf : WF h b ns) :
    RingClosed h (b :: ns) := by
  intro n hn
  rcases List.mem_cons.mp hn with e | e
  · rw [e]
    exact ⟨seg_prev_next h ns b b hwf.1, seg_next_prev h ns b b hwf.1⟩
  · obtain ⟨l1, l2, hl⟩ := List.append_of_mem e
    have := hwf.1
    rw [hl, seg_rotate] at this
    exact ⟨seg_prev_next h _ n n this, seg_next_prev h _ n n this⟩

/-- A well-formed list is a container whose nodes all satisfy ring closure. -/
theorem wf_iff_closed_ring {T : Type} (h : Heap T) (b : Nat) (ns : List Nat) :
    WF h b ns ↔ ClosedRing h b ns := by
  constructor
  · intro hwf
    exact ⟨⟨seg_next_seg h ns b b hwf.1, hwf.2.1, hwf.2.2⟩, wf_closed h b ns hwf⟩
  · intro hc
    obtain ⟨⟨hn, hnd, hl⟩, hrc⟩ := hc
    exact ⟨next_seg_seg h ns b b hn (fun n hn => (hrc n hn).1), hnd, hl⟩

/-! ## Operations defined through `insert` and `erase` -/

theorem insert_outcome_wf {T : Type} (E : Env T) (h : Heap T) (b : Nat) (p s : List Nat)
    (val : T) (hwf : WF h b (p ++ s)) :
    (∀ h1 c, insert E h (pos_of b s) val = Outcome.ok h1 c →
      h1 = insert_heap h (pos_of b s) c val ∧ WF h1 b (p ++ c :: s) ∧
      (p ++ c :: s).map h1.value = p.map h.value ++ val :: s.map h.value) ∧
    (∀ e h1, insert E h (pos_of b s) val = Outcome.raised e h1 →
      SameLive h h1 ∧ WF h1 b (p ++ s)) := by
  refine ⟨?_, ?_⟩
  · intro h1 c hi
    obtain ⟨ha, hc⟩ := insert_ok_inv E h h1 _ c val hi
    obtain ⟨heq, hwf1, hvals⟩ := insert_at E h b p s val c hwf ha hc
    rw [heq] at hi
    injection hi with hh _
    subst hh
    exact ⟨rfl, hwf1, hvals⟩
  · intro e h1 hi
    have hs := (insert_raised E h h1 _ val e hi).2
    exact ⟨hs, same_live_wf h h1 b _ hs hwf⟩

theorem erase_eq {T : Type} (h : Heap T) (b x : Nat) (p s : List Nat) (fuel : Nat)
    (hwf : WF h b (p ++ x :: s)) (hf : 1 ≤ fuel) :
    erase fuel h x = some (erase_heap h x (pos_of b s) [x], pos_of b s) ∧
      WF (erase_heap h x (pos_of b s) [x]) b (p ++ s) := by
  have hwf0 : WF h b (p ++ (x :: []) ++ s) := by simpa using hwf
  obtain ⟨_, hs2, _⟩ := wf_split h b x p [] s hwf0
  have hnx : h.next x = pos_of b s := hs2.1
  have heq := erase_range_eq h b x p [] s fuel hwf0 (by simpa using hf)
  exact ⟨by simp only [erase, hnx]; exact heq, erase_heap_wf h b x p [] s hwf0⟩

theorem pop_front_eq {T : Type} (h : Heap T) (b x : Nat) (s : List Nat) (fuel : Nat)
    (hwf : WF h b (x :: s)) (hf : 1 ≤ fuel) :
    pop_front fuel h b = some (erase_heap h x (pos_of b s) [x]) ∧
      WF (erase_heap h x (pos_of b s) [x]) b s := by
  have hwf0 : WF h b ([] ++ x :: s) := by simpa using hwf
  obtain ⟨heq, hwf1⟩ := erase_eq h b x [] s fuel hwf0 hf
  have hb : begin_ h b = x := hwf.1.1
  exact ⟨by simp [pop_front, hb, heq], by simpa using hwf1⟩

theorem pop_back_eq {T : Type} (h : Heap T) (b y : Nat) (s : List Nat) (fuel : Nat)
    (hwf : WF h b (s ++ [y])) (hf : 1 ≤ fuel) :
    pop_back fuel h b = some (erase_heap h y b [y]) ∧ WF (erase_heap h y b [y]) b s := by
  obtain ⟨heq, hwf1⟩ := erase_eq h b y s [] fuel hwf hf
  have hb : h.prev (end_ h b) = y := ((seg_snoc h s y b b).mp hwf.1).2.2
  simp only [pos_of, List.headD_nil, List.append_nil] at heq hwf1
  exact ⟨by simp [pop_back, hb, heq], hwf1⟩

theorem clear_spec {T : Type} (h : Heap T) (t : Nat) (ns : List Nat) (fuel : Nat)
    (hwf : WF h t ns) (hf : ns.length ≤ fuel) :
    ∃ h1, clear fuel h t = some h1 ∧ WF h1 t [] ∧ h1.value = h.value ∧
      (∀ a, h1.live a = if a ∈ ns then false else h.live a) ∧
      (∀ a, a ≠ t → h1.prev a = h.prev a ∧ h1.next a = h.next a) :=
  dtor_spec h t ns fuel hwf hf

theorem erase_range_wf {T : Type} (h : Heap T) (b : Nat) (p m s : List Nat) (fuel : Nat)
    (hwf : WF h b (p ++ m ++ s)) (hf : m.length ≤ fuel) :
    ∃ h1, erase_range fuel h (pos_of b (m ++ s)) (pos_of b s) = some (h1, pos_of b s) ∧
      WF h1 b (p ++ s) := by
  cases m with
  | nil => exact ⟨h, by simp [erase_range], by simpa using hwf⟩
  | cons f m =>
    exact ⟨_, by simpa [pos_of] using erase_range_eq h b f p m s fuel hwf (by simpa using hf),
      erase_heap_wf h b f p m s hwf⟩

theorem splice_two_wf_any {T : Type} (h : Heap T) (b1 b2 : Nat) (a bs p m s : List Nat)
    (hdst : WF h b1 (a ++ bs)) (hsrc : WF h b2 (p ++ m ++ s))
    (hdisj : ∀ x ∈ b1 :: (a ++ bs), x ∉ b2 :: (p ++ m ++ s)) :
    WF (splice h (pos_of b1 bs) b2 (pos_of b2 (m ++ s)) (pos_of b2 s)) b1 (a ++ m ++ bs) ∧
      WF (splice h (pos_of b1 bs) b2 (pos_of b2 (m ++ s)) (pos_of b2 s)) b2 (p ++ s) := by
  cases m with
  | nil =>
    simp only [List.nil_append, List.append_nil, splice, if_true]
    exact ⟨hdst, by simpa using hsrc⟩
  | cons f m =>
    have := splice_two_wf h b1 b2 f a bs p m s hdst hsrc hdisj
    simpa [pos_of] using this

theorem splice_same_wf_any {T : Type} (h : Heap T) (b : Nat) (p m s u w : List Nat)
    (hwf : WF h b (p ++ m ++ s)) (hsplit : p ++ s = u ++ w) :
    WF (splice h (pos_of b w) b (pos_of b (m ++ s)) (pos_of b s)) b (u ++ m ++ w) := by
  cases m with
  | nil =>
    simp only [List.nil_append, List.append_nil, splice, if_true]
    rw [← hsplit]
    simpa using hwf
  | cons f m =>
    have := splice_same_wf h b b f p m s u w hwf hsplit
    simpa [pos_of] using this

theorem list_copy_wf {T : Type} (E : Env T) (h : Heap T) (t o : Nat) (ls : List Nat)
    (fuel : Nat) (ht : h.live t = false) (hwo : WF h o ls) (hf : ls.length ≤ fuel) :
    ∃ out, list_copy E fuel h t o = some out ∧ WF out.heap o ls ∧
      (out.succeeded = true → ∃ new, WF out.heap t new ∧
        new.map out.heap.value = ls.map h.value) := by
  obtain ⟨out, heq, hok, hfail⟩ := list_copy_spec E h t o ls fuel ht hwo hf
  refine ⟨out, heq, ?_, ?_⟩
  · cases hs : out.succeeded with
    | false => exact same_live_wf h out.heap o ls (hfail hs) hwo
    | true =>
      obtain ⟨new, _, _, _, _, hlive, hframe⟩ := hok hs
      refine wf_frame h out.heap o ls hwo ?_ ?_ ?_
      · intro a ha; exact (hframe a (hwo.2.2 a ha)).2.1
      · intro a ha; exact (hframe a (hwo.2.2 a ha)).1
      · intro a ha
        rw [hlive a, hwo.2.2 a ha]
        rfl
  · intro hs
    obtain ⟨new, hw, hv, _⟩ := hok hs
    exact ⟨new, hw, hv⟩

theorem assign_wf {T : Type} (E : Env T) (h : Heap T) (d o t : Nat) (ld ls : List Nat)
    (fuel : Nat) (hwd : WF h d ld) (hwo : WF h o ls) (hdisj : ∀ x ∈ d :: ld, x ∉ o :: ls)
    (ht : h.live t = false) (hf1 : ls.length ≤ fuel) (hf2 : ld.length ≤ fuel) :
    ∃ out, assign E fuel h d o t = some out ∧ WF out.heap o ls ∧ ∃ nd, WF out.heap d nd := by
  obtain ⟨out, heq, hok, hfail⟩ := assign_spec E h d o t ld ls fuel hwd hwo hdisj ht hf1 hf2
  refine ⟨out, heq, ?_⟩
  cases hs : out.succeeded with
  | false =>
    exact ⟨same_live_wf h out.heap o ls (hfail hs) hwo, ld,
      same_live_wf h out.heap d ld (hfail hs) hwd⟩
  | true =>
    obtain ⟨new, hwn, _, hwo1, _⟩ := hok hs
    exact ⟨hwo1, new, hwn⟩

/-! ## clear -/

theorem erase_range_snd {T : Type} (fuel : Nat) (h h1 : Heap T) (f l r : Nat)
    (he : erase_range fuel h f l = some (h1, r)) : r = l := by
  unfold erase_range at he
  split at he
  · cases hd : delete_loop l fuel
        { prev := upd h.prev l (h.prev f), next := upd h.next (h.prev f) l,
          value := h.value, live := h.live } f with
    | none => simp [hd] at he
    | some h3 =>
      simp [hd] at he
      exact he.2.symm
  · simp at he
    exact he.2.symm

theorem iterate_stop {T : Type} (h : Heap T) (b fuel : Nat) : iterate h b fuel b = some [] := by
  cases fuel <;> simp [iterate]

/-! ## splice with the destination inside the run -/

theorem iterate_stuck {T : Type} (h : Heap T) (stop x : Nat) (hx : h.next x = x)
    (hne : x ≠ stop) : ∀ fuel, iterate h stop fuel x = none := by
  intro fuel
  induction fuel with
  | zero => simp [iterate, hne]
  | succ f ih => simp [iterate, hne, hx, ih]

theorem next_iterate_stuck {T : Type} (h : Heap T) (x : Nat) (hx : h.next x = x) :
    ∀ k, h.next^[k] x = x := by
  intro k
  induction k with
  | zero => rfl
  | succ k ih => rw [Function.iterate_succ_apply', ih, hx]

/-! ## Survival of the other nodes -/

theorem erase_range_full {T : Type} (h : Heap T) (b : Nat) (p m s : List Nat) (fuel : Nat)
    (hwf : WF h b (p ++ m ++ s)) (hf : m.length ≤ fuel) :
    ∃ h1, erase_range fuel h (pos_of b (m ++ s)) (pos_of b s) = some (h1, pos_of b s) ∧
      WF h1 b (p ++ s) ∧ h1.value = h.value ∧
      (∀ a, h1.live a = if a ∈ m then false else h.live a) ∧
      (∀ a, a ∉ b :: (p ++ m ++ s) → h1.prev a = h.prev a ∧ h1.next a = h.next a) := by
  cases m with
  | nil =>
    exact ⟨h, by simp [erase_range], by simpa using hwf, rfl, by simp, fun _ _ => ⟨rfl, rfl⟩⟩
  | cons f m =>
    obtain ⟨_, _, hq, _⟩ := wf_split h b f p m s hwf
    refine ⟨_, by simpa [pos_of] using erase_range_eq h b f p m s fuel hwf (by simpa using hf),
      erase_heap_wf h b f p m s hwf, rfl, ?_, ?_⟩
    · intro a; simp only [erase_heap, kill_apply]
    · intro a ha
      have h1 : a ≠ pos_of b s := by
        intro e
        have := pos_of_mem b s
        rw [← e] at this
        apply ha
        simp at this ⊢
        tauto
      have h2 : a ≠ h.prev f := by
        intro e
        rw [← e] at hq
        apply ha
        simp at hq ⊢
        tauto
      simp [erase_heap, h1, h2]

theorem sublist_insert (p s : List Nat) (c : Nat) : (p ++ s).Sublist (p ++ c :: s) :=
  List.Sublist.append (List.Sublist.refl p) (List.sublist_cons_self c s)

theorem sublist_remove (p m s : List Nat) : (p ++ s).Sublist (p ++ m ++ s) := by
  rw [List.append_assoc]
  exact List.Sublist.append (List.Sublist.refl p) (List.sublist_append_right m s)

/-! ## Independence of two lists -/

theorem same_live_keeps {T : Type} (h h1 : Heap T) (b : Nat) (lb : List Nat)
    (hs : SameLive h h1) (hwf : WF h b lb) : Keeps h h1 b lb :=
  ⟨same_live_wf h h1 b lb hs hwf, same_live_values h h1 b lb hs hwf⟩

theorem keeps_refl {T : Type} (h : Heap T) (b : Nat) (lb : List Nat) (hwf : WF h b lb) :
    Keeps h h b lb :=
  ⟨hwf, rfl⟩

theorem keeps_to_list {T : Type} (h h1 : Heap T) (b : Nat) (lb : List Nat) (fuel : Nat)
    (hwf : WF h b lb) (hk : Keeps h h1 b lb) (hf : lb.length ≤ fuel) :
    to_list fuel h1 b = to_list fuel h b := by
  rw [wf_to_list h1 b lb fuel hk.1 hf, wf_to_list h b lb fuel hwf hf, hk.2]

theorem insert_heap_keeps {T : Type} (h : Heap T) (a b c : Nat) (p s lb : List Nat) (val : T)
    (hA : WF h a (p ++ s)) (hB : WF h b lb) (hdisj : ∀ x ∈ a :: (p ++ s), x ∉ b :: lb)
    (hc : h.live c = false) : Keeps h (insert_heap h (pos_of a s) c val) b lb := by
  have hq := wf_prev_pos_mem h a p s hA
  have hq1 : h.prev (pos_of a s) ∈ a :: (p ++ s) := by
    simp at hq ⊢
    tauto
  have hpos : pos_of a s ∈ a :: (p ++ s) := by
    have := pos_of_mem a s
    simp at this ⊢
    tauto
  have hne : ∀ x ∈ b :: lb, x ≠ c ∧ x ≠ pos_of a s ∧ x ≠ h.prev (pos_of a s) := by
    intro x hx
    refine ⟨?_, fun e => hdisj _ hpos (e ▸ hx), fun e => hdisj _ hq1 (e ▸ hx)⟩
    intro e
    have := hB.2.2 x hx
    rw [e, hc] at this
    exact Bool.false_ne_true this
  refine ⟨wf_frame h _ b lb hB ?_ ?_ ?_, ?_⟩
  · intro x hx
    obtain ⟨h1, _, h3⟩ := hne x hx
    simp [insert_heap, h1, h3]
  · intro x hx
    obtain ⟨h1, h2, _⟩ := hne x hx
    simp [insert_heap, h1, h2]
  · intro x hx
    simp [insert_heap, (hne x hx).1]
  · apply List.map_congr_left
    intro x hx
    simp [insert_heap, (hne x (List.mem_cons_of_mem _ hx)).1]

theorem insert_keeps {T : Type} (E : Env T) (h : Heap T) (a b : Nat) (p s lb : List Nat)
    (val : T) (hA : WF h a (p ++ s)) (hB : WF h b lb)
    (hdisj : ∀ x ∈ a :: (p ++ s), x ∉ b :: lb) :
    Keeps h (insert E h (pos_of a s) val).heap b lb := by
  cases hi : insert E h (pos_of a s) val with
  | ok h1 c =>
    obtain ⟨heq, _⟩ := (insert_outcome_wf E h a p s val hA).1 h1 c hi
    have hfresh := E.alloc_fresh h c (insert_ok_inv E h h1 _ c val hi).1
    simp only [Outcome.heap, heq]
    exact insert_heap_keeps h a b c p s lb val hA hB hdisj hfresh
  | raised e h1 =>
    exact same_live_keeps h h1 b lb (insert_raised E h h1 _ val e hi).2 hB

theorem erase_range_keeps {T : Type} (h : Heap T) (a b : Nat) (p m s lb : List Nat)
    (fuel : Nat) (hA : WF h a (p ++ m ++ s)) (hB : WF h b lb)
    (hdisj : ∀ x ∈ a :: (p ++ m ++ s), x ∉ b :: lb) (hf : m.length ≤ fuel) :
    ∃ h1, erase_range fuel h (pos_of a (m ++ s)) (pos_of a s) = some (h1, pos_of a s) ∧
      WF h1 a (p ++ s) ∧ Keeps h h1 b lb := by
  obtain ⟨h1, heq, hwf1, hv, hl, hfr⟩ := erase_range_full h a p m s fuel hA hf
  have hnot : ∀ x ∈ b :: lb, x ∉ a :: (p ++ m ++ s) := fun x hx e => hdisj x e hx
  refine ⟨h1, heq, hwf1, wf_frame h h1 b lb hB ?_ ?_ ?_, by rw [hv]⟩
  · intro x hx; exact (hfr x (hnot x hx)).2
  · intro x hx; exact (hfr x (hnot x hx)).1
  · intro x hx
    have : x ∉ m := fun e => hnot x hx (by simp [e])
    rw [hl x, if_neg this]

theorem mutations_keep_other {T : Type} (E : Env T) (h : Heap T) (a b : Nat) (la lb : List Nat)
    (hA : WF h a la) (hB : WF h b lb) (hdisj : ∀ x ∈ a :: la, x ∉ b :: lb) :
    MutationsKeep E h a la b lb := by
  have hrange : ∀ p m s fuel, la = p ++ m ++ s → m.length ≤ fuel →
      ∃ h1 r, erase_range fuel h (pos_of a (m ++ s)) (pos_of a s) = some (h1, r) ∧
        Keeps h h1 b lb := by
    intro p m s fuel hla hf
    subst hla
    obtain ⟨h1, heq, _, hk⟩ := erase_range_keeps h a b p m s lb fuel hA hB hdisj hf
    exact ⟨h1, _, heq, hk⟩
  have hpos : ∀ p x s fuel, la = p ++ x :: s → 1 ≤ fuel →
      ∃ h1 r, erase fuel h x = some (h1, r) ∧ Keeps h h1 b lb := by
    intro p x s fuel hla hf
    have hla1 : la = p ++ [x] ++ s := by simpa using hla
    obtain ⟨h1, r, heq, hk⟩ := hrange p [x] s fuel hla1 (by simpa using hf)
    have hwf0 : WF h a (p ++ (x :: []) ++ s) := by rw [← hla1]; exact hA
    obtain ⟨_, hs2, _⟩ := wf_split h a x p [] s hwf0
    have hnx : h.next x = pos_of a s := hs2.1
    exact ⟨h1, r, by simpa [erase, hnx, pos_of] using heq, hk⟩
  refine ⟨?_, ?_, ?_, hpos, hrange, ?_, ?_⟩
  · intro p s v hla
    subst hla
    exact insert_keeps E h a b p s lb v hA hB hdisj
  · intro v
    have hb : begin_ h a = pos_of a la := wf_begin h a la hA
    have := insert_keeps E h a b [] la lb v (by simpa using hA) hB (by simpa using hdisj)
    unfold push_front
    rw [hb]
    cases hi : insert E h (pos_of a la) v with
    | ok h1 c => simpa [hi, Outcome.heap] using this
    | raised e h1 => simpa [hi, Outcome.heap] using this
  · intro v
    have := insert_keeps E h a b la [] lb v (by simpa using hA) hB (by simpa using hdisj)
    simp only [pos_of, List.headD_nil] at this
    unfold push_back
    simp only [end_]
    cases hi : insert E h a v with
    | ok h1 c => simpa [hi, Outcome.heap] using this
    | raised e h1 => simpa [hi, Outcome.heap] using this
  · intro fuel hne hf
    cases la with
    | nil => exact absurd rfl hne
    | cons x s =>
      obtain ⟨h1, r, heq, hk⟩ := hpos [] x s fuel rfl hf
      have hb : begin_ h a = x := hA.1.1
      exact ⟨h1, by simp [pop_front, hb, heq], hk⟩
  · intro fuel hne hf
    rcases List.eq_nil_or_concat la with e | ⟨s, y, e⟩
    · exact absurd e hne
    · obtain ⟨h1, r, heq, hk⟩ := hpos s y [] fuel (by simpa using e) hf
      have hA1 : WF h a (s ++ [y]) := by rw [← List.concat_eq_append, ← e]; exact hA
      have hb : h.prev (end_ h a) = y := ((seg_snoc h s y a a).mp hA1.1).2.2
      exact ⟨h1, by simp [pop_back, hb, heq], hk⟩

/-- A successful copy construction: the new list and the source are both well
formed, hold equal sequences and have no node in common. -/
theorem list_copy_disjoint {T : Type} (E : Env T) (h : Heap T) (t o : Nat) (ls : List Nat)
    (fuel : Nat) (ht : h.live t = false) (hwo : WF h o ls) (hf : ls.length ≤ fuel) :
    ∃ out, list_copy E fuel h t o = some out ∧
      (out.succeeded = true → ∃ new, WF out.heap t new ∧ WF out.heap o ls ∧
        new.map out.heap.value = ls.map h.value ∧ ls.map out.heap.value = ls.map h.value ∧
        (∀ x ∈ t :: new, x ∉ o :: ls)) ∧
      (out.succeeded = false → SameLive h out.heap) := by
  obtain ⟨out, heq, hok, hfail⟩ := list_copy_spec E h t o ls fuel ht hwo hf
  refine ⟨out, heq, ?_, hfail⟩
  intro hs
  obtain ⟨new, hwt, hv, _, hfresh, hlive, hframe⟩ := hok hs
  refine ⟨new, hwt, ?_, hv, ?_, ?_⟩
  · refine wf_frame h out.heap o ls hwo ?_ ?_ ?_
    · intro a ha; exact (hframe a (hwo.2.2 a ha)).2.1
    · intro a ha; exact (hframe a (hwo.2.2 a ha)).1
    · intro a ha
      rw [hlive a, hwo.2.2 a ha]
      rfl
  · apply List.map_congr_left
    intro x hx
    exact (hframe x (hwo.2.2 x (List.mem_cons_of_mem _ hx))).2.2
  · intro x hx e
    have hl := hwo.2.2 x e
    rcases List.mem_cons.mp hx with e1 | e1
    · rw [e1, ht] at hl
      exact Bool.false_ne_true hl
    · rw [hfresh x e1] at hl
      exact Bool.false_ne_true hl

/-! ## A run of pushes -/

theorem push_back_all_grown {T : Type} (E : Env T) (t : Nat) (vs : List T) :
    ∀ (h h1 : Heap T) (acc : List Nat) (u : Unit), WF h t acc →
      push_back_all E t h vs = Outcome.ok h1 u →
      ∃ new, Grown h h1 t acc new ∧ new.map h1.value = vs := by
  induction vs with
  | nil =>
    intro h h1 acc u hwf hrun
    simp only [push_back_all] at hrun
    injection hrun with hh _
    subst hh
    exact ⟨[], grown_of_same_live h h t acc (same_live_refl h) hwf, rfl⟩
  | cons v vs ih =>
    intro h h1 acc u hwf hrun
    simp only [push_back_all] at hrun
    cases hp : push_back E h t v with
    | raised e h2 => simp [hp] at hrun
    | ok h2 u2 =>
      simp only [hp] at hrun
      obtain ⟨c, g, hv⟩ := push_back_grown E h h2 t acc v u2 hwf hp
      obtain ⟨new, g2, hvals⟩ := ih h2 h1 (acc ++ [c]) u g.1 hrun
      refine ⟨c :: new, grown_trans h h2 h1 t acc [c] new g g2, ?_⟩
      have hc : h2.live c = true := by rw [g.2.2.1]; simp
      rw [List.map_cons, hvals, g2.2.2.2.1 c hc, hv]

theorem length_three (l : List Nat) (hl : l.length = 3) : ∃ x y z, l = [x, y, z] := by
  match l, hl with
  | [x, y, z], _ => exact ⟨x, y, z, rfl⟩

/-! ## More fuel never changes a result -/

theorem delete_loop_mono {T : Type} (last k : Nat) :
    ∀ (fuel : Nat) (h h1 : Heap T) (x : Nat), delete_loop last fuel h x = some h1 →
      delete_loop last (fuel + k) h x = some h1 := by
  intro fuel
  induction fuel with
  | zero =>
    intro h h1 x hd
    by_cases hx : x = last
    · simp only [delete_loop, hx, if_true] at hd
      cases k <;> simp [delete_loop, hx, hd]
    · simp [delete_loop, hx] at hd
  | succ f ih =>
    intro h h1 x hd
    by_cases hx : x = last
    · simp only [delete_loop, hx, if_true] at hd
      rw [Nat.add_right_comm]
      simp [delete_loop, hx, hd]
    · simp only [delete_loop, hx, if_false] at hd
      rw [Nat.add_right_comm]
      simp only [delete_loop, hx, if_false]
      exact ih _ h1 _ hd

theorem erase_range_mono {T : Type} (fuel k : Nat) (h h1 : Heap T) (f l r : Nat)
    (he : erase_range fuel h f l = some (h1, r)) :
    erase_range (fuel + k) h f l = some (h1, r) := by
  unfold erase_range at he ⊢
  by_cases hfl : f = l
  · simpa [hfl] using he
  · simp only [ne_eq, hfl, not_false_eq_true, if_true] at he ⊢
    cases hd : delete_loop l fuel
        { prev := upd h.prev l (h.prev f), next := upd h.next (h.prev f) l,
          value := h.value, live := h.live } f with
    | none => simp [hd] at he
    | some h3 =>
      rw [hd] at he
      rw [delete_loop_mono l k fuel _ h3 f hd]
      exact he

theorem list_dtor_mono {T : Type} (fuel k : Nat) (h h1 : Heap T) (t : Nat)
    (he : list_dtor fuel h t = some h1) : list_dtor (fuel + k) h t = some h1 := by
  unfold list_dtor at he ⊢
  cases hr : erase_range fuel h (begin_ h t) (end_ h t) with
  | none => simp [hr] at he
  | some pr =>
    obtain ⟨h2, r⟩ := pr
    rw [erase_range_mono fuel k h h2 _ _ r hr]
    simpa [hr] using he

theorem copy_loop_mono {T : Type} (E : Env T) (self stop k : Nat) :
    ∀ (fuel : Nat) (h : Heap T) (it : Nat) (out : Outcome T Unit),
      copy_loop E self stop fuel h it = some out →
      copy_loop E self stop (fuel + k) h it = some out := by
  intro fuel
  induction fuel with
  | zero =>
    intro h it out hc
    by_cases hx : it = stop
    · simp only [copy_loop, hx, if_true] at hc
      cases k <;> simp [copy_loop, hx, hc]
    · simp [copy_loop, hx] at hc
  | succ f ih =>
    intro h it out hc
    rw [Nat.add_right_comm]
    by_cases hx : it = stop
    · simp only [copy_loop, hx, if_true] at hc
      simp [copy_loop, hx, hc]
    · simp only [copy_loop, hx, if_false] at hc ⊢
      cases hp : push_back E h self (h.value it) with
      | raised e h2 => simpa [hp] using hc
      | ok h2 u =>
        simp only [hp] at hc ⊢
        exact ih _ _ out hc

theorem list_copy_mono {T : Type} (E : Env T) (fuel k : Nat) (h : Heap T) (t o : Nat)
    (out : Outcome T Unit) (hc : list_copy E fuel h t o = some out) :
    list_copy E (fuel + k) h t o = some out := by
  unfold list_copy at hc ⊢
  cases hl : copy_loop E t (end_ (list_default h t) o) fuel (list_default h t)
      (begin_ (list_default h t) o) with
  | none => simp [hl] at hc
  | some out1 =>
    have hl2 := copy_loop_mono E t _ k fuel _ _ out1 hl
    simp only [hl] at hc
    simp only [hl2]
    cases out1 with
    | ok h1 u => exact hc
    | raised e h1 =>
      simp only at hc ⊢
      cases hd : list_dtor fuel h1 t with
      | none => simp [hd] at hc
      | some h2 =>
        rw [list_dtor_mono fuel k h1 h2 t hd]
        simpa [hd] using hc

theorem assign_mono {T : Type} (E : Env T) (fuel k : Nat) (h : Heap T) (d o t : Nat)
    (out : Outcome T Unit) (hc : assign E fuel h d o t = some out) :
    assign E (fuel + k) h d o t = some out := by
  unfold assign at hc ⊢
  by_cases hdo : d = o
  · simpa [hdo] using hc
  · simp only [ne_eq, hdo, not_false_eq_true, if_true] at hc ⊢
    cases hl : list_copy E fuel h t o with
    | none => simp [hl] at hc
    | some out1 =>
      have hl2 := list_copy_mono E fuel k h t o out1 hl
      simp only [hl] at hc
      simp only [hl2]
      cases out1 with
      | raised e h1 => exact hc
      | ok h1 u =>
        simp only at hc ⊢
        cases hd : list_dtor fuel (swap h1 t d) t with
        | none => simp [hd] at hc
        | some h3 =>
          rw [list_dtor_mono fuel k _ h3 t hd]
          simpa [hd] using hc

/-! ## Results of operations that returned -/

theorem erase_range_some {T : Type} (h h1 : Heap T) (b : Nat) (p m s : List Nat) (fuel r : Nat)
    (hwf : WF h b (p ++ m ++ s))
    (he : erase_range fuel h (pos_of b (m ++ s)) (pos_of b s) = some (h1, r)) :
    WF h1 b (p ++ s) := by
  obtain ⟨h2, heq, hwf2, _⟩ := erase_range_full h b p m s (fuel + m.length) hwf (by omega)
  rw [erase_range_mono fuel m.length h h1 _ _ r he] at heq
  injection heq with hh
  injection hh with hh _
  rw [hh]
  exact hwf2

theorem erase_some {T : Type} (h h1 : Heap T) (b x : Nat) (p s : List Nat) (fuel r : Nat)
    (hwf : WF h b (p ++ x :: s)) (he : erase fuel h x = some (h1, r)) : WF h1 b (p ++ s) := by
  have hwf0 : WF h b (p ++ [x] ++ s) := by simpa using hwf
  obtain ⟨_, hs2, _⟩ := wf_split h b x p [] s hwf0
  have hnx : h.next x = pos_of b s := hs2.1
  unfold erase at he
  rw [hnx] at he
  exact erase_range_some h h1 b p [x] s fuel r hwf0 (by simpa [pos_of] using he)

theorem pop_front_some {T : Type} (h h1 : Heap T) (b x : Nat) (s : List Nat) (fuel : Nat)
    (hwf : WF h b (x :: s)) (he : pop_front fuel h b = some h1) : WF h1 b s := by
  have hb : begin_ h b = x := hwf.1.1
  unfold pop_front at he
  rw [hb] at he
  cases hr : erase fuel h x with
  | none => simp [hr] at he
  | some pr =>
    obtain ⟨h2, r⟩ := pr
    simp [hr] at he
    subst he
    simpa using erase_some h h2 b x [] s fuel r (by simpa using hwf) hr

theorem pop_back_some {T : Type} (h h1 : Heap T) (b y : Nat) (s : List Nat) (fuel : Nat)
    (hwf : WF h b (s ++ [y])) (he : pop_back fuel h b = some h1) : WF h1 b s := by
  have hb : h.prev (end_ h b) = y := ((seg_snoc h s y b b).mp hwf.1).2.2
  unfold pop_back at he
  rw [hb] at he
  cases hr : erase fuel h y with
  | none => simp [hr] at he
  | some pr =>
    obtain ⟨h2, r⟩ := pr
    simp [hr] at he
    subst he
    simpa using erase_some h h2 b y s [] fuel r hwf hr

theorem clear_some {T : Type} (h h1 : Heap T) (b : Nat) (ns : List Nat) (fuel : Nat)
    (hwf : WF h b ns) (he : clear fuel h b = some h1) : WF h1 b [] := by
  obtain ⟨h2, heq, hwf2, _⟩ := clear_spec h b ns (fuel + ns.length) hwf (by omega)
  have : clear (fuel + ns.length) h b = some h1 := list_dtor_mono fuel ns.length h h1 b he
  rw [this] at heq
  injection heq with hh
  rw [hh]
  exact hwf2

theorem push_front_some {T : Type} (E : Env T) (h h1 : Heap T) (b : Nat) (ns : List Nat)
    (v : T) (u : Unit) (hwf : WF h b ns) (hp : push_front E h b v = Outcome.ok h1 u) :
    WF h1 b (begin_ h1 b :: ns) := by
  have hb : begin_ h b = pos_of b ns := wf_begin h b ns hwf
  unfold push_front at hp
  rw [hb] at hp
  cases hi : insert E h (pos_of b ns) v with
  | raised e h2 => simp [hi] at hp
  | ok h2 c =>
    simp only [hi] at hp
    injection hp with hh _
    subst hh
    have hw : WF h2 b (c :: ns) := by
      simpa using ((insert_outcome_wf E h b [] ns v (by simpa using hwf)).1 h2 c hi).2.1
    have hc : begin_ h2 b = c := hw.1.1
    rw [hc]
    exact hw

theorem push_front_raised_wf {T : Type} (E : Env T) (h h1 : Heap T) (b : Nat) (ns : List Nat)
    (v : T) (e : Exn) (hwf : WF h b ns) (hp : push_front E h b v = Outcome.raised e h1) :
    WF h1 b ns := by
  unfold push_front at hp
  cases hi : insert E h (begin_ h b) v with
  | ok h2 c => simp [hi] at hp
  | raised e2 h2 =>
    simp only [hi] at hp
    injection hp with _ hh
    subst hh
    exact same_live_wf h h2 b ns (insert_raised E h h2 _ v e2 hi).2 hwf

theorem push_back_some {T : Type} (E : Env T) (h h1 : Heap T) (b : Nat) (ns : List Nat)
    (v : T) (u : Unit) (hwf : WF h b ns) (hp : push_back E h b v = Outcome.ok h1 u) :
    WF h1 b (ns ++ [h1.prev (end_ h1 b)]) := by
  obtain ⟨c, _, _, hw, _⟩ := push_back_ok E h h1 b ns v u hwf hp
  have hc : h1.prev (end_ h1 b) = c := ((seg_snoc h1 ns c b b).mp hw.1).2.2
  rw [hc]
  exact hw

theorem next_seg_unique {T : Type} (h : Heap T) (y : Nat) (l : List Nat) :
    ∀ (l1 : List Nat) (x : Nat), NextSeg h x l y → NextSeg h x l1 y → y ∉ l → y ∉ l1 →
      l = l1 := by
  induction l with
  | nil =>
    intro l1 x h1 h2 _ hy
    cases l1 with
    | nil => rfl
    | cons n l1 =>
      simp only [NextSeg] at h1
      have : n = y := h2.1.symm.trans h1
      exact absurd (by simp [this]) hy
  | cons n l ih =>
    intro l1 x h1 h2 hy hy1
    cases l1 with
    | nil =>
      simp only [NextSeg] at h2
      have : n = y := h1.1.symm.trans h2
      exact absurd (by simp [this]) hy
    | cons n1 l1 =>
      have hn : n = n1 := h1.1.symm.trans h2.1
      subst hn
      have := ih l1 n h1.2 h2.2 (fun e => hy (List.mem_cons_of_mem _ e))
        (fun e => hy1 (List.mem_cons_of_mem _ e))
      rw [this]

/-- The nodes met by following `next` from the sentinel are the nodes of the
well-formed list. -/
theorem container_wf {T : Type} (h : Heap T) (b : Nat) (ns ns1 : List Nat)
    (hc : Container h b ns) (hwf : WF h b ns1) : WF h b ns := by
  have := next_seg_unique h b ns ns1 b hc.1 (seg_next_seg h ns1 b b hwf.1)
    (List.nodup_cons.mp hc.2.1).1 (List.nodup_cons.mp hwf.2.1).1
  rw [this]
  exact hwf

theorem list_copy_some {T : Type} (E : Env T) (h : Heap T) (t o : Nat) (ls : List Nat)
    (fuel : Nat) (out : Outcome T Unit) (ht : h.live t = false) (hwo : WF h o ls)
    (hc : list_copy E fuel h t o = some out) :
    WF out.heap o ls ∧ (out.succeeded = true → ∃ new, WF out.heap t new) := by
  obtain ⟨out1, heq, hwo1, hnew⟩ := list_copy_wf E h t o ls (fuel + ls.length) ht hwo (by omega)
  rw [list_copy_mono E fuel ls.length h t o out hc] at heq
  injection heq with hh
  subst hh
  refine ⟨hwo1, ?_⟩
  intro hs
  obtain ⟨new, hw, _⟩ := hnew hs
  exact ⟨new, hw⟩

theorem assign_some {T : Type} (E : Env T) (h : Heap T) (d o t : Nat) (ld ls : List Nat)
    (fuel : Nat) (out : Outcome T Unit) (hwd : WF h d ld) (hwo : WF h o ls)
    (hdisj : ∀ x ∈ d :: ld, x ∉ o :: ls) (ht : h.live t = false)
    (hc : assign E fuel h d o t = some out) :
    WF out.heap o ls ∧ (out.succeeded = true → ∃ new, WF out.heap d new) ∧
      (out.succeeded = false → WF out.heap d ld) := by
  obtain ⟨out1, heq, hok, hfail⟩ := assign_spec E h d o t ld ls (fuel + (ls.length + ld.length))
    hwd hwo hdisj ht (by omega) (by omega)
  rw [assign_mono E fuel _ h d o t out hc] at heq
  injection heq with hh
  subst hh
  refine ⟨?_, ?_, ?_⟩
  · cases hs : out.succeeded with
    | false => exact same_live_wf h out.heap o ls (hfail hs) hwo
    | true =>
      obtain ⟨new, _, _, hwo1, _⟩ := hok hs
      exact hwo1
  · intro hs
    obtain ⟨new, hwn, _⟩ := hok hs
    exact ⟨new, hwn⟩
  · intro hs
    exact same_live_wf h out.heap d ld (hfail hs) hwd

/-- Every reachable list is well formed. -/
theorem reachable_wf {T : Type} (E : Env T) (h : Heap T) (b : Nat) (ns : List Nat)
    (hr : Reachable E h b ns) : WF h b ns := by
  induction hr with
  | init h b => exact list_default_wf h b
  | insert_ok h h1 b p s v c _ hi ih => exact ((insert_outcome_wf E h b p s v ih).1 h1 c hi).2.1
  | insert_raised h h1 b p s v e _ hi ih => exact ((insert_outcome_wf E h b p s v ih).2 e h1 hi).2
  | push_front_ok h h1 b ns v u _ hp ih => exact push_front_some E h h1 b ns v u ih hp
  | push_front_raised h h1 b ns v e _ hp ih => exact push_front_raised_wf E h h1 b ns v e ih hp
  | push_back_ok h h1 b ns v u _ hp ih => exact push_back_some E h h1 b ns v u ih hp
  | push_back_raised h h1 b ns v e _ hp ih =>
    exact same_live_wf h h1 b ns (push_back_raised E h h1 b v e hp).2 ih
  | erase_pos h h1 b p x s fuel r _ he ih => exact erase_some h h1 b x p s fuel r ih he
  | erase_run h h1 b p m s fuel r _ he ih => exact erase_range_some h h1 b p m s fuel r ih he
  | pop_front_ok h h1 b x s fuel _ he ih => exact pop_front_some h h1 b x s fuel ih he
  | pop_back_ok h h1 b y s fuel _ he ih => exact pop_back_some h h1 b y s fuel ih he
  | clear_ok h h1 b ns fuel _ he ih => exact clear_some h h1 b ns fuel ih he
  | splice_same h b p m s u w _ hs ih => exact splice_same_wf_any h b p m s u w ih hs
  | splice_into h b1 b2 a bs p m s _ _ hd ih1 ih2 =>
    exact (splice_two_wf_any h b1 b2 a bs p m s ih1 ih2 hd).1
  | splice_out_of h b1 b2 a bs p m s _ _ hd ih1 ih2 =>
    exact (splice_two_wf_any h b1 b2 a bs p m s ih1 ih2 hd).2
  | swap_self h a b la lb _ _ hd ih1 ih2 => exact (swap_wf h a b la lb ih1 ih2 hd).2
  | swap_other h a b la lb _ _ hd ih1 ih2 => exact (swap_wf h a b la lb ih1 ih2 hd).1
  | copy_new h h1 t o ls new fuel u _ ht hc hcont ih =>
    obtain ⟨_, hnew⟩ := list_copy_some E h t o ls fuel _ ht ih hc
    obtain ⟨new1, hw⟩ := hnew rfl
    exact container_wf h1 t new new1 hcont hw
  | copy_source h t o ls fuel out _ ht hc ih => exact (list_copy_some E h t o ls fuel out ht ih hc).1
  | assign_ok h h1 d o t ld ls new fuel u _ _ hd ht hc hcont ih1 ih2 =>
    obtain ⟨_, hnew, _⟩ := assign_some E h d o t ld ls fuel _ ih1 ih2 hd ht hc
    obtain ⟨new1, hw⟩ := hnew rfl
    exact container_wf h1 d new new1 hcont hw
  | assign_raised h h1 d o t ld ls fuel e _ _ hd ht hc ih1 ih2 =>
    exact (assign_some E h d o t ld ls fuel _ ih1 ih2 hd ht hc).2.2 rfl
  | assign_source h d o t ld ls fuel out _ _ hd ht hc ih1 ih2 =>
    exact (assign_some E h d o t ld ls fuel out ih1 ih2 hd ht hc).1
  | other h h1 b ns _ hf ih =>
    exact wf_frame h h1 b ns ih (fun x hx => (hf x hx).1) (fun x hx => (hf x hx).2.1)
      (fun x hx => (hf x hx).2.2)

/-! ## Success of copying under available storage -/

theorem push_back_succeeds {T : Type} (E : Env T) (h : Heap T) (t : Nat) (acc : List Nat)
    (val : T) (hwf : WF h t acc) (ha : (E.alloc h).isSome = true)
    (hc : ∀ h1, E.copy_ok h1 val = true) :
    ∃ h1, push_back E h t val = Outcome.ok h1 () := by
  obtain ⟨c, hac⟩ := Option.isSome_iff_exists.mp ha
  have hwf0 : WF h t (acc ++ []) := by simpa using hwf
  obtain ⟨heq, _, _⟩ := insert_at E h t acc [] val c hwf0 hac (hc _)
  simp only [pos_of, List.headD_nil] at heq
  exact ⟨insert_heap h t c val, by simp only [push_back, end_, heq]⟩

theorem copy_loop_succeeds {T : Type} (E : Env T) (t o : Nat) (rest : List Nat) :
    ∀ (pre acc : List Nat) (h : Heap T) (fuel : Nat), WF h o (pre ++ rest) → WF h t acc →
      (∀ x ∈ o :: (pre ++ rest), x ∉ t :: acc) → rest.length ≤ fuel →
      (∀ (h1 : Heap T) (extra : List Nat), extra.length < rest.length →
        (∀ x, h1.live x = (h.live x || decide (x ∈ extra))) → (E.alloc h1).isSome = true) →
      (∀ x ∈ rest, ∀ h1, E.copy_ok h1 (h.value x) = true) →
      ∃ out, copy_loop E t o fuel h (pos_of o rest) = some out ∧ out.succeeded = true := by
  induction rest with
  | nil =>
    intro pre acc h fuel _ _ _ _ _ _
    refine ⟨Outcome.ok h (), ?_, rfl⟩
    cases fuel <;> simp [copy_loop, pos_of]
  | cons n rest ih =>
    intro pre acc h fuel hwo hwt hd hf halloc hcopy
    have hwo0 : WF h o (pre ++ (n :: []) ++ rest) := by simpa using hwo
    obtain ⟨_, hs2, _, _, _, _, hpm, _, _⟩ := wf_split h o n pre [] rest hwo0
    have hnext : h.next n = pos_of o rest := hs2.1
    have hno : n ≠ o := fun e => hpm o (by simp) (by simp [e])
    have hnmem : n ∈ o :: (pre ++ n :: rest) := by simp
    cases fuel with
    | zero => simp at hf
    | succ f =>
      simp only [pos_of, List.headD_cons, copy_loop, hno, if_false]
      have ha : (E.alloc h).isSome = true := halloc h [] (by simp) (by intro x; simp)
      obtain ⟨h1, hp⟩ := push_back_succeeds E h t acc (h.value n) hwt ha (hcopy n (by simp))
      obtain ⟨c, g, _⟩ := push_back_grown E h h1 t acc (h.value n) () hwt hp
      obtain ⟨hwo1, _, hnx1, hnew1⟩ := grown_other h h1 t o acc [c] (pre ++ n :: rest) g hwo hd
      have hit : h1.next n = pos_of o rest := by rw [hnx1 n hnmem, hnext]
      have hwo2 : WF h1 o ((pre ++ [n]) ++ rest) := by simpa using hwo1
      have hd2 : ∀ x ∈ o :: ((pre ++ [n]) ++ rest), x ∉ t :: (acc ++ [c]) := by
        intro x hx e
        have hx1 : x ∈ o :: (pre ++ n :: rest) := by simpa using hx
        have : x ∈ t :: acc ∨ x ∈ [c] := by
          simp at e ⊢
          tauto
        rcases this with e1 | e1
        · exact hd x hx1 e1
        · exact hnew1 x hx1 e1
      have halloc2 : ∀ (h2 : Heap T) (extra : List Nat), extra.length < rest.length →
          (∀ x, h2.live x = (h1.live x || decide (x ∈ extra))) →
          (E.alloc h2).isSome = true := by
        intro h2 extra hlen hl
        refine halloc h2 (c :: extra) (by simpa using hlen) ?_
        intro x
        rw [hl x, g.2.2.1 x]
        simp [Bool.or_assoc]
      have hcopy2 : ∀ x ∈ rest, ∀ h2, E.copy_ok h2 (h1.value x) = true := by
        intro x hx h2
        rw [g.2.2.2.1 x (hwo.2.2 x (by simp [hx]))]
        exact hcopy x (List.mem_cons_of_mem _ hx) h2
      obtain ⟨out, heq, hs⟩ :=
        ih (pre ++ [n]) (acc ++ [c]) h1 f hwo2 g.1 hd2 (by simpa using hf) halloc2 hcopy2
      refine ⟨out, ?_, hs⟩
      simp only [hp, hit]
      exact heq

theorem list_copy_succeeds {T : Type} (E : Env T) (h : Heap T) (t o : Nat) (ls : List Nat)
    (fuel : Nat) (out : Outcome T Unit) (ht : h.live t = false) (hwo : WF h o ls)
    (hf : ls.length ≤ fuel) (hroom : Roomy E h t ls.length)
    (hcopy : ∀ x ∈ ls, ∀ h1, E.copy_ok h1 (h.value x) = true)
    (hc : list_copy E fuel h t o = some out) : out.succeeded = true := by
  have hot : ∀ x ∈ o :: ls, x ≠ t := by
    intro x hx e
    have := hwo.2.2 x hx
    rw [e, ht] at this
    exact Bool.false_ne_true this
  have hwo0 : WF (list_default h t) o ls := by
    refine wf_frame h _ o ls hwo ?_ ?_ ?_
    · intro a ha; simp [list_default, hot a ha]
    · intro a ha; simp [list_default, hot a ha]
    · intro a ha; simp [list_default, hot a ha]
  have hd : ∀ x ∈ o :: ([] ++ ls), x ∉ t :: ([] : List Nat) := by
    intro x hx e
    simp only [List.nil_append] at hx
    simp at e
    exact hot x hx e
  have halloc : ∀ (h1 : Heap T) (extra : List Nat), extra.length < ls.length →
      (∀ x, h1.live x = ((list_default h t).live x || decide (x ∈ extra))) →
      (E.alloc h1).isSome = true := by
    intro h1 extra hlen hl
    refine hroom h1 extra hlen ?_
    intro x
    rw [hl x]
    by_cases e : x = t
    · simp [list_default, e]
    · simp [list_default, e]
  obtain ⟨out1, heq, hs⟩ := copy_loop_succeeds E t o ls [] [] (list_default h t) fuel
    (by simpa using hwo0) (list_default_wf h t) hd hf halloc (by simpa [list_default] using hcopy)
  have hbegin : begin_ (list_default h t) o = pos_of o ls := by
    simp only [begin_]
    exact wf_begin _ o ls hwo0
  unfold list_copy at hc
  simp only [hbegin, end_] at hc
  rw [heq] at hc
  cases out1 with
  | raised e h1 => simp [Outcome.succeeded] at hs
  | ok h1 u =>
    simp only at hc
    injection hc with hh
    rw [← hh]
    rfl

theorem assign_succeeds {T : Type} (E : Env T) (h : Heap T) (d o t : Nat) (ls : List Nat)
    (fuel : Nat) (out : Outcome T Unit) (ht : h.live t = false) (hwo : WF h o ls)
    (hf : ls.length ≤ fuel) (hroom : Roomy E h t ls.length)
    (hcopy : ∀ x ∈ ls, ∀ h1, E.copy_ok h1 (h.value x) = true)
    (hc : assign E fuel h d o t = some out) : out.succeeded = true := by
  unfold assign at hc
  by_cases hdo : d = o
  · simp [hdo] at hc
    rw [← hc]
    rfl
  · simp only [ne_eq, hdo, not_false_eq_true, if_true] at hc
    cases hl : list_copy E fuel h t o with
    | none => simp [hl] at hc
    | some out1 =>
      have hs := list_copy_succeeds E h t o ls fuel out1 ht hwo hf hroom hcopy hl
      simp only [hl] at hc
      cases out1 with
      | raised e h1 => simp [Outcome.succeeded] at hs
      | ok h1 u =>
        simp only at hc
        cases hdt : list_dtor fuel (swap h1 t d) t with
        | none => simp [hdt] at hc
        | some h3 =>
          simp [hdt] at hc
          rw [← hc]
          rfl

/-! ## Room in the first-fit environments -/

theorem first_fit_some {T : Type} (n a : Nat) (h : Heap T) (ha : a < n)
    (hl : h.live a = false) : (first_fit n h).isSome = true := by
  unfold first_fit
  rw [List.find?_isSome]
  exact ⟨a, List.mem_range.mpr ha, by simp [hl]⟩

theorem env_fit_copy_ok (n bad v : Nat) (h : Heap Nat) (hv : v ≠ bad) :
    (env_fit n bad).copy_ok h v = true := by
  simp [env_fit, hv]

theorem env_fit_copy_bad (n bad : Nat) (h : Heap Nat) :
    (env_fit n bad).copy_ok h bad = false := by
  simp [env_fit]

/-- On `heap_two` with the temporary at address `7`, sixteen cells leave room for
three more nodes. -/
theorem roomy_heap_two (bad : Nat) : Roomy (env_fit 16 bad) heap_two 7 3 := by
  intro h1 extra hlen hl
  have hex : ∃ a ∈ [8, 9, 10], a ∉ extra := by
    by_contra hall
    push_neg at hall
    have hsub : [8, 9, 10] ⊆ extra := fun a ha => hall a ha
    have := (List.subperm_of_subset (by decide) hsub).length_le
    simp at this
    omega
  obtain ⟨a, ha, hae⟩ := hex
  have hfree : h1.live a = false := by
    rw [hl a]
    simp at ha
    rcases ha with e | e | e <;> subst e <;> simp [heap_two, hae]
  have hlt : a < 16 := by
    simp at ha
    omega
  exact first_fit_some 16 a h1 hlt hfree

/-! ## The claims -/

/-- C1: starting from a default-constructed list and running
`push_back(v1), ..., push_back(vn)` without an exception, forward iteration from
`begin()` to `end()` yields `v1..vn` and reverse iteration from `rbegin()` to
`rend()` yields `vn..v1`; both traversals finish within `n` steps. -/
theorem push_back_iteration {T : Type} (E : Env T) (h0 h1 : Heap T) (b : Nat) (vs : List T)
    (hrun : push_back_all E b (list_default h0 b) vs = Outcome.ok h1 ()) (fuel : Nat)
    (hf : vs.length ≤ fuel) :
    to_list fuel h1 b = some vs ∧ to_list_rev fuel h1 b = some vs.reverse := by
  obtain ⟨ns, hwf, hvals⟩ :=
    push_back_all_ok E b vs (list_default h0 b) h1 [] () (list_default_wf h0 b) hrun
  simp only [List.map_nil, List.nil_append] at hvals
  have hlen : ns.length ≤ fuel := by
    have := congrArg List.length hvals
    simp at this
    omega
  refine ⟨?_, ?_⟩
  · rw [wf_to_list h1 b ns fuel hwf hlen, hvals]
  · rw [wf_to_list_rev h1 b ns fuel hwf hlen, List.map_reverse, hvals]

theorem push_back_iteration_witness :
    to_list 3 (push_back_all (env_fit 16 99) 0 (list_default heap0 0) [1, 2, 3]).heap 0
        = some [1, 2, 3] ∧
      to_list_rev 3 (push_back_all (env_fit 16 99) 0 (list_default heap0 0) [1, 2, 3]).heap 0
        = some [1, 2, 3].reverse :=
  push_back_iteration (env_fit 16 99) heap0
    (push_back_all (env_fit 16 99) 0 (list_default heap0 0) [1, 2, 3]).heap 0 [1, 2, 3]
    rfl 3 (by decide)


/-- C2: on a well-formed list with nodes `p ++ s`, when storage is available and
the payload copy does not throw, `insert(pos, v)` at the position that starts
`s` returns normally; afterwards the list is well formed with nodes
`p ++ [c] ++ s`, forward iteration yields the old values of `p`, then `v`, then
the old values of `s`, and the returned iterator `c` dereferences to `v` and
has `pos` as its successor. -/
theorem insert_before_pos {T : Type} (E : Env T) (h : Heap T) (b : Nat) (p s : List Nat)
    (v : T) (c : Nat) (hwf : WF h b (p ++ s)) (ha : E.alloc h = some c)
    (hc : E.copy_ok (raw_node h c) v = true) :
    ∃ h1, insert E h (pos_of b s) v = Outcome.ok h1 c ∧ WF h1 b (p ++ c :: s) ∧
      (∀ fuel, (p ++ s).length + 1 ≤ fuel →
        to_list fuel h1 b = some (p.map h.value ++ v :: s.map h.value)) ∧
      h1.value c = v ∧ h1.next c = pos_of b s := by
  obtain ⟨heq, hwf1, hvals⟩ := insert_at E h b p s v c hwf ha hc
  refine ⟨_, heq, hwf1, ?_, ?_, ?_⟩
  · intro fuel hf
    rw [← hvals]
    exact wf_to_list _ b _ fuel hwf1 (by simpa using hf)
  · simp [insert_heap]
  · have h2 := ((seg_append _ p c s b b).mp hwf1.1).2
    cases s with
    | nil => exact h2.1
    | cons n s => exact h2.1

theorem insert_before_pos_witness :
    ∃ h1, insert (env_fit 16 99) heap_two (pos_of 0 [2, 3]) 7 = Outcome.ok h1 7 ∧
      WF h1 0 ([1] ++ 7 :: [2, 3]) ∧
      (∀ fuel, ([1] ++ [2, 3]).length + 1 ≤ fuel →
        to_list fuel h1 0 = some ([1].map heap_two.value ++ 7 :: [2, 3].map heap_two.value)) ∧
      h1.value 7 = 7 ∧ h1.next 7 = pos_of 0 [2, 3] :=
  insert_before_pos (env_fit 16 99) heap_two 0 [1] [2, 3] 7 7 (by decide) (by decide) (by decide)

/-- C3: on a well-formed list with nodes `p ++ [x] ++ s`, `erase(pos)` for the
node `x` terminates, leaves a well-formed list with nodes `p ++ s` whose forward
iteration yields the old values of `p` then of `s`, and returns the position
that followed `x` before the removal (the first node of `s`, or `end()`). -/
theorem erase_returns_following {T : Type} (h : Heap T) (b x : Nat) (p s : List Nat)
    (fuel : Nat) (hwf : WF h b (p ++ x :: s)) (hf : 1 ≤ fuel) :
    ∃ h1, erase fuel h x = some (h1, pos_of b s) ∧ h.next x = pos_of b s ∧
      WF h1 b (p ++ s) ∧ h1.live x = false ∧
      ∀ fuel1, (p ++ s).length ≤ fuel1 →
        to_list fuel1 h1 b = some (p.map h.value ++ s.map h.value) := by
  have hwf0 : WF h b (p ++ (x :: []) ++ s) := by simpa using hwf
  obtain ⟨_, hs2, _⟩ := wf_split h b x p [] s hwf0
  have hnx : h.next x = pos_of b s := hs2.1
  have heq := erase_range_eq h b x p [] s fuel hwf0 (by simpa using hf)
  have hwf1 := erase_heap_wf h b x p [] s hwf0
  refine ⟨_, ?_, hnx, hwf1, ?_, ?_⟩
  · simp only [erase, hnx]; exact heq
  · simp [erase_heap, kill_apply]
  · intro fuel1 hf1
    rw [wf_to_list _ b _ fuel1 hwf1 hf1]
    simp [erase_heap]

theorem erase_returns_following_witness :
    ∃ h1, erase 1 heap_two 2 = some (h1, pos_of 0 [3]) ∧ heap_two.next 2 = pos_of 0 [3] ∧
      WF h1 0 ([1] ++ [3]) ∧ h1.live 2 = false ∧
      ∀ fuel1, ([1] ++ [3]).length ≤ fuel1 →
        to_list fuel1 h1 0 = some ([1].map heap_two.value ++ [3].map heap_two.value) :=
  erase_returns_following heap_two 0 2 [1] [3] 1 (by decide) (by decide)

/-- C4: on a well-formed list with nodes `p ++ m ++ s`, `erase(first, last)` with
`first` the start of `m` and `last` the start of `s` terminates within
`length m` iterations, returns `last`, leaves a well-formed list with nodes
`p ++ s` and unchanged payloads, deletes exactly the nodes of `m`, and leaves
the heap untouched when the run is empty (`first == last`). -/
theorem erase_range_removes_run {T : Type} (h : Heap T) (b : Nat) (p m s : List Nat)
    (fuel : Nat) (hwf : WF h b (p ++ m ++ s)) (hf : m.length ≤ fuel) :
    ∃ h1, erase_range fuel h (pos_of b (m ++ s)) (pos_of b s) = some (h1, pos_of b s) ∧
      WF h1 b (p ++ s) ∧ h1.value = h.value ∧
      (∀ a, h1.live a = if a ∈ m then false else h.live a) ∧
      (∀ fuel1, (p ++ s).length ≤ fuel1 →
        to_list fuel1 h1 b = some (p.map h.value ++ s.map h.value)) ∧
      (m = [] → h1 = h) := by
  cases m with
  | nil =>
    refine ⟨h, by simp [erase_range], by simpa using hwf, rfl, by simp, ?_, fun _ => rfl⟩
    intro fuel1 hf1
    rw [wf_to_list h b (p ++ s) fuel1 (by simpa using hwf) hf1]
    simp
  | cons f m =>
    have heq := erase_range_eq h b f p m s fuel hwf (by simpa using hf)
    have hwf1 := erase_heap_wf h b f p m s hwf
    refine ⟨_, ?_, hwf1, rfl, ?_, ?_, by simp⟩
    · simpa [pos_of] using heq
    · intro a; simp only [erase_heap, kill_apply]
    · intro fuel1 hf1
      rw [wf_to_list _ b _ fuel1 hwf1 hf1]
      simp [erase_heap]

theorem erase_range_removes_run_witness :
    ∃ h1, erase_range 2 heap_two (pos_of 0 ([2, 3] ++ [])) (pos_of 0 []) = some (h1, pos_of 0 []) ∧
      WF h1 0 ([1] ++ []) ∧ h1.value = heap_two.value ∧
      (∀ a, h1.live a = if a ∈ [2, 3] then false else heap_two.live a) ∧
      (∀ fuel1, ([1] ++ ([] : List Nat)).length ≤ fuel1 →
        to_list fuel1 h1 0 = some ([1].map heap_two.value ++ ([] : List Nat).map heap_two.value)) ∧
      (([2, 3] : List Nat) = [] → h1 = heap_two) :=
  erase_range_removes_run heap_two 0 [1] [2, 3] [] 2 (by decide) (by decide)

/-- C5: for two different well-formed lists, `dst` with nodes `a ++ bs` and `src`
with nodes `p ++ m ++ s`, `dst.splice(pos, src, first, last)` with `pos` the
start of `bs`, `first` the start of `m` and `last` the start of `s` leaves `dst`
well formed with nodes `a ++ m ++ bs` and `src` well formed with nodes `p ++ s`;
payloads are untouched, so forward iteration yields the corresponding values. -/
theorem splice_moves_run {T : Type} (h : Heap T) (b1 b2 : Nat) (a bs p m s : List Nat)
    (hdst : WF h b1 (a ++ bs)) (hsrc : WF h b2 (p ++ m ++ s))
    (hdisj : ∀ x ∈ b1 :: (a ++ bs), x ∉ b2 :: (p ++ m ++ s)) :
    ∃ h1, h1 = splice h (pos_of b1 bs) b2 (pos_of b2 (m ++ s)) (pos_of b2 s) ∧
      WF h1 b1 (a ++ m ++ bs) ∧ WF h1 b2 (p ++ s) ∧ h1.value = h.value ∧
      (∀ fuel, (a ++ m ++ bs).length ≤ fuel →
        to_list fuel h1 b1 = some (a.map h.value ++ m.map h.value ++ bs.map h.value)) ∧
      (∀ fuel, (p ++ s).length ≤ fuel →
        to_list fuel h1 b2 = some (p.map h.value ++ s.map h.value)) := by
  have key : WF (splice h (pos_of b1 bs) b2 (pos_of b2 (m ++ s)) (pos_of b2 s)) b1 (a ++ m ++ bs) ∧
      WF (splice h (pos_of b1 bs) b2 (pos_of b2 (m ++ s)) (pos_of b2 s)) b2 (p ++ s) := by
    cases m with
    | nil =>
      simp only [List.nil_append, List.append_nil, splice, if_true]
      exact ⟨hdst, by simpa using hsrc⟩
    | cons f m =>
      have := splice_two_wf h b1 b2 f a bs p m s hdst hsrc hdisj
      simpa [pos_of] using this
  refine ⟨_, rfl, key.1, key.2, splice_value _ _ _ _ _, ?_, ?_⟩
  · intro fuel hf
    rw [wf_to_list _ b1 _ fuel key.1 hf, splice_value]
    simp
  · intro fuel hf
    rw [wf_to_list _ b2 _ fuel key.2 hf, splice_value]
    simp

theorem splice_moves_run_witness :
    ∃ h1, h1 = splice heap_two (pos_of 4 [6]) 0 (pos_of 0 ([1, 2] ++ [3])) (pos_of 0 [3]) ∧
      WF h1 4 ([5] ++ [1, 2] ++ [6]) ∧ WF h1 0 ([] ++ [3]) ∧ h1.value = heap_two.value ∧
      (∀ fuel, ([5] ++ [1, 2] ++ [6]).length ≤ fuel →
        to_list fuel h1 4 = some ([5].map heap_two.value ++ [1, 2].map heap_two.value
          ++ [6].map heap_two.value)) ∧
      (∀ fuel, (([] : List Nat) ++ [3]).length ≤ fuel →
        to_list fuel h1 0
          = some (([] : List Nat).map heap_two.value ++ [3].map heap_two.value)) :=
  splice_moves_run heap_two 4 0 [5] [6] [] [1, 2] [3] (by decide) (by decide) (by decide)

/-- C6: same-container `splice` on a well-formed list with nodes `p ++ m ++ s`:
for every position `pos` outside the run, given as the start of `w` in a split
`u ++ w` of the remaining nodes `p ++ s` (`end()` when `w` is empty), the list
is afterwards well formed with nodes `u ++ m ++ w` and unchanged payloads; for
`pos == last` (the split `p`, `s`) the nodes are again `p ++ m ++ s`. -/
theorem splice_within_list {T : Type} (h : Heap T) (b : Nat) (p m s u w : List Nat)
    (hwf : WF h b (p ++ m ++ s)) (hsplit : p ++ s = u ++ w) :
    (∃ h1, h1 = splice h (pos_of b w) b (pos_of b (m ++ s)) (pos_of b s) ∧
      WF h1 b (u ++ m ++ w) ∧ h1.value = h.value ∧
      ∀ fuel, (u ++ m ++ w).length ≤ fuel →
        to_list fuel h1 b = some (u.map h.value ++ m.map h.value ++ w.map h.value)) ∧
    (∃ h2, h2 = splice h (pos_of b s) b (pos_of b (m ++ s)) (pos_of b s) ∧
      WF h2 b (p ++ m ++ s) ∧
      ∀ fuel, (p ++ m ++ s).length ≤ fuel → to_list fuel h2 b = to_list fuel h b) := by
  have key : ∀ u1 w1 : List Nat, p ++ s = u1 ++ w1 →
      WF (splice h (pos_of b w1) b (pos_of b (m ++ s)) (pos_of b s)) b (u1 ++ m ++ w1) := by
    intro u1 w1 hs1
    cases m with
    | nil =>
      simp only [List.nil_append, List.append_nil, splice, if_true]
      rw [← hs1]
      simpa using hwf
    | cons f m =>
      have := splice_same_wf h b b f p m s u1 w1 hwf hs1
      simpa [pos_of] using this
  refine ⟨⟨_, rfl, key u w hsplit, splice_value _ _ _ _ _, ?_⟩, ⟨_, rfl, key p s rfl, ?_⟩⟩
  · intro fuel hf
    rw [wf_to_list _ b _ fuel (key u w hsplit) hf, splice_value]
    simp
  · intro fuel hf
    rw [wf_to_list _ b _ fuel (key p s rfl) hf, wf_to_list h b _ fuel hwf hf, splice_value]

theorem splice_within_list_witness :
    (∃ h1, h1 = splice heap_two (pos_of 0 [1, 3]) 0 (pos_of 0 ([2] ++ [3])) (pos_of 0 [3]) ∧
      WF h1 0 ([] ++ [2] ++ [1, 3]) ∧ h1.value = heap_two.value ∧
      ∀ fuel, (([] : List Nat) ++ [2] ++ [1, 3]).length ≤ fuel →
        to_list fuel h1 0 = some (([] : List Nat).map heap_two.value ++ [2].map heap_two.value
          ++ [1, 3].map heap_two.value)) ∧
    (∃ h2, h2 = splice heap_two (pos_of 0 [3]) 0 (pos_of 0 ([2] ++ [3])) (pos_of 0 [3]) ∧
      WF h2 0 ([1] ++ [2] ++ [3]) ∧
      ∀ fuel, ([1] ++ [2] ++ [3]).length ≤ fuel →
        to_list fuel h2 0 = to_list fuel heap_two 0) :=
  splice_within_list heap_two 0 [1] [2] [3] [] [1, 3] (by decide) (by decide)

/-- C7: for two different well-formed lists `A` (sentinel `a`, nodes `la`) and `B`
(sentinel `b`, nodes `lb`), after `swap(A, B)` the list `B` is well formed with
exactly the nodes `la` in the same order and `A` with exactly the nodes `lb`;
no payload changes, so every node that belonged to `A` still holds its value and
is now visited by forward traversal of `B`. -/
theorem swap_exchanges_contents {T : Type} (h : Heap T) (a b : Nat) (la lb : List Nat)
    (hA : WF h a la) (hB : WF h b lb) (hdisj : ∀ x ∈ a :: la, x ∉ b :: lb) :
    ∃ h1, h1 = swap h a b ∧ WF h1 b la ∧ WF h1 a lb ∧ h1.value = h.value ∧
      (∀ fuel, la.length ≤ fuel → to_list fuel h1 b = some (la.map h.value)) ∧
      (∀ fuel, lb.length ≤ fuel → to_list fuel h1 a = some (lb.map h.value)) := by
  obtain ⟨h1, h2⟩ := swap_wf h a b la lb hA hB hdisj
  have hv : (swap h a b).value = h.value := by
    simp [swap, swap_nodes, swap_retarget]
    split <;> split <;> rfl
  refine ⟨_, rfl, h1, h2, hv, ?_, ?_⟩
  · intro fuel hf
    rw [wf_to_list _ b la fuel h1 hf, hv]
  · intro fuel hf
    rw [wf_to_list _ a lb fuel h2 hf, hv]

theorem swap_exchanges_contents_witness :
    ∃ h1, h1 = swap heap_two 0 4 ∧ WF h1 4 [1, 2, 3] ∧ WF h1 0 [5, 6] ∧
      h1.value = heap_two.value ∧
      (∀ fuel, [1, 2, 3].length ≤ fuel →
        to_list fuel h1 4 = some ([1, 2, 3].map heap_two.value)) ∧
      (∀ fuel, [5, 6].length ≤ fuel → to_list fuel h1 0 = some ([5, 6].map heap_two.value)) :=
  swap_exchanges_contents heap_two 0 4 [1, 2, 3] [5, 6] (by decide) (by decide) (by decide)

/-- C9: strong guarantee of insertion.  On a well-formed list, when creating the
value node fails (no storage, or the payload copy throws), each of
`insert(pos, v)` for an arbitrary `pos`, `push_front(v)` and `push_back(v)`
leaves with an exception, and the heap it leaves has the same live objects with
the same links and payloads: the list is well formed with the same nodes and
iterates to the same sequence. -/
theorem insertion_strong_guarantee {T : Type} (E : Env T) (h : Heap T) (b pos : Nat)
    (ns : List Nat) (v : T) (hwf : WF h b ns) (hfail : creation_fails E h v) :
    (∃ e h1, insert E h pos v = Outcome.raised e h1 ∧ SameLive h h1 ∧ WF h1 b ns ∧
      ∀ fuel, ns.length ≤ fuel → to_list fuel h1 b = to_list fuel h b) ∧
    (∃ e h1, push_front E h b v = Outcome.raised e h1 ∧ SameLive h h1 ∧ WF h1 b ns ∧
      ∀ fuel, ns.length ≤ fuel → to_list fuel h1 b = to_list fuel h b) ∧
    (∃ e h1, push_back E h b v = Outcome.raised e h1 ∧ SameLive h h1 ∧ WF h1 b ns ∧
      ∀ fuel, ns.length ≤ fuel → to_list fuel h1 b = to_list fuel h b) := by
  have key : ∀ h1, SameLive h h1 → WF h1 b ns ∧
      ∀ fuel, ns.length ≤ fuel → to_list fuel h1 b = to_list fuel h b := by
    intro h1 hs
    have hwf1 := same_live_wf h h1 b ns hs hwf
    refine ⟨hwf1, ?_⟩
    intro fuel hf
    rw [wf_to_list h1 b ns fuel hwf1 hf, wf_to_list h b ns fuel hwf hf,
      same_live_values h h1 b ns hs hwf]
  refine ⟨?_, ?_, ?_⟩
  · obtain ⟨e, h1, heq, hs⟩ := insert_fails E h pos v hfail
    exact ⟨e, h1, heq, hs, key h1 hs⟩
  · obtain ⟨e, h1, heq, hs⟩ := insert_fails E h (begin_ h b) v hfail
    exact ⟨e, h1, by simp [push_front, heq], hs, key h1 hs⟩
  · obtain ⟨e, h1, heq, hs⟩ := insert_fails E h (end_ h b) v hfail
    exact ⟨e, h1, by simp [push_back, heq], hs, key h1 hs⟩

theorem insertion_strong_guarantee_witness :
    (∃ e h1, insert (env_fit 16 13) heap_two 2 13 = Outcome.raised e h1 ∧ SameLive heap_two h1 ∧
      WF h1 0 [1, 2, 3] ∧
      ∀ fuel, [1, 2, 3].length ≤ fuel → to_list fuel h1 0 = to_list fuel heap_two 0) ∧
    (∃ e h1, push_front (env_fit 16 13) heap_two 0 13 = Outcome.raised e h1 ∧
      SameLive heap_two h1 ∧ WF h1 0 [1, 2, 3] ∧
      ∀ fuel, [1, 2, 3].length ≤ fuel → to_list fuel h1 0 = to_list fuel heap_two 0) ∧
    (∃ e h1, push_back (env_fit 16 13) heap_two 0 13 = Outcome.raised e h1 ∧
      SameLive heap_two h1 ∧ WF h1 0 [1, 2, 3] ∧
      ∀ fuel, [1, 2, 3].length ≤ fuel → to_list fuel h1 0 = to_list fuel heap_two 0) :=
  insertion_strong_guarantee (env_fit 16 13) heap_two 0 2 [1, 2, 3] 13 (by decide)
    (Or.inr ⟨7, by decide, by decide⟩)

/-- C10: copy assignment `dst = src`, for a well-formed `dst` with sentinel `d` and
nodes `ld`.  Self-assignment returns the heap unchanged.  For every well-formed
`src` (sentinel `o`, nodes `ls`) sharing no node with `dst`, with the temporary
built at the unused address `t`, the assignment terminates.  If it returns
normally, `dst` is well formed and iterates to the values of `src`, and `src`
is well formed with its nodes and sequence unchanged.  If it throws, the heap
has the same live objects with the same links and payloads, so `dst` has the
same nodes and sequence as before.  If some element of `src` can never be
copied, it throws.  If there is storage for as many nodes as `src` has and the
copy of no element of `src` throws, it returns normally. -/
theorem copy_assignment_atomic {T : Type} (E : Env T) (h : Heap T) (d t : Nat)
    (ld : List Nat) (hwd : WF h d ld) :
    (∀ fuel, assign E fuel h d d t = some (Outcome.ok h ())) ∧
    (∀ o ls fuel, WF h o ls → (∀ x ∈ d :: ld, x ∉ o :: ls) → h.live t = false →
      ls.length ≤ fuel → ld.length ≤ fuel →
      ∃ out, assign E fuel h d o t = some out ∧
        (out.succeeded = true →
          (∃ new, WF out.heap d new ∧ new.map out.heap.value = ls.map h.value) ∧
          WF out.heap o ls ∧
          ∀ fuel1, ls.length ≤ fuel1 →
            to_list fuel1 out.heap d = some (ls.map h.value) ∧
            to_list fuel1 out.heap o = to_list fuel1 h o) ∧
        (out.succeeded = false →
          SameLive h out.heap ∧ WF out.heap d ld ∧
          ∀ fuel1, ld.length ≤ fuel1 → to_list fuel1 out.heap d = to_list fuel1 h d) ∧
        ((∃ x ∈ ls, ∀ h1, E.copy_ok h1 (h.value x) = false) → out.succeeded = false) ∧
        (Roomy E h t ls.length → (∀ x ∈ ls, ∀ h1, E.copy_ok h1 (h.value x) = true) →
          out.succeeded = true)) := by
  refine ⟨fun fuel => by simp [assign], ?_⟩
  intro o ls fuel hwo hdisj ht hf1 hf2
  obtain ⟨out, heq, hok, hfail⟩ := assign_spec E h d o t ld ls fuel hwd hwo hdisj ht hf1 hf2
  refine ⟨out, heq, ?_, ?_, ?_, ?_⟩
  · intro hs
    obtain ⟨new, hwn, hvn, hwo1, hvo, _, _⟩ := hok hs
    refine ⟨⟨new, hwn, hvn⟩, hwo1, ?_⟩
    intro fuel1 hfl
    have hlen : new.length ≤ fuel1 := by
      have := congrArg List.length hvn
      simp at this
      omega
    refine ⟨by rw [wf_to_list _ d new fuel1 hwn hlen, hvn], ?_⟩
    rw [wf_to_list _ o ls fuel1 hwo1 hfl, wf_to_list h o ls fuel1 hwo hfl, hvo]
  · intro hs
    have hsl := hfail hs
    have hwd1 := same_live_wf h out.heap d ld hsl hwd
    refine ⟨hsl, hwd1, ?_⟩
    intro fuel1 hfl
    rw [wf_to_list _ d ld fuel1 hwd1 hfl, wf_to_list h d ld fuel1 hwd hfl,
      same_live_values h out.heap d ld hsl hwd]
  · intro hbad
    obtain ⟨x, hx, hnever⟩ := hbad
    cases hs : out.succeeded with
    | false => rfl
    | true =>
      obtain ⟨_, _, _, _, _, hcopied, _⟩ := hok hs
      obtain ⟨h1, hc⟩ := hcopied x hx
      rw [hnever h1] at hc
      exact absurd hc (by simp)
  · intro hroom hcopy
    exact assign_succeeds E h d o t ls fuel out ht hwo hf1 hroom hcopy heq

theorem copy_assignment_atomic_witness :
    assign (env_fit 16 99) 3 heap_two 4 4 7 = some (Outcome.ok heap_two ()) ∧
    (∃ out, assign (env_fit 16 99) 3 heap_two 4 0 7 = some out ∧ out.succeeded = true ∧
      WF out.heap 0 [1, 2, 3] ∧ to_list 3 out.heap 4 = some [10, 20, 30] ∧
      to_list 3 out.heap 0 = to_list 3 heap_two 0) ∧
    (∃ out, assign (env_fit 16 20) 3 heap_two 4 0 7 = some out ∧ out.succeeded = false ∧
      SameLive heap_two out.heap ∧ WF out.heap 4 [5, 6] ∧
      to_list 2 out.heap 4 = to_list 2 heap_two 4) := by
  refine ⟨(copy_assignment_atomic (env_fit 16 99) heap_two 4 7 [5, 6] (by decide)).1 3, ?_, ?_⟩
  · obtain ⟨out, heq, hok, _, _, hsucc⟩ :=
      (copy_assignment_atomic (env_fit 16 99) heap_two 4 7 [5, 6] (by decide)).2 0 [1, 2, 3] 3
        (by decide) (by decide) (by decide) (by decide) (by decide)
    have hs : out.succeeded = true := by
      refine hsucc (roomy_heap_two 99) ?_
      intro x hx h1
      simp at hx
      rcases hx with e | e | e <;> subst e <;> exact env_fit_copy_ok 16 99 _ h1 (by decide)
    obtain ⟨_, hwo, hit⟩ := hok hs
    exact ⟨out, heq, hs, hwo, (hit 3 (by decide)).1, (hit 3 (by decide)).2⟩
  · obtain ⟨out, heq, _, hfail, hbad, _⟩ :=
      (copy_assignment_atomic (env_fit 16 20) heap_two 4 7 [5, 6] (by decide)).2 0 [1, 2, 3] 3
        (by decide) (by decide) (by decide) (by decide) (by decide)
    have hs : out.succeeded = false := hbad ⟨2, by decide, fun h1 => env_fit_copy_bad 16 20 h1⟩
    obtain ⟨hsl, hwd, hit⟩ := hfail hs
    exact ⟨out, heq, hs, hsl, hwd, hit 2 (by decide)⟩

/-- C8: ring closure is kept by every public mutating operation.  `ClosedRing h b ns`
says that the container with sentinel `b` has exactly the nodes `ns` and that
`n.next.prev == n` and `n.prev.next == n` hold at `b` and at every node of `ns`.
If this holds for every container involved before a call made within its
precondition, it holds for every container involved afterwards, on normal and
on exceptional exit, for `insert`, `push_front`, `push_back`, `erase(pos)`,
`erase(first, last)`, `pop_front`, `pop_back`, `clear`, `splice` between two
lists and within one list (with `pos` outside the run), `swap`, copy
construction and copy assignment; a default-constructed list satisfies it.
The loops involved terminate. -/
theorem ring_closure_preserved {T : Type} (E : Env T) (h : Heap T) :
    (∀ b, ClosedRing (list_default h b) b []) ∧
    (∀ b p s v, ClosedRing h b (p ++ s) →
      (∀ h1 c, insert E h (pos_of b s) v = Outcome.ok h1 c → ClosedRing h1 b (p ++ c :: s)) ∧
      (∀ e h1, insert E h (pos_of b s) v = Outcome.raised e h1 → ClosedRing h1 b (p ++ s))) ∧
    (∀ b ns v, ClosedRing h b ns →
      (∀ h1 u, push_front E h b v = Outcome.ok h1 u → ∃ c, ClosedRing h1 b (c :: ns)) ∧
      (∀ e h1, push_front E h b v = Outcome.raised e h1 → ClosedRing h1 b ns)) ∧
    (∀ b ns v, ClosedRing h b ns →
      (∀ h1 u, push_back E h b v = Outcome.ok h1 u → ∃ c, ClosedRing h1 b (ns ++ [c])) ∧
      (∀ e h1, push_back E h b v = Outcome.raised e h1 → ClosedRing h1 b ns)) ∧
    (∀ b p x s fuel, ClosedRing h b (p ++ x :: s) → 1 ≤ fuel →
      ∃ h1 r, erase fuel h x = some (h1, r) ∧ ClosedRing h1 b (p ++ s)) ∧
    (∀ b p m s fuel, ClosedRing h b (p ++ m ++ s) → m.length ≤ fuel →
      ∃ h1 r, erase_range fuel h (pos_of b (m ++ s)) (pos_of b s) = some (h1, r) ∧
        ClosedRing h1 b (p ++ s)) ∧
    (∀ b x s fuel, ClosedRing h b (x :: s) → 1 ≤ fuel →
      ∃ h1, pop_front fuel h b = some h1 ∧ ClosedRing h1 b s) ∧
    (∀ b s y fuel, ClosedRing h b (s ++ [y]) → 1 ≤ fuel →
      ∃ h1, pop_back fuel h b = some h1 ∧ ClosedRing h1 b s) ∧
    (∀ b ns fuel, ClosedRing h b ns → ns.length ≤ fuel →
      ∃ h1, clear fuel h b = some h1 ∧ ClosedRing h1 b []) ∧
    (∀ b1 b2 a bs p m s, ClosedRing h b1 (a ++ bs) → ClosedRing h b2 (p ++ m ++ s) →
      (∀ x ∈ b1 :: (a ++ bs), x ∉ b2 :: (p ++ m ++ s)) →
      ClosedRing (splice h (pos_of b1 bs) b2 (pos_of b2 (m ++ s)) (pos_of b2 s)) b1
          (a ++ m ++ bs) ∧
        ClosedRing (splice h (pos_of b1 bs) b2 (pos_of b2 (m ++ s)) (pos_of b2 s)) b2
          (p ++ s)) ∧
    (∀ b p m s u w, ClosedRing h b (p ++ m ++ s) → p ++ s = u ++ w →
      ClosedRing (splice h (pos_of b w) b (pos_of b (m ++ s)) (pos_of b s)) b (u ++ m ++ w)) ∧
    (∀ a b la lb, ClosedRing h a la → ClosedRing h b lb → (∀ x ∈ a :: la, x ∉ b :: lb) →
      ClosedRing (swap h a b) b la ∧ ClosedRing (swap h a b) a lb) ∧
    (∀ t o ls fuel, ClosedRing h o ls → h.live t = false → ls.length ≤ fuel →
      ∃ out, list_copy E fuel h t o = some out ∧ ClosedRing out.heap o ls ∧
        (out.succeeded = true → ∃ new, ClosedRing out.heap t new)) ∧
    (∀ d o t ld ls fuel, ClosedRing h d ld → ClosedRing h o ls →
      (∀ x ∈ d :: ld, x ∉ o :: ls) → h.live t = false → ls.length ≤ fuel → ld.length ≤ fuel →
      ∃ out, assign E fuel h d o t = some out ∧ ClosedRing out.heap o ls ∧
        ∃ nd, ClosedRing out.heap d nd) := by
  simp only [← wf_iff_closed_ring]
  refine ⟨?_, ?_, ?_, ?_, ?_, ?_, ?_, ?_, ?_, ?_, ?_, ?_, ?_, ?_⟩
  · intro b
    exact list_default_wf h b
  · intro b p s v hwf
    obtain ⟨h1, h2⟩ := insert_outcome_wf E h b p s v hwf
    exact ⟨fun h1' c hi => (h1 h1' c hi).2.1, fun e h1' hi => (h2 e h1' hi).2⟩
  · intro b ns v hwf
    have hwf0 : WF h b ([] ++ ns) := by simpa using hwf
    obtain ⟨h1, h2⟩ := insert_outcome_wf E h b [] ns v hwf0
    have hb : begin_ h b = pos_of b ns := wf_begin h b ns hwf
    refine ⟨?_, ?_⟩
    · intro h1' u hp
      unfold push_front at hp
      rw [hb] at hp
      cases hi : insert E h (pos_of b ns) v with
      | raised e h2' => simp [hi] at hp
      | ok h2' c =>
        simp only [hi] at hp
        injection hp with hh _
        subst hh
        exact ⟨c, by simpa using (h1 h2' c hi).2.1⟩
    · intro e h1' hp
      unfold push_front at hp
      rw [hb] at hp
      cases hi : insert E h (pos_of b ns) v with
      | ok h2' c => simp [hi] at hp
      | raised e2 h2' =>
        simp only [hi] at hp
        injection hp with _ hh
        subst hh
        simpa using (h2 e2 h2' hi).2
  · intro b ns v hwf
    refine ⟨?_, ?_⟩
    · intro h1 u hp
      obtain ⟨c, _, _, hwf1, _⟩ := push_back_ok E h h1 b ns v u hwf hp
      exact ⟨c, hwf1⟩
    · intro e h1 hp
      exact same_live_wf h h1 b ns (push_back_raised E h h1 b v e hp).2 hwf
  · intro b p x s fuel hwf hf
    obtain ⟨heq, hwf1⟩ := erase_eq h b x p s fuel hwf hf
    exact ⟨_, _, heq, hwf1⟩
  · intro b p m s fuel hwf hf
    obtain ⟨h1, heq, hwf1⟩ := erase_range_wf h b p m s fuel hwf hf
    exact ⟨h1, _, heq, hwf1⟩
  · intro b x s fuel hwf hf
    obtain ⟨heq, hwf1⟩ := pop_front_eq h b x s fuel hwf hf
    exact ⟨_, heq, hwf1⟩
  · intro b s y fuel hwf hf
    obtain ⟨heq, hwf1⟩ := pop_back_eq h b y s fuel hwf hf
    exact ⟨_, heq, hwf1⟩
  · intro b ns fuel hwf hf
    obtain ⟨h1, heq, hwf1, _⟩ := clear_spec h b ns fuel hwf hf
    exact ⟨h1, heq, hwf1⟩
  · intro b1 b2 a bs p m s hdst hsrc hdisj
    exact splice_two_wf_any h b1 b2 a bs p m s hdst hsrc hdisj
  · intro b p m s u w hwf hsplit
    exact splice_same_wf_any h b p m s u w hwf hsplit
  · intro a b la lb hA hB hdisj
    exact swap_wf h a b la lb hA hB hdisj
  · intro t o ls fuel hwo ht hf
    obtain ⟨out, heq, hwo1, hnew⟩ := list_copy_wf E h t o ls fuel ht hwo hf
    refine ⟨out, heq, hwo1, ?_⟩
    intro hs
    obtain ⟨new, hw, _⟩ := hnew hs
    exact ⟨new, hw⟩
  · intro d o t ld ls fuel hwd hwo hdisj ht hf1 hf2
    exact assign_wf E h d o t ld ls fuel hwd hwo hdisj ht hf1 hf2

theorem ring_closure_preserved_witness :
    (ClosedRing (swap heap_two 0 4) 4 [1, 2, 3] ∧ ClosedRing (swap heap_two 0 4) 0 [5, 6]) ∧
    ClosedRing (splice heap_two (pos_of 0 [1, 3]) 0 (pos_of 0 ([2] ++ [3])) (pos_of 0 [3])) 0
      ([] ++ [2] ++ [1, 3]) ∧
    ∃ h1 r, erase 1 heap_two 2 = some (h1, r) ∧ ClosedRing h1 0 ([1] ++ [3]) :=
  ⟨(ring_closure_preserved (env_fit 16 99) heap_two).2.2.2.2.2.2.2.2.2.2.2.1 0 4 [1, 2, 3] [5, 6]
      (by decide) (by decide) (by decide),
    (ring_closure_preserved (env_fit 16 99) heap_two).2.2.2.2.2.2.2.2.2.2.1 0 [1] [2] [3] []
      [1, 3] (by decide) (by decide),
    (ring_closure_preserved (env_fit 16 99) heap_two).2.2.2.2.1 0 [1] 2 [3] 1 (by decide)
      (by decide)⟩

/-- C15: on a non-empty well-formed list whose nodes are `x :: s1`, equivalently
`s2 ++ [y]`, `front()` returns the payload of the first node `x` and `back()`
the payload of the last node `y`.  Both are reads of the heap: they produce a
value and no new heap, so the list is as it was. -/
theorem front_back_payload {T : Type} (h : Heap T) (b x y : Nat) (ns s1 s2 : List Nat)
    (hwf : WF h b ns) (hx : ns = x :: s1) (hy : ns = s2 ++ [y]) :
    front h b = h.value x ∧ back h b = h.value y := by
  refine ⟨?_, ?_⟩
  · rw [hx] at hwf
    have hb : h.next b = x := hwf.1.1
    simp [front, begin_, hb]
  · rw [hy] at hwf
    have hb : h.prev b = y := ((seg_snoc h s2 y b b).mp hwf.1).2.2
    simp [back, end_, hb]

theorem front_back_payload_witness :
    front heap_two 0 = heap_two.value 1 ∧ back heap_two 0 = heap_two.value 3 :=
  front_back_payload heap_two 0 1 3 [1, 2, 3] [2, 3] [1, 2] (by decide) (by decide) (by decide)

/-- C16: on a well-formed list with nodes `x :: s`, `pop_front()` terminates and
leaves a well-formed list with nodes `s`; on a well-formed list with nodes
`s ++ [y]`, `pop_back()` terminates and leaves a well-formed list with nodes
`s`.  In both cases exactly the end node is deleted, every other object keeps
its liveness, and no payload changes. -/
theorem pop_removes_end_node {T : Type} (h : Heap T) (b x y : Nat) (ns s1 s2 : List Nat)
    (fuel : Nat) (hwf : WF h b ns) (hx : ns = x :: s1) (hy : ns = s2 ++ [y]) (hf : 1 ≤ fuel) :
    (∃ h1, pop_front fuel h b = some h1 ∧ WF h1 b s1 ∧ h1.value = h.value ∧
      (∀ a, h1.live a = if a = x then false else h.live a) ∧
      ∀ fuel1, s1.length ≤ fuel1 → to_list fuel1 h1 b = some (s1.map h.value)) ∧
    (∃ h2, pop_back fuel h b = some h2 ∧ WF h2 b s2 ∧ h2.value = h.value ∧
      (∀ a, h2.live a = if a = y then false else h.live a) ∧
      ∀ fuel1, s2.length ≤ fuel1 → to_list fuel1 h2 b = some (s2.map h.value)) := by
  refine ⟨?_, ?_⟩
  · rw [hx] at hwf
    obtain ⟨heq, hwf1⟩ := pop_front_eq h b x s1 fuel hwf hf
    refine ⟨_, heq, hwf1, rfl, ?_, ?_⟩
    · intro a; simp [erase_heap, kill_apply]
    · intro fuel1 hf1
      rw [wf_to_list _ b s1 fuel1 hwf1 hf1]
      rfl
  · rw [hy] at hwf
    obtain ⟨heq, hwf1⟩ := pop_back_eq h b y s2 fuel hwf hf
    refine ⟨_, heq, hwf1, rfl, ?_, ?_⟩
    · intro a; simp [erase_heap, kill_apply]
    · intro fuel1 hf1
      rw [wf_to_list _ b s2 fuel1 hwf1 hf1]
      rfl

theorem pop_removes_end_node_witness :
    (∃ h1, pop_front 1 heap_two 0 = some h1 ∧ WF h1 0 [2, 3] ∧ h1.value = heap_two.value ∧
      (∀ a, h1.live a = if a = 1 then false else heap_two.live a) ∧
      ∀ fuel1, [2, 3].length ≤ fuel1 → to_list fuel1 h1 0 = some ([2, 3].map heap_two.value)) ∧
    (∃ h2, pop_back 1 heap_two 0 = some h2 ∧ WF h2 0 [1, 2] ∧ h2.value = heap_two.value ∧
      (∀ a, h2.live a = if a = 3 then false else heap_two.live a) ∧
      ∀ fuel1, [1, 2].length ≤ fuel1 → to_list fuel1 h2 0 = some ([1, 2].map heap_two.value)) :=
  pop_removes_end_node heap_two 0 1 3 [1, 2, 3] [2, 3] [1, 2] 1 (by decide) (by decide)
    (by decide) (by decide)

/-- C17: on a well-formed list with nodes `s`, when storage is available at `c` and
the payload copy does not throw, `push_front(v)` returns normally and leaves a
well-formed list with nodes `c :: s` iterating to `v` followed by the old
values, and `push_back(v)` returns normally and leaves a well-formed list with
nodes `s ++ [c]` iterating to the old values followed by `v`. -/
theorem push_links_at_end {T : Type} (E : Env T) (h : Heap T) (b c : Nat) (s : List Nat)
    (v : T) (hwf : WF h b s) (ha : E.alloc h = some c)
    (hc : E.copy_ok (raw_node h c) v = true) :
    (∃ h1, push_front E h b v = Outcome.ok h1 () ∧ WF h1 b (c :: s) ∧
      ∀ fuel, s.length + 1 ≤ fuel → to_list fuel h1 b = some (v :: s.map h.value)) ∧
    (∃ h2, push_back E h b v = Outcome.ok h2 () ∧ WF h2 b (s ++ [c]) ∧
      ∀ fuel, s.length + 1 ≤ fuel → to_list fuel h2 b = some (s.map h.value ++ [v])) := by
  refine ⟨?_, ?_⟩
  · have hwf0 : WF h b ([] ++ s) := by simpa using hwf
    obtain ⟨heq, hwf1, hvals⟩ := insert_at E h b [] s v c hwf0 ha hc
    have hb : begin_ h b = pos_of b s := wf_begin h b s hwf
    simp only [List.nil_append, List.map_nil] at hwf1 hvals
    refine ⟨_, by simp only [push_front, hb, heq], hwf1, ?_⟩
    intro fuel hf
    rw [wf_to_list _ b _ fuel hwf1 (by simpa using hf), hvals]
  · have hwf0 : WF h b (s ++ []) := by simpa using hwf
    obtain ⟨heq, hwf1, hvals⟩ := insert_at E h b s [] v c hwf0 ha hc
    simp only [pos_of, List.headD_nil, List.map_nil] at heq hwf1 hvals
    refine ⟨_, by simp only [push_back, end_, heq], hwf1, ?_⟩
    intro fuel hf
    rw [wf_to_list _ b _ fuel hwf1 (by simpa using hf), hvals]

theorem push_links_at_end_witness :
    (∃ h1, push_front (env_fit 16 99) heap_two 0 7 = Outcome.ok h1 () ∧ WF h1 0 (7 :: [1, 2, 3]) ∧
      ∀ fuel, [1, 2, 3].length + 1 ≤ fuel →
        to_list fuel h1 0 = some (7 :: [1, 2, 3].map heap_two.value)) ∧
    (∃ h2, push_back (env_fit 16 99) heap_two 0 7 = Outcome.ok h2 () ∧ WF h2 0 ([1, 2, 3] ++ [7]) ∧
      ∀ fuel, [1, 2, 3].length + 1 ≤ fuel →
        to_list fuel h2 0 = some ([1, 2, 3].map heap_two.value ++ [7])) :=
  push_links_at_end (env_fit 16 99) heap_two 0 7 [1, 2, 3] 7 (by decide) (by decide) (by decide)

/-- C18: on a well-formed list `clear()` and `erase(begin(), end())` terminate with
the same heap, and in that heap the list is empty: `empty()` is true,
`begin() == end()`, the sentinel is its own `next` and `prev`, every former
value node is deleted and forward iteration yields nothing. -/
theorem clear_is_erase_all {T : Type} (h : Heap T) (b : Nat) (ns : List Nat) (fuel : Nat)
    (hwf : WF h b ns) (hf : ns.length ≤ fuel) :
    ∃ h1, clear fuel h b = some h1 ∧
      erase_range fuel h (begin_ h b) (end_ h b) = some (h1, end_ h b) ∧
      WF h1 b [] ∧ empty h1 b = true ∧ begin_ h1 b = end_ h1 b ∧
      h1.next b = b ∧ h1.prev b = b ∧ (∀ a ∈ ns, h1.live a = false) ∧
      ∀ fuel1, to_list fuel1 h1 b = some [] := by
  obtain ⟨h1, heq, hwf1, _, hl, _⟩ := clear_spec h b ns fuel hwf hf
  have hn : h1.next b = b := hwf1.1.1
  have hp : h1.prev b = b := hwf1.1.2
  refine ⟨h1, heq, ?_, hwf1, by simp [empty, hn], by simp [begin_, end_, hn], hn, hp, ?_, ?_⟩
  · unfold clear at heq
    cases he : erase_range fuel h (begin_ h b) (end_ h b) with
    | none => simp [he] at heq
    | some pr =>
      obtain ⟨h2, r⟩ := pr
      simp [he] at heq
      have hr := erase_range_snd fuel h h2 _ _ r he
      rw [heq, hr]
  · intro a ha
    rw [hl a]
    simp [ha]
  · intro fuel1
    simp only [to_list, begin_, end_, hn]
    exact iterate_stop h1 b fuel1

theorem clear_is_erase_all_witness :
    ∃ h1, clear 3 heap_two 0 = some h1 ∧
      erase_range 3 heap_two (begin_ heap_two 0) (end_ heap_two 0) = some (h1, end_ heap_two 0) ∧
      WF h1 0 [] ∧ empty h1 0 = true ∧ begin_ h1 0 = end_ h1 0 ∧
      h1.next 0 = 0 ∧ h1.prev 0 = 0 ∧ (∀ a ∈ [1, 2, 3], h1.live a = false) ∧
      ∀ fuel1, to_list fuel1 h1 0 = some [] :=
  clear_is_erase_all heap_two 0 [1, 2, 3] 3 (by decide) (by decide)

/-- C20: same-container `splice` with the destination inside the moved run
corrupts the list without reporting anything.  On the well-formed list with
sentinel `0` and nodes `1, 2, 3`, the call `splice(pos, L, first, last)` with
`pos == first` the node `2` and `last` the node `3` returns a heap in which ring
closure fails at node `1`, node `2` is its own successor so that node `3` is
never reached from the sentinel and forward iteration never ends, and the
sentinel heads no well-formed list at all. -/
theorem splice_inside_run_corrupts :
    WF heap_two 0 [1, 2, 3] ∧
    (splice heap_two 2 0 2 3).prev ((splice heap_two 2 0 2 3).next 1) ≠ 1 ∧
    ¬ RingClosed (splice heap_two 2 0 2 3) [0, 1, 2, 3] ∧
    (∀ k, (splice heap_two 2 0 2 3).next^[k] 0 ≠ 3) ∧
    (∀ fuel, to_list fuel (splice heap_two 2 0 2 3) 0 = none) ∧
    (∀ ns, ¬ WF (splice heap_two 2 0 2 3) 0 ns) := by
  have h0 : (splice heap_two 2 0 2 3).next 0 = 1 := by decide
  have h1 : (splice heap_two 2 0 2 3).next 1 = 2 := by decide
  have h2 : (splice heap_two 2 0 2 3).next 2 = 2 := by decide
  have hp : (splice heap_two 2 0 2 3).prev 2 = 2 := by decide
  refine ⟨by decide, by decide, by decide, ?_, ?_, ?_⟩
  · intro k
    match k with
    | 0 => decide
    | 1 => simp [h0]
    | k + 2 =>
      rw [Function.iterate_add_apply]
      have : (splice heap_two 2 0 2 3).next^[2] 0 = 2 := by
        simp [Function.iterate_succ_apply', h0, h1]
      rw [this, next_iterate_stuck _ 2 h2 k]
      decide
  · intro fuel
    have hstuck := iterate_stuck (splice heap_two 2 0 2 3) 0 2 h2 (by decide)
    simp only [to_list, begin_, end_, h0]
    cases fuel with
    | zero => simp [iterate]
    | succ f => simp [iterate, h1, hstuck f]
  · intro ns hwf
    have hmem := seg_next_mem _ ns 0 0 hwf.1
    rw [h0] at hmem
    have hmem1 : 1 ∈ 0 :: ns := by
      simp at hmem ⊢
      exact hmem
    have hcl := (wf_closed _ 0 ns hwf 1 hmem1).1
    rw [h1, hp] at hcl
    exact absurd hcl (by decide)

/-- C13: iterator stability.  On a well-formed list with nodes `ns`: after a
successful `insert(pos, v)` at any position, after `erase(q)` of a value node
`q`, and after `erase(first, last)` of a run `m`, the list is well formed, the
surviving old nodes appear in it in their old relative order, and every old
node other than the erased ones is still a live node of the list with the
payload it had. -/
theorem iterators_stay_valid {T : Type} (E : Env T) (h : Heap T) (b : Nat) (ns : List Nat)
    (hwf : WF h b ns) :
    (∀ p s v h1 c, ns = p ++ s → insert E h (pos_of b s) v = Outcome.ok h1 c →
      WF h1 b (p ++ c :: s) ∧ ns.Sublist (p ++ c :: s) ∧
      ∀ n ∈ ns, n ∈ p ++ c :: s ∧ h1.value n = h.value n ∧ h1.live n = true) ∧
    (∀ p q s fuel, ns = p ++ q :: s → 1 ≤ fuel →
      ∃ h1 r, erase fuel h q = some (h1, r) ∧ WF h1 b (p ++ s) ∧ (p ++ s).Sublist ns ∧
        ∀ n ∈ ns, n ≠ q → n ∈ p ++ s ∧ h1.value n = h.value n ∧ h1.live n = true) ∧
    (∀ p m s fuel, ns = p ++ m ++ s → m.length ≤ fuel →
      ∃ h1 r, erase_range fuel h (pos_of b (m ++ s)) (pos_of b s) = some (h1, r) ∧
        WF h1 b (p ++ s) ∧ (p ++ s).Sublist ns ∧
        ∀ n ∈ ns, n ∉ m → n ∈ p ++ s ∧ h1.value n = h.value n ∧ h1.live n = true) := by
  have hrange : ∀ p m s fuel, ns = p ++ m ++ s → m.length ≤ fuel →
      ∃ h1 r, erase_range fuel h (pos_of b (m ++ s)) (pos_of b s) = some (h1, r) ∧
        WF h1 b (p ++ s) ∧ (p ++ s).Sublist ns ∧
        ∀ n ∈ ns, n ∉ m → n ∈ p ++ s ∧ h1.value n = h.value n ∧ h1.live n = true := by
    intro p m s fuel hns hf
    subst hns
    obtain ⟨h1, heq, hwf1, hv, hl, _⟩ := erase_range_full h b p m s fuel hwf hf
    refine ⟨h1, _, heq, hwf1, sublist_remove p m s, ?_⟩
    intro n hn hnm
    have hmem : n ∈ p ++ s := by
      simp at hn ⊢
      tauto
    refine ⟨hmem, by rw [hv], ?_⟩
    rw [hl n, if_neg hnm]
    exact hwf.2.2 n (List.mem_cons_of_mem _ hn)
  refine ⟨?_, ?_, hrange⟩
  · intro p s v h1 c hns hi
    subst hns
    obtain ⟨heq, hwf1, _⟩ := (insert_outcome_wf E h b p s v hwf).1 h1 c hi
    have hfresh := E.alloc_fresh h c (insert_ok_inv E h h1 _ c v hi).1
    refine ⟨hwf1, sublist_insert p s c, ?_⟩
    intro n hn
    have hlive := hwf.2.2 n (List.mem_cons_of_mem _ hn)
    have hnc : n ≠ c := by
      intro e
      rw [e, hfresh] at hlive
      exact Bool.false_ne_true hlive
    refine ⟨?_, ?_, ?_⟩
    · simp at hn ⊢
      tauto
    · simp [heq, insert_heap, hnc]
    · simp [heq, insert_heap, hnc, hlive]
  · intro p q s fuel hns hf
    have hns1 : ns = p ++ [q] ++ s := by simpa using hns
    obtain ⟨h1, r, heq, hwf1, hsub, hkeep⟩ := hrange p [q] s fuel hns1 (by simpa using hf)
    have hwf0 : WF h b (p ++ (q :: []) ++ s) := by rw [← hns1]; exact hwf
    obtain ⟨_, hs2, _⟩ := wf_split h b q p [] s hwf0
    have hnx : h.next q = pos_of b s := hs2.1
    refine ⟨h1, r, ?_, hwf1, hsub, ?_⟩
    · simpa [erase, hnx, pos_of] using heq
    · intro n hn hnq
      exact hkeep n hn (by simpa using hnq)

theorem iterators_stay_valid_witness :
    (∃ h1 r, erase 1 heap_two 2 = some (h1, r) ∧ WF h1 0 ([1] ++ [3]) ∧
      ([1] ++ [3]).Sublist [1, 2, 3] ∧
      ∀ n ∈ [1, 2, 3], n ≠ 2 →
        n ∈ [1] ++ [3] ∧ h1.value n = heap_two.value n ∧ h1.live n = true) ∧
    (∃ h1 r, erase_range 2 heap_two (pos_of 0 ([1, 2] ++ [3])) (pos_of 0 [3]) = some (h1, r) ∧
      WF h1 0 ([] ++ [3]) ∧ (([] : List Nat) ++ [3]).Sublist [1, 2, 3] ∧
      ∀ n ∈ [1, 2, 3], n ∉ [1, 2] →
        n ∈ ([] : List Nat) ++ [3] ∧ h1.value n = heap_two.value n ∧ h1.live n = true) :=
  ⟨(iterators_stay_valid (env_fit 16 99) heap_two 0 [1, 2, 3] (by decide)).2.1 [1] 2 [3] 1
      (by decide) (by decide),
    (iterators_stay_valid (env_fit 16 99) heap_two 0 [1, 2, 3] (by decide)).2.2 [] [1, 2] [3] 2
      (by decide) (by decide)⟩

/-- C14: `splice` only relinks.  Let the source be a well-formed list with nodes
`p ++ m ++ s`.  For a call that moves the run `m` into any other well-formed
list, and for a call that moves it within the source itself (destination
outside the run), no payload and no liveness bit changes, the value nodes of the
lists involved are afterwards the same nodes as before, each in exactly one
place of exactly one ring, and every node of the moved run holds the value it
held and sits in the destination. -/
theorem splice_relinks_only {T : Type} (h : Heap T) (b2 : Nat) (p m s : List Nat)
    (hsrc : WF h b2 (p ++ m ++ s)) :
    (∀ b1 a bs, WF h b1 (a ++ bs) → (∀ x ∈ b1 :: (a ++ bs), x ∉ b2 :: (p ++ m ++ s)) →
      ∃ h1, h1 = splice h (pos_of b1 bs) b2 (pos_of b2 (m ++ s)) (pos_of b2 s) ∧
        h1.value = h.value ∧ h1.live = h.live ∧
        WF h1 b1 (a ++ m ++ bs) ∧ WF h1 b2 (p ++ s) ∧
        ((a ++ m ++ bs) ++ (p ++ s)).Perm ((a ++ bs) ++ (p ++ m ++ s)) ∧
        ((a ++ m ++ bs) ++ (p ++ s)).Nodup ∧
        ∀ x ∈ m, x ∈ a ++ m ++ bs ∧ x ∉ p ++ s ∧ h1.value x = h.value x) ∧
    (∀ u w, p ++ s = u ++ w →
      ∃ h2, h2 = splice h (pos_of b2 w) b2 (pos_of b2 (m ++ s)) (pos_of b2 s) ∧
        h2.value = h.value ∧ h2.live = h.live ∧
        WF h2 b2 (u ++ m ++ w) ∧ (u ++ m ++ w).Perm (p ++ m ++ s) ∧ (u ++ m ++ w).Nodup ∧
        ∀ x ∈ m, x ∈ u ++ m ++ w ∧ h2.value x = h.value x) := by
  refine ⟨?_, ?_⟩
  · intro b1 a bs hdst hdisj
    obtain ⟨hw1, hw2⟩ := splice_two_wf_any h b1 b2 a bs p m s hdst hsrc hdisj
    have hperm : ((a ++ m ++ bs) ++ (p ++ s)).Perm ((a ++ bs) ++ (p ++ m ++ s)) := by
      have e1 : (a ++ m ++ bs).Perm (m ++ (a ++ bs)) := by
        rw [List.append_assoc]
        exact List.perm_append_comm_assoc a m bs
      have e2 : (p ++ m ++ s).Perm (m ++ (p ++ s)) := by
        rw [List.append_assoc]
        exact List.perm_append_comm_assoc p m s
      have e3 : ((a ++ bs) ++ (p ++ m ++ s)).Perm ((a ++ bs) ++ (m ++ (p ++ s))) :=
        List.Perm.append_left _ e2
      have e4 : ((a ++ bs) ++ (m ++ (p ++ s))).Perm (m ++ ((a ++ bs) ++ (p ++ s))) :=
        List.perm_append_comm_assoc (a ++ bs) m (p ++ s)
      have e5 : ((a ++ m ++ bs) ++ (p ++ s)).Perm (m ++ (a ++ bs) ++ (p ++ s)) :=
        List.Perm.append_right _ e1
      rw [List.append_assoc m] at e5
      exact e5.trans (e3.trans e4).symm
    have hnd_old : ((a ++ bs) ++ (p ++ m ++ s)).Nodup := by
      rw [List.nodup_append]
      refine ⟨(List.nodup_cons.mp hdst.2.1).2, (List.nodup_cons.mp hsrc.2.1).2, ?_⟩
      intro x hx hy
      exact hdisj x (List.mem_cons_of_mem _ hx) (List.mem_cons_of_mem _ hy)
    have hnd_new := hperm.nodup_iff.mpr hnd_old
    refine ⟨_, rfl, splice_value _ _ _ _ _, splice_live _ _ _ _ _, hw1, hw2, hperm, hnd_new, ?_⟩
    intro x hx
    have hmem : x ∈ a ++ m ++ bs := by simp [hx]
    refine ⟨hmem, ?_, by rw [splice_value]⟩
    intro e
    exact (List.nodup_append.mp hnd_new).2.2 hmem e
  · intro u w hsplit
    have hw3 := splice_same_wf_any h b2 p m s u w hsrc hsplit
    refine ⟨_, rfl, splice_value _ _ _ _ _, splice_live _ _ _ _ _, hw3, ?_,
      (List.nodup_cons.mp hw3.2.1).2, ?_⟩
    · have e1 : (u ++ m ++ w).Perm (m ++ (u ++ w)) := by
        rw [List.append_assoc]
        exact List.perm_append_comm_assoc u m w
      have e2 : (p ++ m ++ s).Perm (m ++ (p ++ s)) := by
        rw [List.append_assoc]
        exact List.perm_append_comm_assoc p m s
      rw [← hsplit] at e1
      exact e1.trans e2.symm
    · intro x hx
      exact ⟨by simp [hx], by rw [splice_value]⟩

theorem splice_relinks_only_witness :
    (∃ h1, h1 = splice heap_two (pos_of 4 [6]) 0 (pos_of 0 ([1, 2] ++ [3])) (pos_of 0 [3]) ∧
      h1.value = heap_two.value ∧ h1.live = heap_two.live ∧
      WF h1 4 ([5] ++ [1, 2] ++ [6]) ∧ WF h1 0 ([] ++ [3]) ∧
      (([5] ++ [1, 2] ++ [6]) ++ ([] ++ [3])).Perm (([5] ++ [6]) ++ ([] ++ [1, 2] ++ [3])) ∧
      (([5] ++ [1, 2] ++ [6]) ++ ([] ++ [3])).Nodup ∧
      ∀ x ∈ [1, 2], x ∈ [5] ++ [1, 2] ++ [6] ∧ x ∉ ([] : List Nat) ++ [3] ∧
        h1.value x = heap_two.value x) ∧
    (∃ h2, h2 = splice heap_two (pos_of 0 []) 0 (pos_of 0 ([1, 2] ++ [3])) (pos_of 0 [3]) ∧
      h2.value = heap_two.value ∧ h2.live = heap_two.live ∧
      WF h2 0 ([3] ++ [1, 2] ++ []) ∧ ([3] ++ [1, 2] ++ []).Perm ([] ++ [1, 2] ++ [3]) ∧
      ([3] ++ [1, 2] ++ []).Nodup ∧
      ∀ x ∈ [1, 2], x ∈ [3] ++ [1, 2] ++ [] ∧ h2.value x = heap_two.value x) ∧
    (∃ h3, h3 = splice heap_one (pos_of 0 []) 0 (pos_of 0 ([1] ++ [])) (pos_of 0 []) ∧
      h3.value = heap_one.value ∧ h3.live = heap_one.live ∧
      WF h3 0 ([] ++ [1] ++ []) ∧ ([] ++ [1] ++ []).Perm ([] ++ [1] ++ []) ∧
      (([] : List Nat) ++ [1] ++ []).Nodup ∧
      ∀ x ∈ [1], x ∈ ([] : List Nat) ++ [1] ++ [] ∧ h3.value x = heap_one.value x) :=
  ⟨(splice_relinks_only heap_two 0 [] [1, 2] [3] (by decide)).1 4 [5] [6] (by decide)
      (by decide),
    (splice_relinks_only heap_two 0 [] [1, 2] [3] (by decide)).2 [3] [] (by decide),
    (splice_relinks_only heap_one 0 [] [1] [] (by decide)).2 [] [] (by decide)⟩

/-- C11: copy construction is deep.  Copy-constructing, at the unused address `t`, a
list from a well-formed list with sentinel `o` and nodes `ls` terminates, and it
returns normally when there is storage for as many nodes as the source has and
the copy of none of its elements throws.  When it returns normally the copy is
a well-formed list that iterates to the values of the source, the source is as
it was, and the two lists have no node in common.  Consequently every `insert`,
`erase`, `push_front`, `push_back`, `pop_front` and `pop_back` applied to the
copy leaves the nodes, payloads and hence the sequence and length of the source
unchanged, and every such operation applied to the source leaves those of the
copy unchanged. -/
theorem copy_is_deep {T : Type} (E : Env T) (h : Heap T) (t o : Nat) (ls : List Nat)
    (fuel : Nat) (ht : h.live t = false) (hwo : WF h o ls) (hf : ls.length ≤ fuel) :
    ∃ out, list_copy E fuel h t o = some out ∧
      (out.succeeded = true → ∃ new, WF out.heap t new ∧ Keeps h out.heap o ls ∧
        (∀ fuel1, ls.length ≤ fuel1 → to_list fuel1 out.heap t = some (ls.map h.value) ∧
          to_list fuel1 out.heap o = some (ls.map h.value)) ∧
        (∀ x ∈ t :: new, x ∉ o :: ls) ∧
        MutationsKeep E out.heap t new o ls ∧ MutationsKeep E out.heap o ls t new) ∧
      (Roomy E h t ls.length → (∀ x ∈ ls, ∀ h1, E.copy_ok h1 (h.value x) = true) →
        out.succeeded = true) := by
  obtain ⟨out, heq, hok, _⟩ := list_copy_disjoint E h t o ls fuel ht hwo hf
  refine ⟨out, heq, ?_, ?_⟩
  · intro hs
    obtain ⟨new, hwt, hwo1, hv, hvo, hdisj⟩ := hok hs
    refine ⟨new, hwt, ⟨hwo1, hvo⟩, ?_, hdisj,
      mutations_keep_other E out.heap t o new ls hwt hwo1 hdisj,
      mutations_keep_other E out.heap o t ls new hwo1 hwt (fun x hx e => hdisj x e hx)⟩
    intro fuel1 hf1
    have hlen : new.length ≤ fuel1 := by
      have := congrArg List.length hv
      simp at this
      omega
    exact ⟨by rw [wf_to_list _ t new fuel1 hwt hlen, hv],
      by rw [wf_to_list _ o ls fuel1 hwo1 hf1, hvo]⟩
  · intro hroom hcopy
    exact list_copy_succeeds E h t o ls fuel out ht hwo hf hroom hcopy heq

theorem copy_is_deep_witness :
    ∃ out, list_copy (env_fit 16 99) 3 heap_two 7 0 = some out ∧ out.succeeded = true ∧
      ∃ new, WF out.heap 7 new ∧ Keeps heap_two out.heap 0 [1, 2, 3] ∧
        to_list 3 out.heap 7 = some [10, 20, 30] ∧
        to_list 3 out.heap 0 = some [10, 20, 30] ∧
        (∀ x ∈ 7 :: new, x ∉ 0 :: [1, 2, 3]) ∧
        MutationsKeep (env_fit 16 99) out.heap 7 new 0 [1, 2, 3] ∧
        MutationsKeep (env_fit 16 99) out.heap 0 [1, 2, 3] 7 new := by
  obtain ⟨out, heq, hok, hsucc⟩ :=
    copy_is_deep (env_fit 16 99) heap_two 7 0 [1, 2, 3] 3 (by decide) (by decide) (by decide)
  have hs : out.succeeded = true := by
    refine hsucc (roomy_heap_two 99) ?_
    intro x hx h1
    simp at hx
    rcases hx with e | e | e <;> subst e <;> exact env_fit_copy_ok 16 99 _ h1 (by decide)
  obtain ⟨new, hwt, hk, hit, hdisj, hm1, hm2⟩ := hok hs
  exact ⟨out, heq, hs, new, hwt, hk, (hit 3 (by decide)).1, (hit 3 (by decide)).2, hdisj,
    hm1, hm2⟩

/-- C19: the concrete scenario.  Two lists `A` and `B` are default-constructed at
different addresses; `push_back(1)`, `push_back(2)`, `push_back(3)` on `A` run
without an exception.  Then forward iteration of `A` yields `[1, 2, 3]`;
`A.erase(A.begin())` terminates and afterwards `A.front() == 2`; and after
`B.splice(B.begin(), A, A.begin(), A.end())` the list `A` is empty and forward
iteration of `B` yields `[2, 3]`. -/
theorem concrete_scenario (E : Env Nat) (h0 h1 : Heap Nat) (a b : Nat) (hab : a ≠ b)
    (hpush : push_back_all E a (list_default (list_default h0 a) b) [1, 2, 3]
      = Outcome.ok h1 ()) :
    to_list 3 h1 a = some [1, 2, 3] ∧
    ∃ h2 r, erase 1 h1 (begin_ h1 a) = some (h2, r) ∧ front h2 a = 2 ∧
      empty (splice h2 (begin_ h2 b) a (begin_ h2 a) (end_ h2 a)) a = true ∧
      to_list 2 (splice h2 (begin_ h2 b) a (begin_ h2 a) (end_ h2 a)) b = some [2, 3] := by
  have hwa0 : WF (list_default (list_default h0 a) b) a [] := by
    refine wf_frame _ _ a [] (list_default_wf h0 a) ?_ ?_ ?_
    · intro x hx
      have : x ≠ b := by simp at hx; rw [hx]; exact hab
      simp [list_default, this]
    · intro x hx
      have : x ≠ b := by simp at hx; rw [hx]; exact hab
      simp [list_default, this]
    · intro x hx
      have : x ≠ b := by simp at hx; rw [hx]; exact hab
      simp [list_default, this]
  have hwb0 := list_default_wf (list_default h0 a) b
  obtain ⟨new, g, hvals⟩ := push_back_all_grown E a [1, 2, 3] _ h1 [] () hwa0 hpush
  have hdisj0 : ∀ x ∈ b :: ([] : List Nat), x ∉ a :: ([] : List Nat) := by
    intro x hx e
    simp at hx e
    exact hab (e.symm.trans hx)
  obtain ⟨hwb1, _, _, hbnew⟩ := grown_other _ h1 a b [] new [] g hwb0 hdisj0
  have hwa1 : WF h1 a new := by simpa using g.1
  obtain ⟨c1, c2, c3, hnew⟩ := length_three new (by
    have := congrArg List.length hvals
    simpa using this)
  subst hnew
  simp only [List.map_cons, List.map_nil, List.cons.injEq, and_true] at hvals
  obtain ⟨hv1, hv2, hv3⟩ := hvals
  have hmain : to_list 3 h1 a = some [1, 2, 3] ∧
      ∃ h2 r, erase 1 h1 (begin_ h1 a) = some (h2, r) ∧ front h2 a = 2 ∧
        empty (splice h2 (begin_ h2 b) a (begin_ h2 a) (end_ h2 a)) a = true ∧
        to_list 2 (splice h2 (begin_ h2 b) a (begin_ h2 a) (end_ h2 a)) b = some [2, 3] := by
    have hbn : b ∉ [c1, c2, c3] := hbnew b (by simp)
    have hba : b ≠ a := Ne.symm hab
    refine ⟨?_, ?_⟩
    · rw [wf_to_list h1 a [c1, c2, c3] 3 hwa1 (by simp)]
      simp [hv1, hv2, hv3]
    · have hbeg : begin_ h1 a = c1 := hwa1.1.1
      obtain ⟨h2, heq, hwa2, hk⟩ :=
        erase_range_keeps h1 a b [] [c1] [c2, c3] [] 1 hwa1 hwb1
          (by
            intro x hx e
            simp at e
            rw [e] at hx
            rcases List.mem_cons.mp hx with e1 | e1
            · exact hba e1
            · exact hbn (by simpa using e1)) (by simp)
      simp only [pos_of, List.nil_append, List.cons_append, List.headD_cons] at heq hwa2
      have hnx : h1.next c1 = c2 := hwa1.1.2.2.1
      have hv : h2.value = h1.value := by
        obtain ⟨h2', heq', _, hv', _⟩ := erase_range_full h1 a [] [c1] [c2, c3] 1 hwa1 (by simp)
        simp only [pos_of, List.nil_append, List.cons_append, List.headD_cons] at heq'
        rw [heq] at heq'
        injection heq' with hh
        injection hh with hh _
        rw [hh]
        exact hv'
      refine ⟨h2, c2, by simp only [erase, hbeg, hnx]; exact heq, ?_, ?_⟩
      · have hb2 : begin_ h2 a = c2 := hwa2.1.1
        simp [front, hb2, hv, hv2]
      · have hb2 : begin_ h2 a = c2 := hwa2.1.1
        have hbb : begin_ h2 b = b := hk.1.1.1
        have hsp := splice_two_wf_any h2 b a [] [] [] [c2, c3] [] (by simpa using hk.1)
          (by simpa using hwa2)
          (by
            intro x hx e
            simp at hx
            rw [hx] at e
            rcases List.mem_cons.mp e with e1 | e1
            · exact hba e1
            · exact hbn (by simp at e1 ⊢; tauto))
        simp only [pos_of, List.nil_append, List.append_nil, List.headD_nil, List.headD_cons]
          at hsp
        rw [hb2, hbb]
        simp only [end_]
        obtain ⟨hwb3, hwa3⟩ := hsp
        refine ⟨?_, ?_⟩
        · have : (splice h2 b a c2 a).next a = a := hwa3.1.1
          simp [empty, this]
        · rw [wf_to_list _ b [c2, c3] 2 hwb3 (by simp), splice_value]
          simp [hv, hv2, hv3]
  exact hmain

theorem concrete_scenario_witness :
    to_list 3 (push_back_all (env_fit 16 99) 0 (list_default (list_default heap0 0) 1)
        [1, 2, 3]).heap 0 = some [1, 2, 3] ∧
    ∃ h2 r, erase 1 (push_back_all (env_fit 16 99) 0 (list_default (list_default heap0 0) 1)
        [1, 2, 3]).heap
        (begin_ (push_back_all (env_fit 16 99) 0 (list_default (list_default heap0 0) 1)
          [1, 2, 3]).heap 0) = some (h2, r) ∧ front h2 0 = 2 ∧
      empty (splice h2 (begin_ h2 1) 0 (begin_ h2 0) (end_ h2 0)) 0 = true ∧
      to_list 2 (splice h2 (begin_ h2 1) 0 (begin_ h2 0) (end_ h2 0)) 1 = some [2, 3] :=
  concrete_scenario (env_fit 16 99) heap0
    (push_back_all (env_fit 16 99) 0 (list_default (list_default heap0 0) 1) [1, 2, 3]).heap
    0 1 (by decide) rfl

/-- C12: for every list reachable from a default-constructed list by public
operations called within their preconditions, forward iteration terminates and
`empty()` is true exactly when the sequence it yields has length zero; and the
sentinel is its own `next` exactly when it is its own `prev`. -/
theorem empty_tracks_ring {T : Type} (E : Env T) (h : Heap T) (b : Nat) (ns : List Nat)
    (hr : Reachable E h b ns) :
    (∀ fuel, ns.length ≤ fuel → ∃ vs, to_list fuel h b = some vs ∧ vs.length = ns.length ∧
      (empty h b = true ↔ vs.length = 0)) ∧
    (h.next b = b ↔ h.prev b = b) := by
  have hwf := reachable_wf E h b ns hr
  refine ⟨?_, wf_next_eq_iff_prev_eq h b ns hwf⟩
  intro fuel hf
  refine ⟨ns.map h.value, wf_to_list h b ns fuel hwf hf, by simp, ?_⟩
  have := wf_empty_iff h b ns hwf
  simp [empty, this]

theorem empty_tracks_ring_witness :
    (∃ vs, to_list 1 heap_one 0 = some vs ∧
      vs.length = ([] ++ [heap_one.prev (end_ heap_one 0)]).length ∧
      (empty heap_one 0 = true ↔ vs.length = 0)) ∧
    (heap_one.next 0 = 0 ↔ heap_one.prev 0 = 0) :=
  ⟨(empty_tracks_ring (env_fit 16 99) heap_one 0 ([] ++ [heap_one.prev (end_ heap_one 0)])
      (Reachable.push_back_ok (list_default heap0 0) heap_one 0 [] 5 ()
        (Reachable.init heap0 0) rfl)).1 1 (by decide),
    (empty_tracks_ring (env_fit 16 99) heap_one 0 ([] ++ [heap_one.prev (end_ heap_one 0)])
      (Reachable.push_back_ok (list_default heap0 0) heap_one 0 [] 5 ()
        (Reachable.init heap0 0) rfl)).2⟩

end CppList
